import Mathlib

/-!
Parallel Research Kernels: the OpenMP stencil kernel and the serial pipeline kernel.

A shallow embedding of `src/OPENMP/Stencil/stencil.c` (namespace `Stencil`) and of
`src/SERIAL/Synch_p2p/p2p.c` (namespace `P2P`) in exact rational arithmetic.  Grids are flat buffers read through the `IN`/`OUT` index macros,
the weight table is read through the `WEIGHT` macro, and every `for` loop of the
program is a fold over its index range in source order.
-/

namespace Stencil


/-! ## Build-time configuration -/

/-- Stencil geometry: `star` is the build with `-DSTAR`, `compact` the build without. -/
inductive Shape where
  | star
  | compact
  deriving DecidableEq, Repr

/-- `COEFX` (both precisions define it as one). -/
def COEFX : ℚ := 1

/-- `COEFY` (both precisions define it as one). -/
def COEFY : ℚ := 1

/-- `EPSILON`: `1.e-8` in the `DOUBLE` build and `0.0001f` otherwise. -/
def EPSILON (double : Bool) : ℚ := if double then 1 / 100000000 else 1 / 10000

/-- Modelled from the spec: the macro `MIN` of `par-res-kern_general.h`, a header that is
not part of the sources; tiles are "clipped at the far boundary", so it is the smaller of
its two arguments. -/
def MIN (x y : Int) : Int := if x < y then x else y

/-- Modelled from the spec: the macro `ABS` of `par-res-kern_general.h`, a header that is
not part of the sources; the validator "sums the absolute value" of the output cells. -/
def ABS (x : ℚ) : ℚ := if x < 0 then -x else x

/-! ## Loops -/

/-- `for (k = lo; k < hi; k++) s = body k s`: the body runs for `lo, lo+1, ..., hi-1`. -/
def forLoop {σ : Type} (lo hi : Int) (body : Int → σ → σ) (s : σ) : σ :=
  (List.range (hi - lo).toNat).foldl (fun acc (k : Nat) => body (lo + (k : Int)) acc) s

/-- `for (k = lo; k < hi; k += step) s = body k s`, with a bound on the number of
iterations: `none` means the bound was reached while the loop condition still held. -/
def forStep {σ : Type} : Nat → Int → Int → Int → (Int → σ → Option σ) → σ → Option σ
  | 0, k, hi, _, _, s => if k < hi then none else some s
  | fuel + 1, k, hi, step, body, s =>
    if k < hi then
      match body k s with
      | some s1 => forStep fuel (k + step) hi step body s1
      | none => none
    else some s

/-! ## The weight table -/

/-- The array `weight[2*RADIUS+1][2*RADIUS+1]`, addressed by its two array indices. -/
abbrev WeightArr := Int → Int → ℚ

/-- `WEIGHT(ii,jj)` read: `weight[ii+RADIUS][jj+RADIUS]`. -/
def WEIGHT (w : WeightArr) (R ii jj : Int) : ℚ := w (ii + R) (jj + R)

/-- `WEIGHT(ii,jj) = v`. -/
def setWEIGHT (R ii jj : Int) (v : ℚ) (w : WeightArr) : WeightArr :=
  fun a b => if a = ii + R ∧ b = jj + R then v else w a b

/-- The first weight loop nest: every entry of the table is set to zero. -/
def zeroWeights (R : Int) (w : WeightArr) : WeightArr :=
  forLoop (-R) (R + 1) (fun jj w =>
    forLoop (-R) (R + 1) (fun ii w => setWEIGHT R ii jj 0 w) w) w

/-- The star weight loop.  `store ii jj v` is the assignment `WEIGHT(ii,jj) = v`; in a
chained assignment `a = b = v` the right-hand target `b` is written first. -/
def fillStar {σ : Type} (store : Int → Int → ℚ → σ → σ) (R : Int) (s : σ) : σ :=
  forLoop 1 (R + 1) (fun ii s =>
    let s := store ii 0 (1 / (2 * (ii : ℚ) * (R : ℚ))) s
    let s := store 0 ii (1 / (2 * (ii : ℚ) * (R : ℚ))) s
    let s := store (-ii) 0 (-(1 / (2 * (ii : ℚ) * (R : ℚ)))) s
    let s := store 0 (-ii) (-(1 / (2 * (ii : ℚ) * (R : ℚ)))) s
    s) s

/-- The compact weight loop nest, ring by ring.  `store ii jj v` is the assignment
`WEIGHT(ii,jj) = v`. -/
def fillCompact {σ : Type} (store : Int → Int → ℚ → σ → σ) (R : Int) (s : σ) : σ :=
  forLoop 1 (R + 1) (fun jj s =>
    let s := forLoop (-jj + 1) jj (fun ii s =>
      let s := store ii jj (1 / (4 * (jj : ℚ) * (2 * (jj : ℚ) - 1) * (R : ℚ))) s
      let s := store ii (-jj) (-(1 / (4 * (jj : ℚ) * (2 * (jj : ℚ) - 1) * (R : ℚ)))) s
      let s := store jj ii (1 / (4 * (jj : ℚ) * (2 * (jj : ℚ) - 1) * (R : ℚ))) s
      let s := store (-jj) ii (-(1 / (4 * (jj : ℚ) * (2 * (jj : ℚ) - 1) * (R : ℚ)))) s
      s) s
    let s := store jj jj (1 / (4 * (jj : ℚ) * (R : ℚ))) s
    let s := store (-jj) (-jj) (-(1 / (4 * (jj : ℚ) * (R : ℚ)))) s
    s) s

/-- The shape-specific weight loop selected by `#ifdef STAR`. -/
def fillShape {σ : Type} (shape : Shape) (store : Int → Int → ℚ → σ → σ) (R : Int)
    (s : σ) : σ :=
  match shape with
  | .star => fillStar store R s
  | .compact => fillCompact store R s

/-- "fill the stencil weights": zero the table, then run the shape's loop.  `w0` is the
content of the local array before it is written. -/
def buildWeights (shape : Shape) (R : Int) (w0 : WeightArr) : WeightArr :=
  fillShape shape (setWEIGHT R) R (zeroWeights R w0)

/-- The offsets assigned by the shape's weight loop, in the order of the assignments. -/
def weightWrites (shape : Shape) (R : Int) : List (Int × Int) :=
  fillShape shape (fun ii jj _ log => log ++ [(ii, jj)]) R []

/-- `stencil_size`. -/
def stencil_size (shape : Shape) (R : Int) : Int :=
  match shape with
  | .star => 4 * R + 1
  | .compact => (2 * R + 1) * (2 * R + 1)

/-! ## Grids and the stencil engine -/

/-- A grid buffer (`in` or `out`): the value stored at each flat index. -/
@[ext]
structure Grid where
  /-- the element `buf[k]` -/
  cell : Int → ℚ

/-- The flat index `i+(j)*(n)` of the macros `IN(i,j)` and `OUT(i,j)`. -/
def idx (n i j : Int) : Int := i + j * n

/-- `buf[k] = v`. -/
def setAt (g : Grid) (k : Int) (v : ℚ) : Grid := ⟨fun p => if p = k then v else g.cell p⟩

/-- `buf[k] += v`. -/
def addAt (g : Grid) (k : Int) (v : ℚ) : Grid := setAt g k (g.cell k + v)

/-- The loops applied to one cell `(i,j)`: three 1-D loops in the star build, the 2-D
double loop in the compact build. -/
def stencilCell (shape : Shape) (R n : Int) (w : WeightArr) (inp : Grid) (i j : Int)
    (out : Grid) : Grid :=
  match shape with
  | .star =>
    let out := forLoop (-R) (R + 1) (fun jj out =>
      addAt out (idx n i j) (WEIGHT w R 0 jj * inp.cell (idx n i (j + jj)))) out
    let out := forLoop (-R) 0 (fun ii out =>
      addAt out (idx n i j) (WEIGHT w R ii 0 * inp.cell (idx n (i + ii) j))) out
    let out := forLoop 1 (R + 1) (fun ii out =>
      addAt out (idx n i j) (WEIGHT w R ii 0 * inp.cell (idx n (i + ii) j))) out
    out
  | .compact =>
    forLoop (-R) (R + 1) (fun jj out =>
      forLoop (-R) (R + 1) (fun ii out =>
        addAt out (idx n i j) (WEIGHT w R ii jj * inp.cell (idx n (i + ii) (j + jj)))) out) out

/-- The untiled branch: rows `j`, then columns `i`, over the interior. -/
def untiledPass (shape : Shape) (R n : Int) (w : WeightArr) (inp out : Grid) : Grid :=
  forLoop R (n - R) (fun j out =>
    forLoop R (n - R) (fun i out => stencilCell shape R n w inp i j out) out) out

/-- The tiled branch: tile origins `j`, `i` step by `tile_size`; inside a tile the rows
`jt` and columns `it` stop at `MIN(n-RADIUS, origin+tile_size)`. -/
def tiledPass (fuel : Nat) (shape : Shape) (R n tile_size : Int) (w : WeightArr)
    (inp out : Grid) : Option Grid :=
  forStep fuel R (n - R) tile_size (fun j out =>
    forStep fuel R (n - R) tile_size (fun i out =>
      some (forLoop j (MIN (n - R) (j + tile_size)) (fun jt out =>
        forLoop i (MIN (n - R) (i + tile_size)) (fun it out =>
          stencilCell shape R n w inp it jt out) out) out)) out) out

/-- "Apply the stencil operator; only use tiling if the tile size is smaller than the
interior part of the grid". -/
def stencilPass (fuel : Nat) (shape : Shape) (R n tile_size : Int) (w : WeightArr)
    (inp out : Grid) : Option Grid :=
  if tile_size < n - 2 * R then tiledPass fuel shape R n tile_size w inp out
  else some (untiledPass shape R n w inp out)

/-! ## The iteration driver and the validator -/

/-- "intialize the input and output arrays": `IN(i,j) = COEFX*i+COEFY*j` on the whole grid. -/
def initIn (n : Int) (in0 : Grid) : Grid :=
  forLoop 0 n (fun j g =>
    forLoop 0 n (fun i g => setAt g (idx n i j) (COEFX * (i : ℚ) + COEFY * (j : ℚ))) g) in0

/-- "intialize the input and output arrays": `OUT(i,j) = 0` on the interior. -/
def initOut (R n : Int) (out0 : Grid) : Grid :=
  forLoop R (n - R) (fun j g =>
    forLoop R (n - R) (fun i g => setAt g (idx n i j) 0) g) out0

/-- "add constant to solution to force refresh of neighbor data": `IN(i,j) += 1.0`. -/
def refresh (n : Int) (inp : Grid) : Grid :=
  forLoop 0 n (fun j g => forLoop 0 n (fun i g => addAt g (idx n i j) 1) g) inp

/-- One round of the iteration loop on the pair `(in, out)`. -/
def round (fuel : Nat) (shape : Shape) (R n tile_size : Int) (w : WeightArr)
    (st : Grid × Grid) : Option (Grid × Grid) :=
  match stencilPass fuel shape R n tile_size w st.1 st.2 with
  | some out1 => some (refresh n st.1, out1)
  | none => none

/-- `for (iter = 0; iter<iterations; iter++)` over the rounds. -/
def iterate (fuel : Nat) (shape : Shape) (R n tile_size : Int) (w : WeightArr)
    (iterations : Int) (st : Grid × Grid) : Option (Grid × Grid) :=
  forLoop 0 iterations (fun _ acc =>
    match acc with
    | some s => round fuel shape R n tile_size w s
    | none => none) (some st)

/-- The reduction loop "compute L1 norm", started from `norm = 0`. -/
def normSum (R n : Int) (out : Grid) : ℚ :=
  forLoop R (n - R) (fun j norm =>
    forLoop R (n - R) (fun i norm => norm + ABS (out.cell (idx n i j))) norm) 0

/-- `f_active_points`. -/
def f_active_points (R n : Int) : ℚ := ((n - 2 * R : Int) : ℚ) * ((n - 2 * R : Int) : ℚ)

/-- `reference_norm`. -/
def reference_norm (iterations : Int) : ℚ := (iterations : ℚ) * (COEFX + COEFY)

/-- The norm after `norm /= f_active_points`, for the whole computation from the weight
fill to the reduction.  `w0`, `in0`, `out0` are the contents of the weight array and of the
two buffers before the program writes them. -/
def computeNorm (fuel : Nat) (shape : Shape) (R n tile_size iterations : Int)
    (w0 : WeightArr) (in0 out0 : Grid) : Option ℚ :=
  let w := buildWeights shape R w0
  match iterate fuel shape R n tile_size w iterations (initIn n in0, initOut R n out0) with
  | some st => some (normSum R n st.2 / f_active_points R n)
  | none => none

/-- "verify correctness": `true` is "Solution validates", `false` the failure exit. -/
def validates (double : Bool) (norm : ℚ) (iterations : Int) : Bool :=
  if ABS (norm - reference_norm iterations) > EPSILON double then false else true

/-! ## Closed forms and predicates used in the proofs -/

/-- Closed form of the star weights at offset `(a, b)`. -/
def starW (R a b : Int) : ℚ :=
  if b = 0 then 1 / (2 * (a : ℚ) * (R : ℚ))
  else if a = 0 then 1 / (2 * (b : ℚ) * (R : ℚ))
  else 0

/-- Closed form of the compact weights at offset `(a, b)`: the two diagonal corners of a
ring, its two anti-diagonal corners, and its four edges. -/
def compactW (R a b : Int) : ℚ :=
  if a = b then 1 / (4 * (a : ℚ) * (R : ℚ))
  else if a = -b then 0
  else if -b < a ∧ a < b then 1 / (4 * (b : ℚ) * (2 * (b : ℚ) - 1) * (R : ℚ))
  else if b < a ∧ a < -b then 1 / (4 * (b : ℚ) * (2 * (-b : ℚ) - 1) * (R : ℚ))
  else if -a < b ∧ b < a then 1 / (4 * (a : ℚ) * (2 * (a : ℚ) - 1) * (R : ℚ))
  else 1 / (4 * (a : ℚ) * (2 * (-a : ℚ) - 1) * (R : ℚ))

/-- Closed form of the weights of either shape. -/
def shapeW (shape : Shape) (R a b : Int) : ℚ :=
  match shape with
  | .star => starW R a b
  | .compact => compactW R a b

/-- On the offsets `[-R, R] x [-R, R]` the table holds `f` where `S` holds and zero elsewhere. -/
def Agrees (R : Int) (S : Int → Int → Prop) (f : Int → Int → ℚ) (w : WeightArr) : Prop :=
  ∀ a b, -R ≤ a → a ≤ R → -R ≤ b → b ≤ R →
    (S a b → WEIGHT w R a b = f a b) ∧ (¬ S a b → WEIGHT w R a b = 0)

/-- A write log without repeated cells, all of whose cells satisfy `S`. -/
def LogOk (S : Int → Int → Prop) (log : List (Int × Int)) : Prop :=
  log.Nodup ∧ ∀ c ∈ log, S c.1 c.2


/-- The value one application of the stencil adds to cell `(i, j)`, as the code sums it:
the three 1-D sums of the star build, the 2-D double sum of the compact build. -/
def cellResponse (shape : Shape) (R n : Int) (w : WeightArr) (inp : Grid) (i j : Int) : ℚ :=
  match shape with
  | .star =>
    ∑ jj ∈ Finset.Ico (-R) (R + 1), WEIGHT w R 0 jj * inp.cell (idx n i (j + jj)) +
      ∑ ii ∈ Finset.Ico (-R) 0, WEIGHT w R ii 0 * inp.cell (idx n (i + ii) j) +
      ∑ ii ∈ Finset.Ico 1 (R + 1), WEIGHT w R ii 0 * inp.cell (idx n (i + ii) j)
  | .compact =>
    ∑ jj ∈ Finset.Ico (-R) (R + 1), ∑ ii ∈ Finset.Ico (-R) (R + 1),
      WEIGHT w R ii jj * inp.cell (idx n (i + ii) (j + jj))

/-- The general 2-D stencil sum at cell `(i, j)` over the offsets `[-R, R] x [-R, R]`. -/
def stencilSum (R n : Int) (w : WeightArr) (inp : Grid) (i j : Int) : ℚ :=
  ∑ di ∈ Finset.Icc (-R) R, ∑ dj ∈ Finset.Icc (-R) R,
    WEIGHT w R di dj * inp.cell (idx n (i + di) (j + dj))

/-- The grid `g1` is `g` with every cell `(a, b)` of the region `A` replaced by
`F a b (old value)`, and every other element of the buffer unchanged.  A flat index `p`
is the cell `(p % n, p / n)`. -/
def Upd (n : Int) (F : Int → Int → ℚ → ℚ) (A : Int → Int → Prop) (g g1 : Grid) : Prop :=
  ∀ p : Int, (A (p % n) (p / n) → g1.cell p = F (p % n) (p / n) (g.cell p)) ∧
    (¬ A (p % n) (p / n) → g1.cell p = g.cell p)

/-- The whole run: the computed norm, then the validation test. -/
def stencilMain (fuel : Nat) (double : Bool) (shape : Shape) (R n tile_size iterations : Int)
    (w0 : WeightArr) (in0 out0 : Grid) : Option Bool :=
  match computeNorm fuel shape R n tile_size iterations w0 in0 out0 with
  | some norm => some (validates double norm iterations)
  | none => none

/-! ## Input processing -/

/-- The value of an `int` expression: 32-bit two's complement with wrap-around. -/
def wrapInt (x : Int) : Int := (x + 2 ^ 31) % 2 ^ 32 - 2 ^ 31

/-- The value of a `size_t` expression: 64-bit unsigned. -/
def toSizeT (x : Int) : Int := x % 2 ^ 64

/-- `sizeof(DTYPE)`: 8 in the `DOUBLE` build, 4 otherwise. -/
def sizeofDTYPE (double : Bool) : Int := if double then 8 else 4

/-- `total_length = n*n*sizeof(DTYPE)`: the product `n*n` is an `int`, the product with
`sizeof` a `size_t`, and the result is stored in an `int`. -/
def total_length (double : Bool) (n : Int) : Int :=
  wrapInt (toSizeT (toSizeT (wrapInt (n * n)) * sizeofDTYPE double))

/-- The diagnostics of the input tests, one per `printf` before a failure exit. -/
inductive ConfigError where
  | usage
  | threads
  | iterations
  | gridDimension
  | radius
  | radiusExceedsGrid
  | gridSpace
  | tileSize
  deriving DecidableEq, Repr

/-- The variables set by the input tests. -/
structure Config where
  nthread_input : Int
  iterations : Int
  n : Int
  tile_size : Int
  total_length : Int
  deriving DecidableEq, Repr

/-- "process and test input parameters", from the test of `argc` to the tile size.
`arg k` is `atoi` of the `k`-th command-line argument; `MAX_THREADS` comes from a header
that is not part of the sources and is a parameter. -/
def processInput (MAX_THREADS RADIUS : Int) (double : Bool) (argc : Int) (arg : Nat → Int) :
    Except ConfigError Config :=
  if argc ≠ 4 ∧ argc ≠ 5 then .error .usage
  else if arg 1 < 1 ∨ arg 1 > MAX_THREADS then .error .threads
  else if arg 2 < 1 then .error .iterations
  else if arg 3 < 1 then .error .gridDimension
  else if RADIUS < 1 then .error .radius
  else if 2 * RADIUS + 1 > arg 3 then .error .radiusExceedsGrid
  else if toSizeT (Int.tdiv (total_length double (arg 3)) (arg 3)) ≠
      toSizeT (toSizeT (arg 3) * sizeofDTYPE double) then .error .gridSpace
  else if argc = 5 then
    if arg 4 < 1 then .error .tileSize
    else .ok ⟨arg 1, arg 2, arg 3, arg 4, total_length double (arg 3)⟩
  else .ok ⟨arg 1, arg 2, arg 3, arg 3, total_length double (arg 3)⟩

/-- What the start of `main` does to the outside: a failure exit, or the allocation of a
grid buffer of the given byte length. -/
inductive Event where
  | exitFailure
  | malloc (bytes : Int)
  deriving DecidableEq, Repr

/-- The start of `main` up to the allocation of the two grid buffers. -/
def startup (MAX_THREADS RADIUS : Int) (double : Bool) (argc : Int) (arg : Nat → Int) :
    List Event :=
  match processInput MAX_THREADS RADIUS double argc arg with
  | .error _ => [Event.exitFailure]
  | .ok c => [Event.malloc c.total_length, Event.malloc c.total_length]

/-- The accepted configurations in the words of the specification: threads in
`[1, MAX_THREADS]`, at least one iteration, a radius of at least one, a grid that hosts the
footprint, a grid byte length that an `int` represents, and a tile size (when given) of at
least one. -/
abbrev specAccepts (MAX_THREADS RADIUS : Int) (double : Bool) (argc : Int) (arg : Nat → Int) :
    Prop :=
  1 ≤ arg 1 ∧ arg 1 ≤ MAX_THREADS ∧ 1 ≤ arg 2 ∧ 1 ≤ RADIUS ∧ 2 * RADIUS + 1 ≤ arg 3 ∧
    arg 3 * arg 3 * sizeofDTYPE double ≤ 2 ^ 31 - 1 ∧ (argc = 5 → 1 ≤ arg 4)

/-! ## The memory of a pass, the order of the visits, and checked accesses -/

/-- The memory a pass works on: the two grid buffers (separate allocations) and the weight
table. -/
structure Mem where
  /-- the buffer `in` -/
  inp : Grid
  /-- the buffer `out` -/
  out : Grid
  /-- the array `weight` -/
  weight : WeightArr

/-- One pass of the engine on the memory: its only assignments are the `OUT(..) +=` of the
cell loops. -/
def passMem (fuel : Nat) (shape : Shape) (R n tile_size : Int) (m : Mem) : Option Mem :=
  match stencilPass fuel shape R n tile_size m.weight m.inp m.out with
  | some out1 => some ⟨m.inp, out1, m.weight⟩
  | none => none

/-- The tiled loop nest with the statement applied to a cell `(it, jt)` left open. -/
def tiledLoops {σ : Type} (fuel : Nat) (R n tile_size : Int) (cell : Int → Int → σ → σ)
    (s : σ) : Option σ :=
  forStep fuel R (n - R) tile_size (fun j s =>
    forStep fuel R (n - R) tile_size (fun i s =>
      some (forLoop j (MIN (n - R) (j + tile_size)) (fun jt s =>
        forLoop i (MIN (n - R) (i + tile_size)) (fun it s => cell it jt s) s) s)) s) s

/-- The cells `(it, jt)` the tiled loop nest visits, in the order of the visits. -/
def tiledVisits (fuel : Nat) (R n tile_size : Int) : Option (List (Int × Int)) :=
  tiledLoops fuel R n tile_size (fun it jt log => log ++ [(it, jt)]) []

/-- The log `l1` is the log `l` followed by the cells of the region `A`, each once. -/
def Vis (A : Int → Int → Prop) (l l1 : List (Int × Int)) : Prop :=
  ∃ e : List (Int × Int), l1 = l ++ e ∧ e.Nodup ∧ ∀ a b, (a, b) ∈ e ↔ A a b

/-- `for (k = lo; k < hi; k++)` with a body that can fail: the first failure ends the run. -/
def forLoopOpt {σ : Type} (lo hi : Int) (body : Int → σ → Option σ) (s : σ) : Option σ :=
  forLoop lo hi (fun k acc =>
    match acc with
    | some t => body k t
    | none => none) (some s)

/-- The read `buf[k]` of a buffer of `len` elements, `none` outside the buffer. -/
def readAt (len : Int) (g : Grid) (k : Int) : Option ℚ :=
  if 0 ≤ k ∧ k < len then some (g.cell k) else none

/-- The update `buf[k] += v` of a buffer of `len` elements, `none` outside the buffer. -/
def addAtChecked (len : Int) (g : Grid) (k : Int) (v : ℚ) : Option Grid :=
  if 0 ≤ k ∧ k < len then some (addAt g k v) else none

/-- The read `WEIGHT(ii,jj)`, `none` when an index of `weight[ii+RADIUS][jj+RADIUS]` is
outside `[0, 2*RADIUS]`. -/
def readWEIGHT (w : WeightArr) (R ii jj : Int) : Option ℚ :=
  if 0 ≤ ii + R ∧ ii + R ≤ 2 * R ∧ 0 ≤ jj + R ∧ jj + R ≤ 2 * R then some (WEIGHT w R ii jj)
  else none

/-- The statement `out[kout] += WEIGHT(ii,jj) * in[kin]` on buffers of `n*n` elements, every
access checked. -/
def accumChecked (R n : Int) (w : WeightArr) (inp : Grid) (ii jj kin kout : Int)
    (out : Grid) : Option Grid :=
  match readWEIGHT w R ii jj, readAt (n * n) inp kin with
  | some wv, some x => addAtChecked (n * n) out kout (wv * x)
  | _, _ => none

/-- The loops applied to one cell, every access checked. -/
def stencilCellChecked (shape : Shape) (R n : Int) (w : WeightArr) (inp : Grid) (i j : Int)
    (out : Grid) : Option Grid :=
  match shape with
  | .star =>
    match forLoopOpt (-R) (R + 1) (fun jj out =>
        accumChecked R n w inp 0 jj (idx n i (j + jj)) (idx n i j) out) out with
    | some out1 =>
      match forLoopOpt (-R) 0 (fun ii out =>
          accumChecked R n w inp ii 0 (idx n (i + ii) j) (idx n i j) out) out1 with
      | some out2 =>
        forLoopOpt 1 (R + 1) (fun ii out =>
          accumChecked R n w inp ii 0 (idx n (i + ii) j) (idx n i j) out) out2
      | none => none
    | none => none
  | .compact =>
    forLoopOpt (-R) (R + 1) (fun jj out =>
      forLoopOpt (-R) (R + 1) (fun ii out =>
        accumChecked R n w inp ii jj (idx n (i + ii) (j + jj)) (idx n i j) out) out) out

/-- The untiled branch, every access checked. -/
def untiledPassChecked (shape : Shape) (R n : Int) (w : WeightArr) (inp out : Grid) :
    Option Grid :=
  forLoopOpt R (n - R) (fun j out =>
    forLoopOpt R (n - R) (fun i out => stencilCellChecked shape R n w inp i j out) out) out

/-- The tiled branch, every access checked. -/
def tiledPassChecked (fuel : Nat) (shape : Shape) (R n tile_size : Int) (w : WeightArr)
    (inp out : Grid) : Option Grid :=
  forStep fuel R (n - R) tile_size (fun j out =>
    forStep fuel R (n - R) tile_size (fun i out =>
      forLoopOpt j (MIN (n - R) (j + tile_size)) (fun jt out =>
        forLoopOpt i (MIN (n - R) (i + tile_size)) (fun it out =>
          stencilCellChecked shape R n w inp it jt out) out) out) out) out

/-- One pass of the engine, every access checked. -/
def stencilPassChecked (fuel : Nat) (shape : Shape) (R n tile_size : Int) (w : WeightArr)
    (inp out : Grid) : Option Grid :=
  if tile_size < n - 2 * R then tiledPassChecked fuel shape R n tile_size w inp out
  else untiledPassChecked shape R n w inp out

/-! ## Timing -/

/-- Modelled from the spec: the macro `MIN` of `par-res-kern_general.h` (a header that is
not part of the sources) applied to two times; the running minimum of the timing samples is
the smaller of its two arguments. -/
def MINd (x y : ℚ) : ℚ := if x < y then x else y

/-- Modelled from the spec: the macro `MAX` of `par-res-kern_general.h` (a header that is
not part of the sources) applied to two times; the running maximum of the timing samples is
the larger of its two arguments. -/
def MAXd (x y : ℚ) : ℚ := if x > y then x else y

/-- Modelled from the spec: the macro `MAX` of `par-res-kern_general.h` (a header that is
not part of the sources) applied to two `int`s, as in `MAX(iterations-1,1)`. -/
def MAXi (x y : Int) : Int := if x > y then x else y

/-- The timing variables `avgtime`, `maxtime`, `mintime`. -/
structure Timing where
  avgtime : ℚ
  maxtime : ℚ
  mintime : ℚ

/-- The initial values: `avgtime = 0.0`, `maxtime = 0.0`, `mintime = 366.0*24.0*3600.0`. -/
def timingInit : Timing := ⟨0, 0, 366 * 24 * 3600⟩

/-- The timing block of round `iter`, with `stencil_time` the elapsed time of the round. -/
def timingStep (iterations iter : Int) (stencil_time : ℚ) (tm : Timing) : Timing :=
  if iter > 0 ∨ iterations = 1 then
    ⟨tm.avgtime + stencil_time, MAXd tm.maxtime stencil_time, MINd tm.mintime stencil_time⟩
  else tm

/-- The timing variables after the iteration loop; `t iter` is the elapsed time of round
`iter`. -/
def timingLoop (iterations : Int) (t : Int → ℚ) : Timing :=
  forLoop 0 iterations (fun iter tm => timingStep iterations iter (t iter) tm) timingInit

/-- `avgtime = avgtime/(double)(MAX(iterations-1,1))`, the reported average. -/
def reportedAvg (iterations : Int) (t : Int → ℚ) : ℚ :=
  (timingLoop iterations t).avgtime / ((MAXi (iterations - 1) 1 : Int) : ℚ)

end Stencil

namespace P2P

open Stencil

/-! ## The serial pipeline kernel `p2p.c` -/

/-- `ARRAY(i,j)`, the element `vector[i+(j)*(m)]`. -/
def ARRAY (m : Int) (vector : Grid) (i j : Int) : ℚ := vector.cell (i + j * m)

/-- `ARRAY(i,j) = x`. -/
def setARRAY (m : Int) (vector : Grid) (i j : Int) (x : ℚ) : Grid :=
  setAt vector (i + j * m) x

/-- The input tests of `p2p.c` after the argument count: the number of iterations, the grid
dimensions, and the length `m*n` (an `int`) against `MEMWORDS`. -/
def inputAccepted (MEMWORDS iterations m n : Int) : Bool :=
  if iterations < 1 then false
  else if m < 1 ∨ n < 1 then false
  else if Int.tdiv (wrapInt (m * n)) n ≠ m ∨ wrapInt (m * n) > MEMWORDS then false
  else true

/-- `for (j=0; j<n; j++) for (i=0; i<m; i++) ARRAY(i,j) = 0.0;` -/
def clearArray (m n : Int) (vector : Grid) : Grid :=
  forLoop 0 n (fun j v => forLoop 0 m (fun i v => setARRAY m v i j 0) v) vector

/-- The boundary values: `ARRAY(0,j) = (double) j` for all `j`, then
`ARRAY(i,0) = (double) i` for all `i`. -/
def setBoundary (m n : Int) (vector : Grid) : Grid :=
  forLoop 0 m (fun i v => setARRAY m v i 0 (i : ℚ))
    (forLoop 0 n (fun j v => setARRAY m v 0 j (j : ℚ)) vector)

/-- One sweep: `for (j=1; j<n; j++) for (i=1; i<m; i++)
ARRAY(i,j) = ARRAY(i-1,j) + ARRAY(i,j-1) - ARRAY(i-1,j-1);` -/
def sweep (m n : Int) (vector : Grid) : Grid :=
  forLoop 1 n (fun j v => forLoop 1 m (fun i v =>
    setARRAY m v i j (ARRAY m v (i - 1) j + ARRAY m v i (j - 1) - ARRAY m v (i - 1) (j - 1)))
    v) vector

/-- One iteration of the pipeline: the sweep, then `ARRAY(0,0) = -ARRAY(m-1,n-1);`. -/
def pipelineRound (m n : Int) (vector : Grid) : Grid :=
  setARRAY m (sweep m n vector) 0 0 (-(ARRAY m (sweep m n vector) (m - 1) (n - 1)))

/-- The array after the clearing, the boundary values and `iterations` iterations. -/
def pipeline (m n iterations : Int) (vector : Grid) : Grid :=
  forLoop 0 iterations (fun _ v => pipelineRound m n v)
    (setBoundary m n (clearArray m n vector))

/-- The verification value `(double)(iterations*(n+m-2))`, the product computed in `int`. -/
def corner_val (iterations m n : Int) : ℚ := ((wrapInt (iterations * (n + m - 2)) : Int) : ℚ)

/-- The value `ARRAY(m-1,n-1)` that the program compares with `corner_val`. -/
def cornerValue (m n iterations : Int) (vector : Grid) : ℚ :=
  ARRAY m (pipeline m n iterations vector) (m - 1) (n - 1)

/-- The value expected in cell `(a,b)` after a sweep that started with `ARRAY(0,0) = c`. -/
def sweptValue (c : ℚ) (a b : Int) : ℚ :=
  if a = 0 ∧ b = 0 then c else if a = 0 ∨ b = 0 then (a : ℚ) + (b : ℚ)
  else (a : ℚ) + (b : ℚ) - c

/-- The cells of the boundary and of the region `done` hold their expected values. -/
def Swept (m n : Int) (c : ℚ) (done : Int → Int → Prop) (v : Grid) : Prop :=
  ∀ a b, 0 ≤ a → a < m → 0 ≤ b → b < n → (a = 0 ∨ b = 0 ∨ done a b) →
    ARRAY m v a b = sweptValue c a b

end P2P

namespace Stencil

/-! ## Loop rules -/

theorem forLoop_empty {σ : Type} (lo hi : Int) (body : Int → σ → σ) (s : σ) (h : hi ≤ lo) :
    forLoop lo hi body s = s := by
  have h0 : (hi - lo).toNat = 0 := by omega
  simp [forLoop, h0]

theorem forLoop_succ {σ : Type} (lo hi : Int) (body : Int → σ → σ) (s : σ) (h : lo ≤ hi) :
    forLoop lo (hi + 1) body s = body hi (forLoop lo hi body s) := by
  have h1 : (hi + 1 - lo).toNat = (hi - lo).toNat + 1 := by omega
  have h2 : lo + (((hi - lo).toNat : Nat) : Int) = hi := by omega
  simp only [forLoop, h1, List.range_succ, List.foldl_append, List.foldl_cons, List.foldl_nil, h2]

/-- Invariant rule for `forLoop`. -/
theorem forLoop_inv {σ : Type} (P : Int → σ → Prop) (lo hi : Int) (body : Int → σ → σ)
    (s : σ) (hle : lo ≤ hi) (h0 : P lo s)
    (hstep : ∀ k t, lo ≤ k → k < hi → P k t → P (k + 1) (body k t)) :
    P hi (forLoop lo hi body s) := by
  have key : ∀ m : Nat, lo + (m : Int) ≤ hi → P (lo + (m : Int)) (forLoop lo (lo + (m : Int)) body s) := by
    intro m
    induction m with
    | zero =>
      intro _
      simpa [forLoop_empty] using h0
    | succ m ih =>
      intro hm
      have hm1 : lo + (m : Int) ≤ hi := by push_cast at hm; omega
      have e : lo + ((m + 1 : Nat) : Int) = (lo + (m : Int)) + 1 := by push_cast; ring
      rw [e, forLoop_succ lo (lo + (m : Int)) body s (by omega)]
      exact hstep _ _ (by omega) (by push_cast at hm; omega) (ih hm1)
  have := key (hi - lo).toNat (by omega)
  have e : lo + (((hi - lo).toNat : Nat) : Int) = hi := by omega
  rwa [e] at this

/-- Two loops with bodies that agree on the index range compute the same state. -/
theorem forLoop_congr {σ : Type} (lo hi : Int) (body1 body2 : Int → σ → σ) (s : σ)
    (h : ∀ k t, lo ≤ k → k < hi → body1 k t = body2 k t) :
    forLoop lo hi body1 s = forLoop lo hi body2 s := by
  rcases le_or_lt lo hi with hle | hlt
  · refine forLoop_inv (fun k t => forLoop lo k body1 s = t) lo hi body2 s hle
      (forLoop_empty _ _ _ _ le_rfl) ?_
    intro k t h1 h2 ht
    show forLoop lo (k + 1) body1 s = body2 k t
    rw [forLoop_succ _ _ _ _ h1, ht, h k t h1 h2]
  · rw [forLoop_empty _ _ _ _ hlt.le, forLoop_empty _ _ _ _ hlt.le]

/-- Invariant rule for `forStep`: with a positive step and enough fuel the loop returns,
and the invariant holds at the first index that fails the loop condition. -/
theorem forStep_inv {σ : Type} (P : Int → σ → Prop) (hi step : Int)
    (body : Int → σ → Option σ) (hstep : 1 ≤ step)
    (hbody : ∀ k t, k < hi → P k t → ∃ t1, body k t = some t1 ∧ P (k + step) t1) :
    ∀ (fuel : Nat) (k : Int) (s : σ), hi - k ≤ (fuel : Int) → P k s →
      ∃ s1 k1, forStep fuel k hi step body s = some s1 ∧ hi ≤ k1 ∧ k ≤ k1 ∧
        (k1 < hi + step ∨ k1 = k) ∧ P k1 s1 := by
  intro fuel
  induction fuel with
  | zero =>
    intro k s hf hP
    have : ¬ k < hi := by push_cast at hf; omega
    exact ⟨s, k, by simp [forStep, this], by omega, le_rfl, Or.inr rfl, hP⟩
  | succ fuel ih =>
    intro k s hf hP
    by_cases hk : k < hi
    · obtain ⟨t1, hb, hP1⟩ := hbody k s hk hP
      obtain ⟨s1, k1, hrun, h1, h2, h3, h4⟩ := ih (k + step) t1 (by push_cast at hf; omega) hP1
      refine ⟨s1, k1, by simp [forStep, hk, hb, hrun], h1, by omega, ?_, h4⟩
      left
      rcases h3 with h3 | h3 <;> omega
    · exact ⟨s, k, by simp [forStep, hk], by omega, le_rfl, Or.inr rfl, hP⟩

/-! ## The weight table in closed form -/

theorem WEIGHT_setWEIGHT (R ii jj : Int) (v : ℚ) (w : WeightArr) (a b : Int) :
    WEIGHT (setWEIGHT R ii jj v w) R a b = if a = ii ∧ b = jj then v else WEIGHT w R a b := by
  unfold WEIGHT setWEIGHT
  by_cases h : a = ii ∧ b = jj
  · rw [if_pos h, if_pos ⟨by omega, by omega⟩]
  · rw [if_neg h, if_neg (by omega)]

theorem Agrees.set {R : Int} {S : Int → Int → Prop} {f : Int → Int → ℚ} {w : WeightArr}
    (h : Agrees R S f w) (ii jj : Int) (v : ℚ) (hv : v = f ii jj) :
    Agrees R (fun a b => S a b ∨ (a = ii ∧ b = jj)) f (setWEIGHT R ii jj v w) := by
  intro a b h1 h2 h3 h4
  rw [WEIGHT_setWEIGHT]
  by_cases hc : a = ii ∧ b = jj
  · rw [if_pos hc]
    obtain ⟨rfl, rfl⟩ := hc
    exact ⟨fun _ => hv, fun hn => absurd (Or.inr ⟨rfl, rfl⟩) hn⟩
  · rw [if_neg hc]
    refine ⟨fun hs => ?_, fun hn => ?_⟩
    · rcases hs with hs | hs
      · exact (h a b h1 h2 h3 h4).1 hs
      · exact absurd hs hc
    · exact (h a b h1 h2 h3 h4).2 (fun hs => hn (Or.inl hs))

theorem Agrees.iff_congr {R : Int} {S T : Int → Int → Prop} {f : Int → Int → ℚ} {w : WeightArr}
    (h : Agrees R S f w)
    (hST : ∀ a b, -R ≤ a → a ≤ R → -R ≤ b → b ≤ R → (S a b ↔ T a b)) :
    Agrees R T f w := by
  intro a b h1 h2 h3 h4
  rw [← hST a b h1 h2 h3 h4]
  exact h a b h1 h2 h3 h4

/-- After the zeroing loop nest every entry of the table is zero. -/
theorem zeroWeights_zero (R : Int) (w0 : WeightArr) (a b : Int)
    (h1 : -R ≤ a) (h2 : a ≤ R) (h3 : -R ≤ b) (h4 : b ≤ R) :
    WEIGHT (zeroWeights R w0) R a b = 0 := by
  have hR : -R ≤ R + 1 := by omega
  have inner : ∀ (jj : Int) (w : WeightArr) (a b : Int),
      WEIGHT (forLoop (-R) (R + 1) (fun ii w => setWEIGHT R ii jj 0 w) w) R a b =
        if b = jj ∧ -R ≤ a ∧ a < R + 1 then 0 else WEIGHT w R a b := by
    intro jj w
    refine forLoop_inv (fun k t => ∀ a b, WEIGHT t R a b =
      if b = jj ∧ -R ≤ a ∧ a < k then 0 else WEIGHT w R a b) (-R) (R + 1) _ w hR ?_ ?_
    · intro a b
      rw [if_neg (by omega)]
    · intro k t hk1 hk2 ht a b
      rw [WEIGHT_setWEIGHT, ht]
      split_ifs <;> first | rfl | omega
  have outer : ∀ a b, WEIGHT (zeroWeights R w0) R a b =
      if -R ≤ b ∧ b < R + 1 ∧ -R ≤ a ∧ a < R + 1 then 0 else WEIGHT w0 R a b := by
    unfold zeroWeights
    refine forLoop_inv (fun k t => ∀ a b, WEIGHT t R a b =
      if -R ≤ b ∧ b < k ∧ -R ≤ a ∧ a < R + 1 then 0 else WEIGHT w0 R a b) (-R) (R + 1) _ w0 hR ?_ ?_
    · intro a b
      rw [if_neg (by omega)]
    · intro k t hk1 hk2 ht a b
      rw [inner, ht]
      split_ifs <;> first | rfl | omega
  rw [outer, if_pos (by omega)]

theorem zeroWeights_agrees (R : Int) (w0 : WeightArr) (f : Int → Int → ℚ) :
    Agrees R (fun _ _ => False) f (zeroWeights R w0) := by
  intro a b h1 h2 h3 h4
  exact ⟨fun h => absurd h id, fun _ => zeroWeights_zero R w0 a b h1 h2 h3 h4⟩

theorem starW_pos_row (R k : Int) : starW R k 0 = 1 / (2 * (k : ℚ) * (R : ℚ)) := by
  simp [starW]

theorem starW_pos_col (R k : Int) (hk : k ≠ 0) : starW R 0 k = 1 / (2 * (k : ℚ) * (R : ℚ)) := by
  simp [starW, hk]

theorem starW_neg_row (R k : Int) :
    starW R (-k) 0 = -(1 / (2 * (k : ℚ) * (R : ℚ))) := by
  simp [starW]
  ring

theorem starW_neg_col (R k : Int) (hk : k ≠ 0) :
    starW R 0 (-k) = -(1 / (2 * (k : ℚ) * (R : ℚ))) := by
  simp [starW, hk]
  ring

/-- The star table in closed form. -/
theorem star_agrees (R : Int) (hR : 0 ≤ R) (w0 : WeightArr) :
    Agrees R (fun a b => (b = 0 ∧ a ≠ 0) ∨ (a = 0 ∧ b ≠ 0)) (starW R)
      (buildWeights .star R w0) := by
  unfold buildWeights fillShape fillStar
  have h := forLoop_inv (fun k t => Agrees R
      (fun a b => (b = 0 ∧ a ≠ 0 ∧ -k < a ∧ a < k) ∨ (a = 0 ∧ b ≠ 0 ∧ -k < b ∧ b < k))
      (starW R) t) 1 (R + 1)
    (fun ii s =>
      let s := setWEIGHT R ii 0 (1 / (2 * (ii : ℚ) * (R : ℚ))) s
      let s := setWEIGHT R 0 ii (1 / (2 * (ii : ℚ) * (R : ℚ))) s
      let s := setWEIGHT R (-ii) 0 (-(1 / (2 * (ii : ℚ) * (R : ℚ)))) s
      let s := setWEIGHT R 0 (-ii) (-(1 / (2 * (ii : ℚ) * (R : ℚ)))) s
      s) (zeroWeights R w0) (by omega) ?_ ?_
  · refine h.iff_congr ?_
    intro a b h1 h2 h3 h4
    beta_reduce
    constructor <;> intro h5 <;> omega
  · refine (zeroWeights_agrees R w0 _).iff_congr ?_
    intro a b h1 h2 h3 h4
    beta_reduce
    constructor <;> intro h5
    · exact h5.elim
    · omega
  · intro k t hk1 hk2 ht
    have hk0 : k ≠ 0 := by omega
    refine ((((ht.set k 0 _ (starW_pos_row R k).symm).set 0 k _
      (starW_pos_col R k hk0).symm).set (-k) 0 _ (starW_neg_row R k).symm).set 0 (-k) _
      (starW_neg_col R k hk0).symm).iff_congr ?_
    intro a b h1 h2 h3 h4
    beta_reduce
    constructor <;> intro h <;> omega

theorem compactW_top (R ii jj : Int) (h1 : -jj < ii) (h2 : ii < jj) :
    compactW R ii jj = 1 / (4 * (jj : ℚ) * (2 * (jj : ℚ) - 1) * (R : ℚ)) := by
  unfold compactW
  rw [if_neg (by omega), if_neg (by omega), if_pos ⟨h1, h2⟩]

theorem compactW_bottom (R ii jj : Int) (h1 : -jj < ii) (h2 : ii < jj) :
    compactW R ii (-jj) = -(1 / (4 * (jj : ℚ) * (2 * (jj : ℚ) - 1) * (R : ℚ))) := by
  unfold compactW
  rw [if_neg (by omega), if_neg (by omega), if_neg (by omega), if_pos (by omega), ← div_neg]
  congr 1
  push_cast
  ring

theorem compactW_right (R ii jj : Int) (h1 : -jj < ii) (h2 : ii < jj) :
    compactW R jj ii = 1 / (4 * (jj : ℚ) * (2 * (jj : ℚ) - 1) * (R : ℚ)) := by
  unfold compactW
  rw [if_neg (by omega), if_neg (by omega), if_neg (by omega), if_neg (by omega),
    if_pos ⟨h1, h2⟩]

theorem compactW_left (R ii jj : Int) (h1 : -jj < ii) (h2 : ii < jj) :
    compactW R (-jj) ii = -(1 / (4 * (jj : ℚ) * (2 * (jj : ℚ) - 1) * (R : ℚ))) := by
  unfold compactW
  rw [if_neg (by omega), if_neg (by omega), if_neg (by omega), if_neg (by omega),
    if_neg (by omega), ← div_neg]
  congr 1
  push_cast
  ring

theorem compactW_diag (R jj : Int) : compactW R jj jj = 1 / (4 * (jj : ℚ) * (R : ℚ)) := by
  unfold compactW
  rw [if_pos rfl]

theorem compactW_diag_neg (R jj : Int) :
    compactW R (-jj) (-jj) = -(1 / (4 * (jj : ℚ) * (R : ℚ))) := by
  unfold compactW
  rw [if_pos rfl, ← div_neg]
  congr 1
  push_cast
  ring

theorem compactW_anti (R jj : Int) : compactW R jj (-jj) = 0 := by
  unfold compactW
  by_cases h : jj = -jj
  · have h0 : jj = 0 := by omega
    simp [h0]
  · rw [if_neg h, if_pos (by omega)]

/-- The compact table in closed form. -/
theorem compact_agrees (R : Int) (hR : 0 ≤ R) (w0 : WeightArr) :
    Agrees R (fun a b => a ≠ -b) (compactW R) (buildWeights .compact R w0) := by
  unfold buildWeights fillShape fillCompact
  have h := forLoop_inv (fun k t => Agrees R
      (fun a b => a ≠ -b ∧ -k < a ∧ a < k ∧ -k < b ∧ b < k) (compactW R) t) 1 (R + 1)
    (fun jj s =>
      let s := forLoop (-jj + 1) jj (fun ii s =>
        let s := setWEIGHT R ii jj (1 / (4 * (jj : ℚ) * (2 * (jj : ℚ) - 1) * (R : ℚ))) s
        let s := setWEIGHT R ii (-jj) (-(1 / (4 * (jj : ℚ) * (2 * (jj : ℚ) - 1) * (R : ℚ)))) s
        let s := setWEIGHT R jj ii (1 / (4 * (jj : ℚ) * (2 * (jj : ℚ) - 1) * (R : ℚ))) s
        let s := setWEIGHT R (-jj) ii (-(1 / (4 * (jj : ℚ) * (2 * (jj : ℚ) - 1) * (R : ℚ)))) s
        s) s
      let s := setWEIGHT R jj jj (1 / (4 * (jj : ℚ) * (R : ℚ))) s
      let s := setWEIGHT R (-jj) (-jj) (-(1 / (4 * (jj : ℚ) * (R : ℚ)))) s
      s) (zeroWeights R w0) (by omega) ?_ ?_
  · refine h.iff_congr ?_
    intro a b h1 h2 h3 h4
    beta_reduce
    constructor <;> intro h5 <;> omega
  · refine (zeroWeights_agrees R w0 _).iff_congr ?_
    intro a b h1 h2 h3 h4
    beta_reduce
    constructor <;> intro h5
    · exact h5.elim
    · omega
  · intro k t hk1 hk2 ht
    have hin := forLoop_inv (fun x u => Agrees R
        (fun a b => (a ≠ -b ∧ -k < a ∧ a < k ∧ -k < b ∧ b < k) ∨
          ((b = k ∨ b = -k) ∧ -k < a ∧ a < x) ∨ ((a = k ∨ a = -k) ∧ -k < b ∧ b < x))
        (compactW R) u) (-k + 1) k
      (fun ii s =>
        let s := setWEIGHT R ii k (1 / (4 * (k : ℚ) * (2 * (k : ℚ) - 1) * (R : ℚ))) s
        let s := setWEIGHT R ii (-k) (-(1 / (4 * (k : ℚ) * (2 * (k : ℚ) - 1) * (R : ℚ)))) s
        let s := setWEIGHT R k ii (1 / (4 * (k : ℚ) * (2 * (k : ℚ) - 1) * (R : ℚ))) s
        let s := setWEIGHT R (-k) ii (-(1 / (4 * (k : ℚ) * (2 * (k : ℚ) - 1) * (R : ℚ)))) s
        s) t (by omega) ?_ ?_
    · refine ((hin.set k k _ (compactW_diag R k).symm).set (-k) (-k) _
        (compactW_diag_neg R k).symm).iff_congr ?_
      intro a b h1 h2 h3 h4
      beta_reduce
      constructor <;> intro h5 <;> omega
    · refine ht.iff_congr ?_
      intro a b h1 h2 h3 h4
      beta_reduce
      constructor <;> intro h5 <;> omega
    · intro x u hx1 hx2 hu
      refine ((((hu.set x k _ (compactW_top R x k (by omega) hx2).symm).set x (-k) _
        (compactW_bottom R x k (by omega) hx2).symm).set k x _
        (compactW_right R x k (by omega) hx2).symm).set (-k) x _
        (compactW_left R x k (by omega) hx2).symm).iff_congr ?_
      intro a b h1 h2 h3 h4
      beta_reduce
      constructor <;> intro h5 <;> omega

/-- Every entry of the built table, at an offset of the footprint, is given by the closed form. -/
theorem buildWeights_eq (shape : Shape) (R : Int) (hR : 0 ≤ R) (w0 : WeightArr) (a b : Int)
    (h1 : -R ≤ a) (h2 : a ≤ R) (h3 : -R ≤ b) (h4 : b ≤ R) :
    WEIGHT (buildWeights shape R w0) R a b = shapeW shape R a b := by
  cases shape with
  | star =>
    have h := star_agrees R hR w0 a b h1 h2 h3 h4
    by_cases hs : (b = 0 ∧ a ≠ 0) ∨ (a = 0 ∧ b ≠ 0)
    · exact h.1 hs
    · rw [h.2 hs]
      show 0 = starW R a b
      unfold starW
      by_cases hb : b = 0
      · have ha : a = 0 := by omega
        simp [hb, ha]
      · have ha : a ≠ 0 := by omega
        simp [hb, ha]
  | compact =>
    have h := compact_agrees R hR w0 a b h1 h2 h3 h4
    by_cases hs : a ≠ -b
    · exact h.1 hs
    · rw [h.2 hs]
      have hab : a = -b := by omega
      subst hab
      have := compactW_anti R (-b)
      rw [neg_neg] at this
      exact this.symm

theorem starW_neg (R a b : Int) : starW R (-a) (-b) = -starW R a b := by
  unfold starW
  push_cast
  split_ifs <;> first | omega | ring1

theorem compactW_neg (R a b : Int) : compactW R (-a) (-b) = -compactW R a b := by
  unfold compactW
  push_cast
  split_ifs <;> first | omega | ring1 | (rw [← div_neg]; congr 1; ring1)

theorem shapeW_neg (shape : Shape) (R a b : Int) :
    shapeW shape R (-a) (-b) = -shapeW shape R a b := by
  cases shape
  · exact starW_neg R a b
  · exact compactW_neg R a b

theorem shapeW_center (shape : Shape) (R : Int) : shapeW shape R 0 0 = 0 := by
  have h := shapeW_neg shape R 0 0
  simp only [neg_zero] at h
  linarith

/-- Reindexing a sum over the symmetric range `[-R, R]` by negation. -/
theorem sum_Icc_neg (R : Int) (g : Int → ℚ) :
    ∑ a ∈ Finset.Icc (-R) R, g (-a) = ∑ a ∈ Finset.Icc (-R) R, g a := by
  refine Finset.sum_nbij' (fun a => -a) (fun a => -a) ?_ ?_ ?_ ?_ ?_
  · intro a ha
    simp only [Finset.mem_Icc] at ha ⊢
    omega
  · intro a ha
    simp only [Finset.mem_Icc] at ha ⊢
    omega
  · intro a _
    simp
  · intro a _
    simp
  · intro a _
    rfl

/-- On the footprint the sums of the built weights are sums of the closed form. -/
theorem sum_weights_eq (shape : Shape) (R : Int) (hR : 0 ≤ R) (w0 : WeightArr)
    (c : Int → Int → ℚ) :
    ∑ a ∈ Finset.Icc (-R) R, ∑ b ∈ Finset.Icc (-R) R,
        WEIGHT (buildWeights shape R w0) R a b * c a b =
      ∑ a ∈ Finset.Icc (-R) R, ∑ b ∈ Finset.Icc (-R) R, shapeW shape R a b * c a b := by
  refine Finset.sum_congr rfl (fun a ha => Finset.sum_congr rfl (fun b hb => ?_))
  simp only [Finset.mem_Icc] at ha hb
  rw [buildWeights_eq shape R hR w0 a b ha.1 ha.2 hb.1 hb.2]

theorem shapeW_sum_zero (shape : Shape) (R : Int) :
    ∑ a ∈ Finset.Icc (-R) R, ∑ b ∈ Finset.Icc (-R) R, shapeW shape R a b = 0 := by
  have h : ∑ a ∈ Finset.Icc (-R) R, ∑ b ∈ Finset.Icc (-R) R, shapeW shape R a b =
      -∑ a ∈ Finset.Icc (-R) R, ∑ b ∈ Finset.Icc (-R) R, shapeW shape R a b := by
    conv_lhs => rw [← sum_Icc_neg]
    rw [← Finset.sum_neg_distrib]
    refine Finset.sum_congr rfl (fun a _ => ?_)
    rw [← sum_Icc_neg, ← Finset.sum_neg_distrib]
    refine Finset.sum_congr rfl (fun b _ => ?_)
    exact shapeW_neg shape R a b
  linarith

theorem starW_ne_zero (R a b : Int) (hR : 1 ≤ R)
    (h : (b = 0 ∧ a ≠ 0) ∨ (a = 0 ∧ b ≠ 0)) : starW R a b ≠ 0 := by
  have hRq : (R : ℚ) ≠ 0 := by exact_mod_cast (by omega : R ≠ 0)
  unfold starW
  rcases h with ⟨hb, ha⟩ | ⟨ha, hb⟩
  · have haq : (a : ℚ) ≠ 0 := by exact_mod_cast ha
    rw [if_pos hb]
    positivity
  · have hbq : (b : ℚ) ≠ 0 := by exact_mod_cast hb
    rw [if_neg hb, if_pos ha]
    positivity

theorem star_ne_zero_iff (R : Int) (hR : 1 ≤ R) (w0 : WeightArr) (a b : Int)
    (h1 : -R ≤ a) (h2 : a ≤ R) (h3 : -R ≤ b) (h4 : b ≤ R) :
    WEIGHT (buildWeights .star R w0) R a b ≠ 0 ↔ ((b = 0 ∧ a ≠ 0) ∨ (a = 0 ∧ b ≠ 0)) := by
  have h := star_agrees R (by omega) w0 a b h1 h2 h3 h4
  constructor
  · intro hne
    by_contra hs
    exact hne (h.2 hs)
  · intro hs
    rw [h.1 hs]
    exact starW_ne_zero R a b hR hs

theorem star_support_card (R : Int) (hR : 1 ≤ R) (w0 : WeightArr) :
    (((Finset.Icc (-R) R ×ˢ Finset.Icc (-R) R).filter
      (fun c => WEIGHT (buildWeights .star R w0) R c.1 c.2 ≠ 0)).card : Int) = 4 * R := by
  have hset : (Finset.Icc (-R) R ×ˢ Finset.Icc (-R) R).filter
      (fun c => WEIGHT (buildWeights .star R w0) R c.1 c.2 ≠ 0) =
      (((Finset.Icc (-R) R).erase 0) ×ˢ ({0} : Finset Int)) ∪
        (({0} : Finset Int) ×ˢ ((Finset.Icc (-R) R).erase 0)) := by
    ext ⟨a, b⟩
    simp only [Finset.mem_filter, Finset.mem_product, Finset.mem_Icc, Finset.mem_union,
      Finset.mem_erase, Finset.mem_singleton]
    constructor
    · rintro ⟨⟨⟨h1, h2⟩, h3, h4⟩, hne⟩
      have := (star_ne_zero_iff R hR w0 a b h1 h2 h3 h4).1 hne
      omega
    · intro h
      have hb : (-R ≤ a ∧ a ≤ R) ∧ -R ≤ b ∧ b ≤ R := by omega
      refine ⟨hb, (star_ne_zero_iff R hR w0 a b hb.1.1 hb.1.2 hb.2.1 hb.2.2).2 ?_⟩
      omega
  have hdisj : Disjoint (((Finset.Icc (-R) R).erase 0) ×ˢ ({0} : Finset Int))
      (({0} : Finset Int) ×ˢ ((Finset.Icc (-R) R).erase 0)) := by
    rw [Finset.disjoint_left]
    rintro ⟨a, b⟩ h1 h2
    simp only [Finset.mem_product, Finset.mem_erase, Finset.mem_singleton] at h1 h2
    exact h1.1.1 h2.1
  have h0 : (0 : Int) ∈ Finset.Icc (-R) R := by
    rw [Finset.mem_Icc]
    omega
  rw [hset, Finset.card_union_of_disjoint hdisj, Finset.card_product, Finset.card_product,
    Finset.card_erase_of_mem h0, Int.card_Icc, Finset.card_singleton]
  have : (R + 1 - -R).toNat = (2 * R).toNat + 1 := by omega
  rw [this]
  push_cast
  omega

theorem compactW_ne_zero (R a b : Int) (hR : 1 ≤ R) (h : a ≠ -b) : compactW R a b ≠ 0 := by
  have hRq : (R : ℚ) ≠ 0 := by exact_mod_cast (by omega : R ≠ 0)
  unfold compactW
  split_ifs with h1 h3 h4 h5
  · have ha : (a : ℚ) ≠ 0 := by exact_mod_cast (by omega : a ≠ 0)
    positivity
  · have hb : (b : ℚ) ≠ 0 := by exact_mod_cast (by omega : b ≠ 0)
    have hc : (2 * (b : ℚ) - 1) ≠ 0 := by exact_mod_cast (by omega : 2 * b - 1 ≠ 0)
    exact one_div_ne_zero (mul_ne_zero (mul_ne_zero (mul_ne_zero (by norm_num) hb) hc) hRq)
  · have hb : (b : ℚ) ≠ 0 := by exact_mod_cast (by omega : b ≠ 0)
    have hc : (2 * (-b : ℚ) - 1) ≠ 0 := by exact_mod_cast (by omega : 2 * (-b) - 1 ≠ 0)
    exact one_div_ne_zero (mul_ne_zero (mul_ne_zero (mul_ne_zero (by norm_num) hb) hc) hRq)
  · have ha : (a : ℚ) ≠ 0 := by exact_mod_cast (by omega : a ≠ 0)
    have hc : (2 * (a : ℚ) - 1) ≠ 0 := by exact_mod_cast (by omega : 2 * a - 1 ≠ 0)
    exact one_div_ne_zero (mul_ne_zero (mul_ne_zero (mul_ne_zero (by norm_num) ha) hc) hRq)
  · have ha : (a : ℚ) ≠ 0 := by exact_mod_cast (by omega : a ≠ 0)
    have hc : (2 * (-a : ℚ) - 1) ≠ 0 := by exact_mod_cast (by omega : 2 * (-a) - 1 ≠ 0)
    exact one_div_ne_zero (mul_ne_zero (mul_ne_zero (mul_ne_zero (by norm_num) ha) hc) hRq)

theorem compact_ne_zero_iff (R : Int) (hR : 1 ≤ R) (w0 : WeightArr) (a b : Int)
    (h1 : -R ≤ a) (h2 : a ≤ R) (h3 : -R ≤ b) (h4 : b ≤ R) :
    WEIGHT (buildWeights .compact R w0) R a b ≠ 0 ↔ a ≠ -b := by
  have h := compact_agrees R (by omega) w0 a b h1 h2 h3 h4
  constructor
  · intro hne hs
    exact hne (h.2 (fun hn => hn hs))
  · intro hs
    rw [h.1 hs]
    exact compactW_ne_zero R a b hR hs

theorem LogOk.push {S : Int → Int → Prop} {log : List (Int × Int)} (h : LogOk S log)
    (ii jj : Int) (hn : ¬ S ii jj) :
    LogOk (fun a b => S a b ∨ (a = ii ∧ b = jj)) (log ++ [(ii, jj)]) := by
  refine ⟨?_, ?_⟩
  · rw [List.nodup_append]
    refine ⟨h.1, List.nodup_singleton _, ?_⟩
    intro c hc hc2
    rw [List.mem_singleton] at hc2
    subst hc2
    exact hn (h.2 _ hc)
  · intro c hc
    rw [List.mem_append, List.mem_singleton] at hc
    rcases hc with hc | hc
    · exact Or.inl (h.2 c hc)
    · subst hc
      exact Or.inr ⟨rfl, rfl⟩

theorem LogOk.mono {S T : Int → Int → Prop} {log : List (Int × Int)} (h : LogOk S log)
    (hST : ∀ a b, S a b → T a b) : LogOk T log :=
  ⟨h.1, fun c hc => hST _ _ (h.2 c hc)⟩

/-- The compact weight loop nest assigns no cell twice. -/
theorem compact_writes_nodup (R : Int) (hR : 0 ≤ R) : (weightWrites .compact R).Nodup := by
  unfold weightWrites fillShape fillCompact
  have h := forLoop_inv (fun k t => LogOk (fun a b => -k < a ∧ a < k ∧ -k < b ∧ b < k) t)
    1 (R + 1)
    (fun jj s =>
      let s := forLoop (-jj + 1) jj (fun ii s =>
        let s := s ++ [(ii, jj)]
        let s := s ++ [(ii, -jj)]
        let s := s ++ [(jj, ii)]
        let s := s ++ [(-jj, ii)]
        s) s
      let s := s ++ [(jj, jj)]
      let s := s ++ [(-jj, -jj)]
      s) ([] : List (Int × Int)) (by omega) ?_ ?_
  · exact h.1
  · exact ⟨List.nodup_nil, fun c hc => absurd hc (List.not_mem_nil c)⟩
  · intro k t hk1 hk2 ht
    have hin := forLoop_inv (fun x u => LogOk
        (fun a b => (-k < a ∧ a < k ∧ -k < b ∧ b < k) ∨
          ((b = k ∨ b = -k) ∧ -k < a ∧ a < x) ∨ ((a = k ∨ a = -k) ∧ -k < b ∧ b < x)) u)
      (-k + 1) k
      (fun ii s =>
        let s := s ++ [(ii, k)]
        let s := s ++ [(ii, -k)]
        let s := s ++ [(k, ii)]
        let s := s ++ [(-k, ii)]
        s) t (by omega) ?_ ?_
    · refine ((hin.push k k (by omega)).push (-k) (-k) (by omega)).mono ?_
      intro a b h5
      omega
    · refine ht.mono ?_
      intro a b h5
      omega
    · intro x u hx1 hx2 hu
      refine ((((hu.push x k (by omega)).push x (-k) (by omega)).push k x (by omega)).push
        (-k) x (by omega)).mono ?_
      intro a b h5
      omega

/-! ## Buffers -/

theorem setAt_cell (g : Grid) (k : Int) (v : ℚ) (p : Int) :
    (setAt g k v).cell p = if p = k then v else g.cell p := rfl

theorem addAt_cell (g : Grid) (k : Int) (v : ℚ) (p : Int) :
    (addAt g k v).cell p = if p = k then g.cell k + v else g.cell p := rfl

theorem addAt_zero (g : Grid) (k : Int) : addAt g k 0 = g := by
  ext p
  rw [addAt_cell]
  split_ifs with h
  · rw [h, add_zero]
  · rfl

theorem addAt_addAt (g : Grid) (k : Int) (u v : ℚ) :
    addAt (addAt g k u) k v = addAt g k (u + v) := by
  ext p
  simp only [addAt_cell]
  split_ifs with h
  · rw [add_assoc]
  · rfl

theorem Ico_succ_right (lo k : Int) (h : lo ≤ k) :
    Finset.Ico lo (k + 1) = insert k (Finset.Ico lo k) := by
  ext x
  simp only [Finset.mem_Ico, Finset.mem_insert]
  omega

theorem sum_Ico_succ (f : Int → ℚ) (lo k : Int) (h : lo ≤ k) :
    ∑ x ∈ Finset.Ico lo (k + 1), f x = ∑ x ∈ Finset.Ico lo k, f x + f k := by
  rw [Ico_succ_right lo k h, Finset.sum_insert (by simp), add_comm]

theorem Icc_eq_Ico (a b : Int) : Finset.Icc a b = Finset.Ico a (b + 1) := by
  ext x
  simp only [Finset.mem_Icc, Finset.mem_Ico]
  omega

/-- A loop of `buf[p] += f k` adds the sum of the `f k` to `buf[p]`. -/
theorem forLoop_addAt (lo hi : Int) (p : Int) (f : Int → ℚ) (g : Grid) :
    forLoop lo hi (fun k g => addAt g p (f k)) g = addAt g p (∑ k ∈ Finset.Ico lo hi, f k) := by
  rcases le_or_lt lo hi with hle | hlt
  · refine forLoop_inv (fun k t => t = addAt g p (∑ x ∈ Finset.Ico lo k, f x)) lo hi _ g hle
      ?_ ?_
    · show g = addAt g p (∑ x ∈ Finset.Ico lo lo, f x)
      rw [Finset.Ico_self, Finset.sum_empty, addAt_zero]
    · intro k t h1 h2 ht
      show addAt t p (f k) = addAt g p (∑ x ∈ Finset.Ico lo (k + 1), f x)
      rw [ht, addAt_addAt, sum_Ico_succ f lo k h1]
  · rw [forLoop_empty _ _ _ _ hlt.le, Finset.Ico_eq_empty (by omega), Finset.sum_empty,
      addAt_zero]

/-- A loop of `acc += f k` adds the sum of the `f k` to the accumulator. -/
theorem forLoop_sum (lo hi : Int) (f : Int → ℚ) (s : ℚ) :
    forLoop lo hi (fun k acc => acc + f k) s = s + ∑ k ∈ Finset.Ico lo hi, f k := by
  rcases le_or_lt lo hi with hle | hlt
  · refine forLoop_inv (fun k t => t = s + ∑ x ∈ Finset.Ico lo k, f x) lo hi _ s hle ?_ ?_
    · show s = s + ∑ x ∈ Finset.Ico lo lo, f x
      rw [Finset.Ico_self, Finset.sum_empty, add_zero]
    · intro k t h1 h2 ht
      show t + f k = s + ∑ x ∈ Finset.Ico lo (k + 1), f x
      rw [ht, sum_Ico_succ f lo k h1, add_assoc]
  · rw [forLoop_empty _ _ _ _ hlt.le, Finset.Ico_eq_empty (by omega), Finset.sum_empty,
      add_zero]

/-- The loops applied to one cell add the cell's response to its output element. -/
theorem stencilCell_eq (shape : Shape) (R n : Int) (w : WeightArr) (inp : Grid) (i j : Int)
    (out : Grid) :
    stencilCell shape R n w inp i j out =
      addAt out (idx n i j) (cellResponse shape R n w inp i j) := by
  cases shape with
  | star =>
    simp only [stencilCell, cellResponse, forLoop_addAt, addAt_addAt]
  | compact =>
    simp only [stencilCell, cellResponse, forLoop_addAt]

/-! ## Regions of a grid -/

theorem idx_decode (n i j p : Int) (h0 : 0 ≤ i) (h1 : i < n) :
    p = idx n i j ↔ (p % n = i ∧ p / n = j) := by
  have hn : n ≠ 0 := by omega
  unfold idx
  constructor
  · intro h
    subst h
    refine ⟨?_, ?_⟩
    · rw [Int.add_mul_emod_self, Int.emod_eq_of_lt h0 h1]
    · rw [Int.add_mul_ediv_right _ _ hn, Int.ediv_eq_zero_of_lt h0 h1, zero_add]
  · rintro ⟨h2, h3⟩
    have := Int.emod_add_ediv p n
    rw [h2, h3] at this
    rw [← this, mul_comm]

theorem Upd.refl (n : Int) (F : Int → Int → ℚ → ℚ) (g : Grid) :
    Upd n F (fun _ _ => False) g g :=
  fun _ => ⟨fun h => h.elim, fun _ => rfl⟩

theorem Upd.region_congr {n : Int} {F : Int → Int → ℚ → ℚ} {A B : Int → Int → Prop} {g g1 : Grid}
    (h : Upd n F A g g1) (hAB : ∀ a b, A a b ↔ B a b) : Upd n F B g g1 := by
  intro p
  rw [← hAB]
  exact h p

theorem Upd.trans {n : Int} {F : Int → Int → ℚ → ℚ} {A B : Int → Int → Prop}
    {g g1 g2 : Grid} (h1 : Upd n F A g g1) (h2 : Upd n F B g1 g2)
    (hdisj : ∀ a b, A a b → B a b → False) :
    Upd n F (fun a b => A a b ∨ B a b) g g2 := by
  intro p
  refine ⟨fun h => ?_, fun h => ?_⟩
  · rcases h with h | h
    · have hB : ¬ B (p % n) (p / n) := fun hb => hdisj _ _ h hb
      rw [(h2 p).2 hB, (h1 p).1 h]
    · have hA : ¬ A (p % n) (p / n) := fun ha => hdisj _ _ ha h
      rw [(h2 p).1 h, (h1 p).2 hA]
  · rw [(h2 p).2 (fun hb => h (Or.inr hb)), (h1 p).2 (fun ha => h (Or.inl ha))]

theorem Upd.unique {n : Int} {F : Int → Int → ℚ → ℚ} {A : Int → Int → Prop} {g g1 g2 : Grid}
    (h1 : Upd n F A g g1) (h2 : Upd n F A g g2) : g1 = g2 := by
  ext p
  by_cases h : A (p % n) (p / n)
  · rw [(h1 p).1 h, (h2 p).1 h]
  · rw [(h1 p).2 h, (h2 p).2 h]

/-- Writing `F i j (old value)` to the element of cell `(i, j)` updates that one cell. -/
theorem Upd.cell (n : Int) (F : Int → Int → ℚ → ℚ) (g : Grid) (i j : Int)
    (h0 : 0 ≤ i) (h1 : i < n) :
    Upd n F (fun a b => a = i ∧ b = j) g
      (setAt g (idx n i j) (F i j (g.cell (idx n i j)))) := by
  intro p
  rw [setAt_cell]
  refine ⟨fun h => ?_, fun h => ?_⟩
  · have hp : p = idx n i j := (idx_decode n i j p h0 h1).2 h
    rw [if_pos hp, h.1, h.2, hp]
  · have hp : ¬ p = idx n i j := fun hp => h ((idx_decode n i j p h0 h1).1 hp)
    rw [if_neg hp]

/-- A loop whose `k`-th iteration updates the region `A k`, the regions being pairwise
disjoint, updates their union. -/
theorem Upd.forLoop {n : Int} {F : Int → Int → ℚ → ℚ} (lo hi : Int)
    (body : Int → Grid → Grid) (A : Int → Int → Int → Prop) (g : Grid)
    (hbody : ∀ k t, lo ≤ k → k < hi → Upd n F (A k) t (body k t))
    (hdisj : ∀ k k1 a b, A k a b → A k1 a b → k = k1) :
    Upd n F (fun a b => ∃ k, lo ≤ k ∧ k < hi ∧ A k a b) g (Stencil.forLoop lo hi body g) := by
  rcases le_or_lt lo hi with hle | hlt
  · refine forLoop_inv (fun x t => Upd n F (fun a b => ∃ k, lo ≤ k ∧ k < x ∧ A k a b) g t)
      lo hi body g hle ?_ ?_
    · refine (Upd.refl n F g).region_congr ?_
      intro a b
      constructor
      · intro h
        exact h.elim
      · rintro ⟨k, h1, h2, _⟩
        omega
    · intro x t h1 h2 ht
      refine (ht.trans (hbody x t h1 h2) ?_).region_congr ?_
      · rintro a b ⟨k, h3, h4, h5⟩ h6
        have := hdisj k x a b h5 h6
        omega
      · intro a b
        constructor
        · rintro (⟨k, h3, h4, h5⟩ | h6)
          · exact ⟨k, h3, by omega, h5⟩
          · exact ⟨x, h1, by omega, h6⟩
        · rintro ⟨k, h3, h4, h5⟩
          by_cases hk : k = x
          · subst hk
            exact Or.inr h5
          · exact Or.inl ⟨k, h3, by omega, h5⟩
  · rw [forLoop_empty _ _ _ _ hlt.le]
    refine (Upd.refl n F g).region_congr ?_
    intro a b
    constructor
    · intro h
      exact h.elim
    · rintro ⟨k, h1, h2, _⟩
      omega

/-- A row loop `for (i = lo; i < hi; i++)` that updates cell `(i, j)` in its `i`-th
iteration updates the cells `lo <= a < hi` of row `j`. -/
theorem Upd.row {n : Int} {F : Int → Int → ℚ → ℚ} (lo hi j : Int)
    (body : Int → Grid → Grid) (g : Grid)
    (hbody : ∀ i t, lo ≤ i → i < hi → Upd n F (fun a b => a = i ∧ b = j) t (body i t)) :
    Upd n F (fun a b => lo ≤ a ∧ a < hi ∧ b = j) g (Stencil.forLoop lo hi body g) := by
  refine (Upd.forLoop lo hi body (fun i a b => a = i ∧ b = j) g hbody ?_).region_congr ?_
  · intro k k1 a b h1 h2
    rw [← h1.1, ← h2.1]
  · intro a b
    constructor
    · rintro ⟨k, h1, h2, h3, h4⟩
      exact ⟨by omega, by omega, h4⟩
    · rintro ⟨h1, h2, h3⟩
      exact ⟨a, h1, h2, rfl, h3⟩

/-- A loop over rows `for (j = lo; j < hi; j++)` whose `j`-th iteration updates the cells
`clo <= a < chi` of row `j` updates the rectangle. -/
theorem Upd.rect {n : Int} {F : Int → Int → ℚ → ℚ} (lo hi clo chi : Int)
    (body : Int → Grid → Grid) (g : Grid)
    (hbody : ∀ j t, lo ≤ j → j < hi →
      Upd n F (fun a b => clo ≤ a ∧ a < chi ∧ b = j) t (body j t)) :
    Upd n F (fun a b => clo ≤ a ∧ a < chi ∧ lo ≤ b ∧ b < hi) g
      (Stencil.forLoop lo hi body g) := by
  refine (Upd.forLoop lo hi body (fun j a b => clo ≤ a ∧ a < chi ∧ b = j) g hbody ?_).region_congr ?_
  · intro k k1 a b h1 h2
    rw [← h1.2.2, ← h2.2.2]
  · intro a b
    constructor
    · rintro ⟨k, h1, h2, h3, h4, h5⟩
      exact ⟨h3, h4, by omega, by omega⟩
    · rintro ⟨h1, h2, h3, h4⟩
      exact ⟨b, h3, h4, h1, h2, rfl⟩

/-! ## One pass of the stencil engine -/

/-- What a pass does to the output element of a cell. -/
theorem stencilCell_upd (shape : Shape) (R n : Int) (w : WeightArr) (inp : Grid) (i j : Int)
    (out : Grid) (h0 : 0 ≤ i) (h1 : i < n) :
    Upd n (fun a b x => x + cellResponse shape R n w inp a b) (fun a b => a = i ∧ b = j) out
      (stencilCell shape R n w inp i j out) := by
  rw [stencilCell_eq]
  exact Upd.cell n (fun a b x => x + cellResponse shape R n w inp a b) out i j h0 h1

/-- The untiled traversal adds its response to every interior cell and changes nothing else. -/
theorem untiledPass_upd (shape : Shape) (R n : Int) (w : WeightArr) (inp out : Grid)
    (hR : 0 ≤ R) :
    Upd n (fun a b x => x + cellResponse shape R n w inp a b)
      (fun a b => R ≤ a ∧ a < n - R ∧ R ≤ b ∧ b < n - R) out
      (untiledPass shape R n w inp out) := by
  unfold untiledPass
  refine Upd.rect R (n - R) R (n - R) _ out ?_
  intro j t _ _
  refine Upd.row R (n - R) j _ t ?_
  intro i u h1 h2
  exact stencilCell_upd shape R n w inp i j u (by omega) (by omega)

/-- One tile: the cells of the rectangle with origin `(i, j)`, clipped at the far edge of the
interior. -/
theorem tile_upd (shape : Shape) (R n tile_size : Int) (w : WeightArr) (inp out : Grid)
    (i j : Int) (hR : 0 ≤ R) (hi : R ≤ i) :
    Upd n (fun a b x => x + cellResponse shape R n w inp a b)
      (fun a b => i ≤ a ∧ a < MIN (n - R) (i + tile_size) ∧
        j ≤ b ∧ b < MIN (n - R) (j + tile_size)) out
      (forLoop j (MIN (n - R) (j + tile_size)) (fun jt out =>
        forLoop i (MIN (n - R) (i + tile_size)) (fun it out =>
          stencilCell shape R n w inp it jt out) out) out) := by
  refine Upd.rect j (MIN (n - R) (j + tile_size)) i (MIN (n - R) (i + tile_size)) _ out ?_
  intro jt t _ _
  refine Upd.row i (MIN (n - R) (i + tile_size)) jt _ t ?_
  intro it u h1 h2
  have h3 : it < n - R := by
    unfold MIN at h2
    split_ifs at h2 <;> omega
  exact stencilCell_upd shape R n w inp it jt u (by omega) (by omega)

/-- One row of tiles: with enough fuel the loop over the tile origins `i` returns, having
updated the interior cells of the rows of the tile row with origin `j`. -/
theorem tileRow_upd (fuel : Nat) (shape : Shape) (R n tile_size : Int) (w : WeightArr)
    (inp out : Grid) (j : Int) (hR : 0 ≤ R) (ht : 1 ≤ tile_size)
    (hfuel : n - 2 * R ≤ (fuel : Int)) :
    ∃ out1, forStep fuel R (n - R) tile_size (fun i out =>
        some (forLoop j (MIN (n - R) (j + tile_size)) (fun jt out =>
          forLoop i (MIN (n - R) (i + tile_size)) (fun it out =>
            stencilCell shape R n w inp it jt out) out) out)) out = some out1 ∧
      Upd n (fun a b x => x + cellResponse shape R n w inp a b)
        (fun a b => R ≤ a ∧ a < n - R ∧ j ≤ b ∧ b < MIN (n - R) (j + tile_size)) out out1 := by
  obtain ⟨s1, k1, hrun, h1, h2, _, h4, h5⟩ := forStep_inv
    (fun i t => R ≤ i ∧ Upd n (fun a b x => x + cellResponse shape R n w inp a b)
      (fun a b => R ≤ a ∧ a < i ∧ a < n - R ∧ j ≤ b ∧ b < MIN (n - R) (j + tile_size)) out t)
    (n - R) tile_size
    (fun i out => some (forLoop j (MIN (n - R) (j + tile_size)) (fun jt out =>
      forLoop i (MIN (n - R) (i + tile_size)) (fun it out =>
        stencilCell shape R n w inp it jt out) out) out)) ht
    (by
      intro i t hi hP
      refine ⟨_, rfl, by omega, ?_⟩
      refine (hP.2.trans (tile_upd shape R n tile_size w inp t i j hR hP.1) ?_).region_congr ?_
      · intro a b h6 h7
        omega
      · intro a b
        unfold MIN
        constructor <;> intro h6 <;> split_ifs at h6 ⊢ <;> omega)
    fuel R out (by omega)
    ⟨le_rfl, (Upd.refl n _ out).region_congr (fun a b => by
      constructor
      · intro h6
        exact h6.elim
      · intro h6
        omega)⟩
  refine ⟨s1, hrun, h5.region_congr ?_⟩
  intro a b
  constructor <;> intro h6 <;> omega

/-- The tiled traversal: with a tile size of at least one and enough fuel it returns, having
added its response to every interior cell and changed nothing else. -/
theorem tiledPass_upd (fuel : Nat) (shape : Shape) (R n tile_size : Int) (w : WeightArr)
    (inp out : Grid) (hR : 0 ≤ R) (ht : 1 ≤ tile_size) (hfuel : n - 2 * R ≤ (fuel : Int)) :
    ∃ out1, tiledPass fuel shape R n tile_size w inp out = some out1 ∧
      Upd n (fun a b x => x + cellResponse shape R n w inp a b)
        (fun a b => R ≤ a ∧ a < n - R ∧ R ≤ b ∧ b < n - R) out out1 := by
  unfold tiledPass
  obtain ⟨s1, k1, hrun, h1, h2, _, h4, h5⟩ := forStep_inv
    (fun j t => R ≤ j ∧ Upd n (fun a b x => x + cellResponse shape R n w inp a b)
      (fun a b => R ≤ a ∧ a < n - R ∧ R ≤ b ∧ b < j ∧ b < n - R) out t)
    (n - R) tile_size
    (fun j out => forStep fuel R (n - R) tile_size (fun i out =>
        some (forLoop j (MIN (n - R) (j + tile_size)) (fun jt out =>
          forLoop i (MIN (n - R) (i + tile_size)) (fun it out =>
            stencilCell shape R n w inp it jt out) out) out)) out) ht
    (by
      intro j t hj hP
      obtain ⟨t1, hrow, hupd⟩ := tileRow_upd fuel shape R n tile_size w inp t j hR ht hfuel
      refine ⟨t1, hrow, by omega, ?_⟩
      refine (hP.2.trans hupd ?_).region_congr ?_
      · intro a b h6 h7
        omega
      · intro a b
        have := hP.1
        unfold MIN
        constructor <;> intro h6 <;> split_ifs at h6 ⊢ <;> omega)
    fuel R out (by omega)
    ⟨le_rfl, (Upd.refl n _ out).region_congr (fun a b => by
      constructor
      · intro h6
        exact h6.elim
      · intro h6
        omega)⟩
  refine ⟨s1, hrun, h5.region_congr ?_⟩
  intro a b
  constructor <;> intro h6 <;> omega

/-- A loop whose body leaves the state alone leaves the state alone. -/
theorem forLoop_id {σ : Type} (lo hi : Int) (s : σ) : forLoop lo hi (fun _ t => t) s = s := by
  rcases le_or_lt lo hi with hle | hlt
  · exact forLoop_inv (fun _ t => t = s) lo hi _ s hle rfl (fun _ _ _ _ h => h)
  · exact forLoop_empty _ _ _ _ hlt.le

/-- A stepped loop whose body leaves the state alone returns it, given a positive step and
enough fuel. -/
theorem forStep_some {σ : Type} (hi step : Int) (hstep : 1 ≤ step) (fuel : Nat) (k : Int)
    (s : σ) (hfuel : hi - k ≤ (fuel : Int)) :
    forStep fuel k hi step (fun _ t => some t) s = some s := by
  obtain ⟨s1, k1, hrun, _, _, _, hs⟩ := forStep_inv (fun _ t => t = s) hi step
    (fun _ t => some t) hstep (fun _ t _ ht => ⟨t, rfl, ht⟩) fuel k s hfuel rfl
  rw [hrun, hs]

/-- With a negative radius the loops over the offsets are empty. -/
theorem cellResponse_of_neg (shape : Shape) (R n : Int) (w : WeightArr) (inp : Grid)
    (i j : Int) (hR : R < 0) : cellResponse shape R n w inp i j = 0 := by
  have e1 : Finset.Ico (-R) (R + 1) = ∅ := Finset.Ico_eq_empty (by omega)
  have e2 : Finset.Ico (-R) 0 = ∅ := Finset.Ico_eq_empty (by omega)
  have e3 : Finset.Ico 1 (R + 1) = ∅ := Finset.Ico_eq_empty (by omega)
  cases shape <;> simp only [cellResponse, e1, e2, e3, Finset.sum_empty, add_zero]

theorem stencilCell_of_neg (shape : Shape) (R n : Int) (w : WeightArr) (inp : Grid)
    (i j : Int) (out : Grid) (hR : R < 0) : stencilCell shape R n w inp i j out = out := by
  rw [stencilCell_eq, cellResponse_of_neg shape R n w inp i j hR, addAt_zero]

theorem untiledPass_of_neg (shape : Shape) (R n : Int) (w : WeightArr) (inp out : Grid)
    (hR : R < 0) : untiledPass shape R n w inp out = out := by
  unfold untiledPass
  simp only [fun i j t => stencilCell_of_neg shape R n w inp i j t hR, forLoop_id]

theorem tiledPass_of_neg (fuel : Nat) (shape : Shape) (R n tile_size : Int) (w : WeightArr)
    (inp out : Grid) (hR : R < 0) (ht : 1 ≤ tile_size) (hfuel : n - 2 * R ≤ (fuel : Int)) :
    tiledPass fuel shape R n tile_size w inp out = some out := by
  unfold tiledPass
  simp only [fun i j t => stencilCell_of_neg shape R n w inp i j t hR, forLoop_id,
    fun t => forStep_some (n - R) tile_size ht fuel R t (by omega)]

/-- The tiled traversal computes the grid of the untiled traversal (radius at least zero). -/
theorem tiledPass_eq_nonneg (fuel : Nat) (shape : Shape) (R n tile_size : Int) (w : WeightArr)
    (inp out : Grid) (hR : 0 ≤ R) (ht : 1 ≤ tile_size) (hfuel : n - 2 * R ≤ (fuel : Int)) :
    tiledPass fuel shape R n tile_size w inp out = some (untiledPass shape R n w inp out) := by
  obtain ⟨out1, hrun, hupd⟩ := tiledPass_upd fuel shape R n tile_size w inp out hR ht hfuel
  rw [hrun, hupd.unique (untiledPass_upd shape R n w inp out hR)]

/-- The tiled traversal computes the grid of the untiled traversal. -/
theorem tiledPass_eq (fuel : Nat) (shape : Shape) (R n tile_size : Int) (w : WeightArr)
    (inp out : Grid) (ht : 1 ≤ tile_size) (hfuel : n - 2 * R ≤ (fuel : Int)) :
    tiledPass fuel shape R n tile_size w inp out = some (untiledPass shape R n w inp out) := by
  rcases le_or_lt 0 R with hR | hR
  · exact tiledPass_eq_nonneg fuel shape R n tile_size w inp out hR ht hfuel
  · rw [tiledPass_of_neg fuel shape R n tile_size w inp out hR ht hfuel,
      untiledPass_of_neg shape R n w inp out hR]

/-- Either branch of the engine computes the grid of the untiled traversal. -/
theorem stencilPass_eq (fuel : Nat) (shape : Shape) (R n tile_size : Int) (w : WeightArr)
    (inp out : Grid) (ht : 1 ≤ tile_size) (hfuel : n - 2 * R ≤ (fuel : Int)) :
    stencilPass fuel shape R n tile_size w inp out =
      some (untiledPass shape R n w inp out) := by
  unfold stencilPass
  split_ifs
  · exact tiledPass_eq fuel shape R n tile_size w inp out ht hfuel
  · rfl

/-! ## The response of a cell -/

theorem sum_Ico_split (f : Int → ℚ) (a b c : Int) (hab : a ≤ b) (hbc : b ≤ c) :
    ∑ x ∈ Finset.Ico a c, f x = ∑ x ∈ Finset.Ico a b, f x + ∑ x ∈ Finset.Ico b c, f x := by
  rw [← Finset.sum_union (Finset.Ico_disjoint_Ico_consecutive a b c),
    Finset.Ico_union_Ico_eq_Ico hab hbc]

theorem sum_Ico_succ_bot (f : Int → ℚ) (a c : Int) (h : a < c) :
    ∑ x ∈ Finset.Ico a c, f x = f a + ∑ x ∈ Finset.Ico (a + 1) c, f x := by
  rw [sum_Ico_split f a (a + 1) c (by omega) (by omega), sum_Ico_succ f a a le_rfl,
    Finset.Ico_self, Finset.sum_empty, zero_add]

/-- The double loop of the compact build sums the general 2-D stencil sum. -/
theorem cellResponse_compact (R n : Int) (w : WeightArr) (inp : Grid) (i j : Int) :
    cellResponse .compact R n w inp i j = stencilSum R n w inp i j := by
  unfold cellResponse stencilSum
  rw [Finset.sum_comm, Icc_eq_Ico]

/-- With a table that vanishes off the two axes, the three 1-D sums of the star build add
up to the general 2-D stencil sum. -/
theorem star_sums_eq (R n : Int) (hR : 0 ≤ R) (w : WeightArr) (inp : Grid) (i j : Int)
    (hw : ∀ a b, -R ≤ a → a ≤ R → -R ≤ b → b ≤ R → a ≠ 0 → b ≠ 0 → WEIGHT w R a b = 0) :
    cellResponse .star R n w inp i j = stencilSum R n w inp i j := by
  simp only [cellResponse, stencilSum, Icc_eq_Ico]
  have hrow : ∀ a : Int, -R ≤ a → a ≤ R → a ≠ 0 →
      ∑ b ∈ Finset.Ico (-R) (R + 1), WEIGHT w R a b * inp.cell (idx n (i + a) (j + b)) =
        WEIGHT w R a 0 * inp.cell (idx n (i + a) j) := by
    intro a ha1 ha2 ha0
    rw [Finset.sum_eq_single 0]
    · rw [add_zero]
    · intro b hb hb0
      rw [Finset.mem_Ico] at hb
      rw [hw a b ha1 ha2 hb.1 (by omega) ha0 hb0, zero_mul]
    · intro h0
      exact absurd (Finset.mem_Ico.2 ⟨by omega, by omega⟩) h0
  have hsplit := sum_Ico_split (fun a => ∑ b ∈ Finset.Ico (-R) (R + 1),
    WEIGHT w R a b * inp.cell (idx n (i + a) (j + b))) (-R) 0 (R + 1) (by omega) (by omega)
  have hbot := sum_Ico_succ_bot (fun a => ∑ b ∈ Finset.Ico (-R) (R + 1),
    WEIGHT w R a b * inp.cell (idx n (i + a) (j + b))) 0 (R + 1) (by omega)
  have e1 : ∑ a ∈ Finset.Ico (-R) 0,
      ∑ b ∈ Finset.Ico (-R) (R + 1), WEIGHT w R a b * inp.cell (idx n (i + a) (j + b)) =
      ∑ a ∈ Finset.Ico (-R) 0, WEIGHT w R a 0 * inp.cell (idx n (i + a) j) := by
    refine Finset.sum_congr rfl (fun a ha => ?_)
    rw [Finset.mem_Ico] at ha
    exact hrow a ha.1 (by omega) (by omega)
  have e2 : ∑ a ∈ Finset.Ico (0 + 1) (R + 1),
      ∑ b ∈ Finset.Ico (-R) (R + 1), WEIGHT w R a b * inp.cell (idx n (i + a) (j + b)) =
      ∑ a ∈ Finset.Ico 1 (R + 1), WEIGHT w R a 0 * inp.cell (idx n (i + a) j) := by
    rw [zero_add]
    refine Finset.sum_congr rfl (fun a ha => ?_)
    rw [Finset.mem_Ico] at ha
    exact hrow a (by omega) (by omega) (by omega)
  rw [hsplit, hbot, e1, e2]
  simp only [add_zero]
  ring

/-- The response of a cell is the general 2-D stencil sum, for the built table of either
shape. -/
theorem cellResponse_built (shape : Shape) (R n : Int) (hR : 0 ≤ R) (w0 : WeightArr)
    (inp : Grid) (i j : Int) :
    cellResponse shape R n (buildWeights shape R w0) inp i j =
      stencilSum R n (buildWeights shape R w0) inp i j := by
  cases shape with
  | star =>
    refine star_sums_eq R n hR _ inp i j ?_
    intro a b h1 h2 h3 h4 h5 h6
    exact (star_agrees R hR w0 a b h1 h2 h3 h4).2 (by omega)
  | compact => exact cellResponse_compact R n _ inp i j

/-- The output element of an interior cell after the untiled traversal. -/
theorem untiledPass_cell (shape : Shape) (R n : Int) (w : WeightArr) (inp out : Grid)
    (i j : Int) (h1 : R ≤ i) (h2 : i < n - R) (h3 : R ≤ j) (h4 : j < n - R) :
    (untiledPass shape R n w inp out).cell (idx n i j) =
      out.cell (idx n i j) + cellResponse shape R n w inp i j := by
  rcases le_or_lt 0 R with hR | hR
  · have h := (untiledPass_upd shape R n w inp out hR (idx n i j)).1
    obtain ⟨e1, e2⟩ := (idx_decode n i j (idx n i j) (by omega) (by omega)).1 rfl
    rw [e1, e2] at h
    exact h ⟨h1, h2, h3, h4⟩
  · rw [untiledPass_of_neg shape R n w inp out hR, cellResponse_of_neg shape R n w inp i j hR,
      add_zero]

/-- The elements of the output buffer that are not interior cells after the untiled
traversal. -/
theorem untiledPass_frame (shape : Shape) (R n : Int) (w : WeightArr) (inp out : Grid)
    (p : Int) (hp : ¬ (R ≤ p % n ∧ p % n < n - R ∧ R ≤ p / n ∧ p / n < n - R)) :
    (untiledPass shape R n w inp out).cell p = out.cell p := by
  rcases le_or_lt 0 R with hR | hR
  · exact (untiledPass_upd shape R n w inp out hR p).2 hp
  · rw [untiledPass_of_neg shape R n w inp out hR]

theorem starW_transpose (R a b : Int) : starW R a b = starW R b a := by
  unfold starW
  by_cases ha : a = 0 <;> by_cases hb : b = 0 <;> simp [ha, hb]

theorem compactW_transpose (R a b : Int) : compactW R a b = compactW R b a := by
  by_cases hab : a = b
  · rw [hab]
  · unfold compactW
    split_ifs <;> first | omega | rfl

theorem shapeW_transpose (shape : Shape) (R a b : Int) :
    shapeW shape R a b = shapeW shape R b a := by
  cases shape
  · exact starW_transpose R a b
  · exact compactW_transpose R a b

theorem sum_Icc_grow (f : Int → ℚ) (N : Int) (hN : 0 ≤ N) :
    ∑ b ∈ Finset.Icc (-(N + 1)) (N + 1), f b =
      f (-(N + 1)) + ∑ b ∈ Finset.Icc (-N) N, f b + f (N + 1) := by
  have e : -(N + 1) + 1 = -N := by ring
  rw [Icc_eq_Ico, sum_Ico_succ_bot f _ _ (by omega), sum_Ico_succ f _ _ (by omega), e,
    ← Icc_eq_Ico]
  ring

/-- Along a row `a > 0` the compact weights sum to the star weight of that row. -/
theorem compactW_row_pos (R a : Int) (ha : 0 < a) :
    ∀ N : Int, a ≤ N → ∑ b ∈ Finset.Icc (-N) N, compactW R a b = 1 / (2 * (a : ℚ) * (R : ℚ)) := by
  have haq : (a : ℚ) ≠ 0 := by exact_mod_cast (by omega : a ≠ 0)
  have hcq : (2 * (a : ℚ) - 1) ≠ 0 := by exact_mod_cast (by omega : 2 * a - 1 ≠ 0)
  refine Int.le_induction ?_ ?_
  · have hmid : ∑ b ∈ Finset.Ico (-a + 1) a, compactW R a b =
        ∑ _b ∈ Finset.Ico (-a + 1) a, 1 / (4 * (a : ℚ) * (2 * (a : ℚ) - 1) * (R : ℚ)) := by
      refine Finset.sum_congr rfl (fun b hb => ?_)
      rw [Finset.mem_Ico] at hb
      exact compactW_right R b a (by omega) hb.2
    have hcard : ((Finset.Ico (-a + 1) a).card : ℚ) = 2 * (a : ℚ) - 1 := by
      rw [Int.card_Ico]
      have h1 : ((a - (-a + 1)).toNat : Int) = 2 * a - 1 := by omega
      have h2 : (((a - (-a + 1)).toNat : Int) : ℚ) = ((2 * a - 1 : Int) : ℚ) := by rw [h1]
      push_cast at h2
      exact h2
    rw [Icc_eq_Ico, sum_Ico_succ_bot _ _ _ (by omega), sum_Ico_succ _ _ _ (by omega), hmid,
      Finset.sum_const, nsmul_eq_mul, hcard, compactW_anti, compactW_diag]
    by_cases hRq : (R : ℚ) = 0
    · simp [hRq]
    · field_simp
      ring
  · intro N hN ih
    rw [sum_Icc_grow _ N (by omega), ih, compactW_bottom R a (N + 1) (by omega) (by omega),
      compactW_top R a (N + 1) (by omega) (by omega)]
    ring

theorem compactW_row (R N a : Int) (h1 : -N ≤ a) (h2 : a ≤ N) :
    ∑ b ∈ Finset.Icc (-N) N, compactW R a b = starW R a 0 := by
  rw [starW_pos_row]
  rcases lt_trichotomy a 0 with ha | ha | ha
  · have h := compactW_row_pos R (-a) (by omega) N (by omega)
    rw [← sum_Icc_neg] at h
    have e : ∀ b, compactW R (-a) (-b) = -compactW R a b := fun b => compactW_neg R a b
    simp only [e, Finset.sum_neg_distrib] at h
    rw [neg_eq_iff_eq_neg.1 h]
    push_cast
    rw [← div_neg]
    congr 1
    ring
  · subst ha
    have h : ∑ b ∈ Finset.Icc (-N) N, compactW R 0 b =
        -∑ b ∈ Finset.Icc (-N) N, compactW R 0 b := by
      conv_lhs => rw [← sum_Icc_neg]
      rw [← Finset.sum_neg_distrib]
      refine Finset.sum_congr rfl (fun b _ => ?_)
      have := compactW_neg R 0 b
      rwa [neg_zero] at this
    have h0 : ∑ b ∈ Finset.Icc (-N) N, compactW R 0 b = 0 := by linarith
    rw [h0]
    simp
  · exact compactW_row_pos R a ha N h2

theorem starW_row (R N a : Int) (hN : 0 ≤ N) :
    ∑ b ∈ Finset.Icc (-N) N, starW R a b = starW R a 0 := by
  by_cases ha : a = 0
  · subst ha
    have h : ∑ b ∈ Finset.Icc (-N) N, starW R 0 b = -∑ b ∈ Finset.Icc (-N) N, starW R 0 b := by
      conv_lhs => rw [← sum_Icc_neg]
      rw [← Finset.sum_neg_distrib]
      refine Finset.sum_congr rfl (fun b _ => ?_)
      have := starW_neg R 0 b
      rwa [neg_zero] at this
    have h0 : ∑ b ∈ Finset.Icc (-N) N, starW R 0 b = 0 := by linarith
    rw [h0]
    simp [starW]
  · rw [Finset.sum_eq_single 0]
    · intro b _ hb
      simp [starW, ha, hb]
    · intro h0
      exact absurd (Finset.mem_Icc.2 ⟨by omega, hN⟩) h0

/-- Along every row of the footprint the weights of either shape sum to the star weight of
that row. -/
theorem shapeW_row (shape : Shape) (R N a : Int) (h1 : -N ≤ a) (h2 : a ≤ N) :
    ∑ b ∈ Finset.Icc (-N) N, shapeW shape R a b = starW R a 0 := by
  cases shape
  · exact starW_row R N a (by omega)
  · exact compactW_row R N a h1 h2

/-- The first moment of the star weights along their own axis is one. -/
theorem starW_axis_moment (R : Int) (hR : 1 ≤ R) :
    ∑ a ∈ Finset.Icc (-R) R, (a : ℚ) * starW R a 0 = 1 := by
  have hRq : (R : ℚ) ≠ 0 := by exact_mod_cast (by omega : R ≠ 0)
  have h0 : (0 : Int) ∈ Finset.Icc (-R) R := Finset.mem_Icc.2 ⟨by omega, by omega⟩
  rw [← Finset.add_sum_erase _ _ h0]
  have hterm : ∑ a ∈ (Finset.Icc (-R) R).erase 0, (a : ℚ) * starW R a 0 =
      ∑ _a ∈ (Finset.Icc (-R) R).erase 0, 1 / (2 * (R : ℚ)) := by
    refine Finset.sum_congr rfl (fun a ha => ?_)
    have ha0 : (a : ℚ) ≠ 0 := by exact_mod_cast (Finset.mem_erase.1 ha).1
    rw [starW_pos_row]
    field_simp
    ring
  have hcard : (((Finset.Icc (-R) R).erase 0).card : ℚ) = 2 * (R : ℚ) := by
    rw [Finset.card_erase_of_mem h0, Int.card_Icc]
    have h1 : (((R + 1 - -R).toNat - 1 : Nat) : Int) = 2 * R := by omega
    have h2 : ((((R + 1 - -R).toNat - 1 : Nat) : Int) : ℚ) = ((2 * R : Int) : ℚ) := by rw [h1]
    push_cast at h2 ⊢
    exact_mod_cast h2
  rw [hterm, Finset.sum_const, nsmul_eq_mul, hcard]
  simp only [Int.cast_zero, zero_mul, zero_add]
  field_simp

/-- The first moment of the weights along the first axis is one. -/
theorem shapeW_moment_x (shape : Shape) (R : Int) (hR : 1 ≤ R) :
    ∑ a ∈ Finset.Icc (-R) R, ∑ b ∈ Finset.Icc (-R) R, (a : ℚ) * shapeW shape R a b = 1 := by
  rw [← starW_axis_moment R hR]
  refine Finset.sum_congr rfl (fun a ha => ?_)
  rw [Finset.mem_Icc] at ha
  rw [← Finset.mul_sum, shapeW_row shape R R a ha.1 ha.2]

/-- The first moment of the weights along the second axis is one. -/
theorem shapeW_moment_y (shape : Shape) (R : Int) (hR : 1 ≤ R) :
    ∑ a ∈ Finset.Icc (-R) R, ∑ b ∈ Finset.Icc (-R) R, (b : ℚ) * shapeW shape R a b = 1 := by
  rw [Finset.sum_comm, ← shapeW_moment_x shape R hR]
  refine Finset.sum_congr rfl (fun a _ => Finset.sum_congr rfl (fun b _ => ?_))
  rw [shapeW_transpose]

/-- The stencil sum of an affine function is the sum of its two slopes. -/
theorem shapeW_affine (shape : Shape) (R : Int) (hR : 1 ≤ R) (α β γ : ℚ) :
    ∑ a ∈ Finset.Icc (-R) R, ∑ b ∈ Finset.Icc (-R) R,
      shapeW shape R a b * (α * (a : ℚ) + β * (b : ℚ) + γ) = α + β := by
  have e : ∀ a b : Int, shapeW shape R a b * (α * (a : ℚ) + β * (b : ℚ) + γ) =
      α * ((a : ℚ) * shapeW shape R a b) + β * ((b : ℚ) * shapeW shape R a b) +
        γ * shapeW shape R a b := by
    intro a b
    ring
  have hx : ∑ a ∈ Finset.Icc (-R) R,
      (a : ℚ) * ∑ b ∈ Finset.Icc (-R) R, shapeW shape R a b = 1 := by
    rw [← shapeW_moment_x shape R hR]
    refine Finset.sum_congr rfl (fun a _ => ?_)
    rw [Finset.mul_sum]
  simp only [e, Finset.sum_add_distrib, ← Finset.mul_sum]
  rw [hx, shapeW_moment_y shape R hR, shapeW_sum_zero]
  ring

/-! ## The iteration driver -/

/-- After initialisation the input holds the ramp on the whole grid. -/
theorem initIn_cell (n : Int) (in0 : Grid) (a b : Int) (h1 : 0 ≤ a) (h2 : a < n)
    (h3 : 0 ≤ b) (h4 : b < n) :
    (initIn n in0).cell (idx n a b) = COEFX * (a : ℚ) + COEFY * (b : ℚ) := by
  have hupd : Upd n (fun a b _ => COEFX * (a : ℚ) + COEFY * (b : ℚ))
      (fun a b => 0 ≤ a ∧ a < n ∧ 0 ≤ b ∧ b < n) in0 (initIn n in0) := by
    unfold initIn
    refine Upd.rect 0 n 0 n _ in0 ?_
    intro j t _ _
    refine Upd.row 0 n j _ t ?_
    intro i u hi1 hi2
    exact Upd.cell n (fun a b _ => COEFX * (a : ℚ) + COEFY * (b : ℚ)) u i j hi1 hi2
  have h := (hupd (idx n a b)).1
  obtain ⟨e1, e2⟩ := (idx_decode n a b (idx n a b) h1 h2).1 rfl
  rw [e1, e2] at h
  exact h ⟨h1, h2, h3, h4⟩

/-- After initialisation the output is zero on the interior. -/
theorem initOut_cell (R n : Int) (out0 : Grid) (hR : 0 ≤ R) (i j : Int) (h1 : R ≤ i)
    (h2 : i < n - R) (h3 : R ≤ j) (h4 : j < n - R) :
    (initOut R n out0).cell (idx n i j) = 0 := by
  have hupd : Upd n (fun _ _ _ => (0 : ℚ))
      (fun a b => R ≤ a ∧ a < n - R ∧ R ≤ b ∧ b < n - R) out0 (initOut R n out0) := by
    unfold initOut
    refine Upd.rect R (n - R) R (n - R) _ out0 ?_
    intro j t _ _
    refine Upd.row R (n - R) j _ t ?_
    intro i u hi1 hi2
    exact Upd.cell n (fun _ _ _ => (0 : ℚ)) u i j (by omega) (by omega)
  have h := (hupd (idx n i j)).1
  obtain ⟨e1, e2⟩ := (idx_decode n i j (idx n i j) (by omega) (by omega)).1 rfl
  rw [e1, e2] at h
  exact h ⟨h1, h2, h3, h4⟩

/-- The refresh adds one to every cell of the grid. -/
theorem refresh_cell (n : Int) (inp : Grid) (a b : Int) (h1 : 0 ≤ a) (h2 : a < n)
    (h3 : 0 ≤ b) (h4 : b < n) :
    (refresh n inp).cell (idx n a b) = inp.cell (idx n a b) + 1 := by
  have hupd : Upd n (fun _ _ x => x + 1)
      (fun a b => 0 ≤ a ∧ a < n ∧ 0 ≤ b ∧ b < n) inp (refresh n inp) := by
    unfold refresh
    refine Upd.rect 0 n 0 n _ inp ?_
    intro j t _ _
    refine Upd.row 0 n j _ t ?_
    intro i u hi1 hi2
    exact Upd.cell n (fun _ _ x => x + 1) u i j hi1 hi2
  have h := (hupd (idx n a b)).1
  obtain ⟨e1, e2⟩ := (idx_decode n a b (idx n a b) h1 h2).1 rfl
  rw [e1, e2] at h
  exact h ⟨h1, h2, h3, h4⟩

/-- On an input that is the ramp plus a constant, the response of an interior cell is
`COEFX + COEFY`. -/
theorem cellResponse_ramp (shape : Shape) (R n : Int) (hR : 1 ≤ R) (w0 : WeightArr)
    (inp : Grid) (c : ℚ)
    (hin : ∀ a b : Int, 0 ≤ a → a < n → 0 ≤ b → b < n →
      inp.cell (idx n a b) = COEFX * (a : ℚ) + COEFY * (b : ℚ) + c)
    (i j : Int) (h1 : R ≤ i) (h2 : i < n - R) (h3 : R ≤ j) (h4 : j < n - R) :
    cellResponse shape R n (buildWeights shape R w0) inp i j = COEFX + COEFY := by
  have hR0 : 0 ≤ R := by omega
  rw [cellResponse_built shape R n hR0 w0 inp i j]
  unfold stencilSum
  rw [← shapeW_affine shape R hR COEFX COEFY (COEFX * (i : ℚ) + COEFY * (j : ℚ) + c)]
  refine Finset.sum_congr rfl (fun a ha => Finset.sum_congr rfl (fun b hb => ?_))
  rw [Finset.mem_Icc] at ha hb
  rw [buildWeights_eq shape R hR0 w0 a b ha.1 ha.2 hb.1 hb.2,
    hin (i + a) (j + b) (by omega) (by omega) (by omega) (by omega)]
  push_cast
  ring

/-- The state of the iteration loop after `k` rounds. -/
theorem iterate_inv (fuel : Nat) (shape : Shape) (R n tile_size : Int) (w0 : WeightArr)
    (in0 out0 : Grid) (hR : 1 ≤ R) (ht : 1 ≤ tile_size) (hfuel : n - 2 * R ≤ (fuel : Int))
    (k : Int) (hk : 0 ≤ k) :
    ∃ st, iterate fuel shape R n tile_size (buildWeights shape R w0) k
        (initIn n in0, initOut R n out0) = some st ∧
      (∀ a b : Int, 0 ≤ a → a < n → 0 ≤ b → b < n →
        st.1.cell (idx n a b) = COEFX * (a : ℚ) + COEFY * (b : ℚ) + (k : ℚ)) ∧
      (∀ i j : Int, R ≤ i → i < n - R → R ≤ j → j < n - R →
        st.2.cell (idx n i j) = (k : ℚ) * (COEFX + COEFY)) := by
  have hR0 : 0 ≤ R := by omega
  unfold iterate
  refine forLoop_inv (fun (x : Int) (acc : Option (Grid × Grid)) => ∃ st, acc = some st ∧
      (∀ a b : Int, 0 ≤ a → a < n → 0 ≤ b → b < n →
        st.1.cell (idx n a b) = COEFX * (a : ℚ) + COEFY * (b : ℚ) + (x : ℚ)) ∧
      (∀ i j : Int, R ≤ i → i < n - R → R ≤ j → j < n - R →
        st.2.cell (idx n i j) = (x : ℚ) * (COEFX + COEFY))) 0 k _ _ hk ?_ ?_
  · refine ⟨_, rfl, ?_, ?_⟩
    · intro a b h1 h2 h3 h4
      rw [initIn_cell n in0 a b h1 h2 h3 h4]
      simp
    · intro i j h1 h2 h3 h4
      rw [initOut_cell R n out0 hR0 i j h1 h2 h3 h4]
      simp
  · rintro x acc hx1 hx2 ⟨st, rfl, hin, hout⟩
    refine ⟨(refresh n st.1, untiledPass shape R n (buildWeights shape R w0) st.1 st.2),
      ?_, ?_, ?_⟩
    · simp only [round, stencilPass_eq fuel shape R n tile_size _ st.1 st.2 ht hfuel]
    · intro a b h1 h2 h3 h4
      show (refresh n st.1).cell (idx n a b) = _
      rw [refresh_cell n st.1 a b h1 h2 h3 h4, hin a b h1 h2 h3 h4]
      push_cast
      ring
    · intro i j h1 h2 h3 h4
      show (untiledPass shape R n (buildWeights shape R w0) st.1 st.2).cell (idx n i j) = _
      rw [untiledPass_cell shape R n _ st.1 st.2 i j h1 h2 h3 h4, hout i j h1 h2 h3 h4,
        cellResponse_ramp shape R n hR w0 st.1 (x : ℚ) hin i j h1 h2 h3 h4]
      push_cast
      ring

/-- The reduction loop sums the absolute values of the interior cells. -/
theorem normSum_eq (R n : Int) (out : Grid) :
    normSum R n out = ∑ j ∈ Finset.Ico R (n - R), ∑ i ∈ Finset.Ico R (n - R),
      ABS (out.cell (idx n i j)) := by
  unfold normSum
  simp only [forLoop_sum, zero_add]

theorem ABS_of_nonneg (x : ℚ) (h : 0 ≤ x) : ABS x = x := by
  unfold ABS
  rw [if_neg (not_lt.2 h)]

/-- When every interior cell holds the same nonnegative value, the norm is that value. -/
theorem norm_const (R n : Int) (out : Grid) (v : ℚ) (hv : 0 ≤ v) (hn : 2 * R + 1 ≤ n)
    (hout : ∀ i j : Int, R ≤ i → i < n - R → R ≤ j → j < n - R → out.cell (idx n i j) = v) :
    normSum R n out / f_active_points R n = v := by
  have hsum : normSum R n out =
      ∑ _j ∈ Finset.Ico R (n - R), ∑ _i ∈ Finset.Ico R (n - R), v := by
    rw [normSum_eq]
    refine Finset.sum_congr rfl (fun j hj => Finset.sum_congr rfl (fun i hi => ?_))
    rw [Finset.mem_Ico] at hi hj
    rw [hout i j hi.1 hi.2 hj.1 hj.2, ABS_of_nonneg v hv]
  have hcard : ((Finset.Ico R (n - R)).card : ℚ) = ((n - 2 * R : Int) : ℚ) := by
    rw [Int.card_Ico]
    have h1 : ((n - R - R).toNat : Int) = n - 2 * R := by omega
    have h2 : (((n - R - R).toNat : Int) : ℚ) = ((n - 2 * R : Int) : ℚ) := by rw [h1]
    exact_mod_cast h2
  have hne : ((n - 2 * R : Int) : ℚ) ≠ 0 := by exact_mod_cast (by omega : n - 2 * R ≠ 0)
  rw [hsum]
  simp only [Finset.sum_const, nsmul_eq_mul, hcard]
  unfold f_active_points
  generalize ((n - 2 * R : Int) : ℚ) = d at hne
  field_simp
  ring

theorem validates_reference (double : Bool) (iterations : Int) :
    validates double (reference_norm iterations) iterations = true := by
  unfold validates
  have hE : 0 ≤ EPSILON double := by
    unfold EPSILON
    split_ifs <;> norm_num
  rw [sub_self, ABS_of_nonneg 0 le_rfl, if_neg (not_lt.2 hE)]

/-! ## The representability test -/

theorem wrapInt_range (x : Int) : -2 ^ 31 ≤ wrapInt x ∧ wrapInt x < 2 ^ 31 := by
  unfold wrapInt
  omega

theorem wrapInt_of_range (x : Int) (h1 : -2 ^ 31 ≤ x) (h2 : x < 2 ^ 31) : wrapInt x = x := by
  unfold wrapInt
  omega

theorem toSizeT_of_range (x : Int) (h1 : 0 ≤ x) (h2 : x < 2 ^ 64) : toSizeT x = x := by
  unfold toSizeT
  omega

theorem sizeofDTYPE_cases (double : Bool) : sizeofDTYPE double = 4 ∨ sizeofDTYPE double = 8 := by
  unfold sizeofDTYPE
  cases double <;> simp

/-- When the byte length fits an `int`, `total_length` is the byte length. -/
theorem total_length_exact (double : Bool) (n : Int) (hn : 1 ≤ n)
    (h : n * n * sizeofDTYPE double ≤ 2 ^ 31 - 1) :
    total_length double n = n * n * sizeofDTYPE double := by
  have hs := sizeofDTYPE_cases double
  have hnn : 0 ≤ n * n := mul_nonneg (by omega) (by omega)
  have hle : n * n ≤ n * n * sizeofDTYPE double := by
    rcases hs with hs | hs <;> rw [hs] <;> omega
  have hpos : 0 ≤ n * n * sizeofDTYPE double := by omega
  unfold total_length
  rw [wrapInt_of_range (n * n) (by omega) (by omega),
    toSizeT_of_range (n * n) hnn (by omega),
    toSizeT_of_range (n * n * sizeofDTYPE double) hpos (by omega),
    wrapInt_of_range _ (by omega) (by omega)]

/-- The test `total_length/n != n*sizeof(DTYPE)` passes exactly when the byte length of the
grid fits an `int`. -/
theorem repr_check (double : Bool) (n : Int) (hn1 : 1 ≤ n) (hn2 : n < 2 ^ 31) :
    toSizeT (Int.tdiv (total_length double n) n) = toSizeT (toSizeT n * sizeofDTYPE double) ↔
      n * n * sizeofDTYPE double ≤ 2 ^ 31 - 1 := by
  have hs := sizeofDTYPE_cases double
  have hn0 : n ≠ 0 := by omega
  have hrhs : toSizeT (toSizeT n * sizeofDTYPE double) = n * sizeofDTYPE double := by
    rw [toSizeT_of_range n (by omega) (by omega)]
    rcases hs with hs | hs <;> rw [hs] <;> exact toSizeT_of_range _ (by omega) (by omega)
  rw [hrhs]
  constructor
  · intro h
    have hT : ∀ T : Int, -2 ^ 31 ≤ T → T < 2 ^ 31 →
        toSizeT (Int.tdiv T n) = n * sizeofDTYPE double →
        n * n * sizeofDTYPE double ≤ 2 ^ 31 - 1 := by
      intro T hT1 hT2 hq
      rcases le_or_lt 0 T with hT0 | hT0
      · have hq0 : 0 ≤ Int.tdiv T n := Int.tdiv_nonneg hT0 (by omega)
        have hediv : Int.tdiv T n = T / n := Int.tdiv_eq_ediv hT0 (by omega)
        have hmul : T / n * n ≤ T := Int.ediv_mul_le T hn0
        have hqle : T / n ≤ T := by
          have : T / n * 1 ≤ T / n * n :=
            Int.mul_le_mul_of_nonneg_left hn1 (by rw [← hediv]; exact hq0)
          omega
        rw [toSizeT_of_range _ hq0 (by rw [hediv]; omega), hediv] at hq
        rw [hq] at hmul
        have e : n * sizeofDTYPE double * n = n * n * sizeofDTYPE double := by ring
        omega
      · have hneg : Int.tdiv T n = -Int.tdiv (-T) n := by
          rw [Int.neg_tdiv, neg_neg]
        have hq0 : 0 ≤ Int.tdiv (-T) n := Int.tdiv_nonneg (by omega) (by omega)
        have hediv : Int.tdiv (-T) n = -T / n := Int.tdiv_eq_ediv (by omega) (by omega)
        have hmul : -T / n * n ≤ -T := Int.ediv_mul_le (-T) hn0
        have hqle : -T / n ≤ -T := by
          have : -T / n * 1 ≤ -T / n * n :=
            Int.mul_le_mul_of_nonneg_left hn1 (by rw [← hediv]; exact hq0)
          omega
        rw [hneg, hediv] at hq
        unfold toSizeT at hq
        rcases hs with hs | hs <;> rw [hs] at hq <;> omega
    exact hT _ (wrapInt_range _).1 (wrapInt_range _).2 h
  · intro h
    rw [total_length_exact double n hn1 h, mul_assoc, Int.mul_tdiv_cancel_left _ hn0]
    have hnn : 0 ≤ n * n := mul_nonneg (by omega) (by omega)
    have hle : n * sizeofDTYPE double ≤ n * n * sizeofDTYPE double := by
      have h1 : n * 1 ≤ n * n := Int.mul_le_mul_of_nonneg_left hn1 (by omega)
      rcases hs with hs | hs <;> rw [hs] <;> omega
    exact toSizeT_of_range _ (by rcases hs with hs | hs <;> rw [hs] <;> omega) (by omega)

/-- With a tile size equal to the grid dimension and a radius of at least zero, the engine
takes the untiled branch. -/
theorem stencilPass_default (fuel : Nat) (shape : Shape) (R n : Int) (w : WeightArr)
    (inp out : Grid) (hR : 0 ≤ R) :
    stencilPass fuel shape R n n w inp out = some (untiledPass shape R n w inp out) := by
  unfold stencilPass
  rw [if_neg (by omega)]

/-- The input tests accept exactly the configurations the specification lists. -/
theorem processInput_spec (MAX_THREADS RADIUS : Int) (double : Bool) (argc : Int)
    (arg : Nat → Int) (hargc : argc = 4 ∨ argc = 5)
    (hint : -2 ^ 31 ≤ arg 3 ∧ arg 3 < 2 ^ 31) :
    (specAccepts MAX_THREADS RADIUS double argc arg →
      processInput MAX_THREADS RADIUS double argc arg =
        .ok ⟨arg 1, arg 2, arg 3, if argc = 5 then arg 4 else arg 3,
          arg 3 * arg 3 * sizeofDTYPE double⟩) ∧
    (¬ specAccepts MAX_THREADS RADIUS double argc arg →
      ∃ e, processInput MAX_THREADS RADIUS double argc arg = .error e) := by
  unfold processInput specAccepts
  rw [if_neg (by omega)]
  by_cases h1 : arg 1 < 1 ∨ arg 1 > MAX_THREADS
  · rw [if_pos h1]
    exact ⟨fun h => by omega, fun _ => ⟨_, rfl⟩⟩
  rw [if_neg h1]
  by_cases h2 : arg 2 < 1
  · rw [if_pos h2]
    exact ⟨fun h => by omega, fun _ => ⟨_, rfl⟩⟩
  rw [if_neg h2]
  by_cases h3 : arg 3 < 1
  · rw [if_pos h3]
    exact ⟨fun h => by omega, fun _ => ⟨_, rfl⟩⟩
  rw [if_neg h3]
  by_cases h4 : RADIUS < 1
  · rw [if_pos h4]
    exact ⟨fun h => by omega, fun _ => ⟨_, rfl⟩⟩
  rw [if_neg h4]
  by_cases h5 : 2 * RADIUS + 1 > arg 3
  · rw [if_pos h5]
    exact ⟨fun h => by omega, fun _ => ⟨_, rfl⟩⟩
  rw [if_neg h5]
  have hrep := repr_check double (arg 3) (by omega) hint.2
  by_cases h6 : arg 3 * arg 3 * sizeofDTYPE double ≤ 2 ^ 31 - 1
  · rw [if_neg (not_not.2 (hrep.2 h6)), total_length_exact double (arg 3) (by omega) h6]
    rcases hargc with hargc | hargc
    · rw [if_neg (by omega), if_neg (by omega)]
      exact ⟨fun _ => rfl, fun h => absurd ⟨by omega, by omega, by omega, by omega,
        by omega, h6, fun h5 => by omega⟩ h⟩
    · rw [if_pos hargc, if_pos hargc]
      by_cases h7 : arg 4 < 1
      · rw [if_pos h7]
        exact ⟨fun h => absurd (h.2.2.2.2.2.2 hargc) (by omega), fun _ => ⟨_, rfl⟩⟩
      · rw [if_neg h7]
        exact ⟨fun _ => rfl, fun h => absurd ⟨by omega, by omega, by omega, by omega,
          by omega, h6, fun _ => by omega⟩ h⟩
  · rw [if_pos (fun h => h6 (hrep.1 h))]
    exact ⟨fun h => absurd h.2.2.2.2.2.1 h6, fun _ => ⟨_, rfl⟩⟩

/-! ## Rounds of the driver, one at a time -/

/-- The loop over `k + 1` rounds is the loop over `k` rounds followed by one more round. -/
theorem iterate_succ (fuel : Nat) (shape : Shape) (R n tile_size : Int) (w : WeightArr)
    (k : Int) (hk : 0 ≤ k) (st : Grid × Grid) :
    iterate fuel shape R n tile_size w (k + 1) st =
      match iterate fuel shape R n tile_size w k st with
      | some s => round fuel shape R n tile_size w s
      | none => none := by
  unfold iterate
  exact forLoop_succ _ _ _ _ hk

/-- With a tile size of at least one and enough fuel, a round is the untiled traversal of
the output together with the refresh of the input. -/
theorem round_eq (fuel : Nat) (shape : Shape) (R n tile_size : Int) (w : WeightArr)
    (st : Grid × Grid) (ht : 1 ≤ tile_size) (hfuel : n - 2 * R ≤ (fuel : Int)) :
    round fuel shape R n tile_size w st =
      some (refresh n st.1, untiledPass shape R n w st.1 st.2) := by
  simp only [round, stencilPass_eq fuel shape R n tile_size w st.1 st.2 ht hfuel]

theorem ABS_nonneg_mul (k c : ℚ) (hk : 0 ≤ k) (hc : 0 ≤ c) : ABS (k * c) = k * c :=
  ABS_of_nonneg _ (mul_nonneg hk hc)

/-! ## The frame of a pass -/

/-- A flat index that is not an interior cell keeps its output element in a pass. -/
theorem stencilPass_frame (fuel : Nat) (shape : Shape) (R n tile_size : Int) (w : WeightArr)
    (inp out : Grid) (ht : 1 ≤ tile_size) (hfuel : n - 2 * R ≤ (fuel : Int)) :
    ∃ out1, stencilPass fuel shape R n tile_size w inp out = some out1 ∧
      ∀ p : Int, ¬ (R ≤ p % n ∧ p % n < n - R ∧ R ≤ p / n ∧ p / n < n - R) →
        out1.cell p = out.cell p :=
  ⟨_, stencilPass_eq fuel shape R n tile_size w inp out ht hfuel,
    fun p hp => untiledPass_frame shape R n w inp out p hp⟩

/-- A cell of the grid outside the interior keeps its output value in the untiled pass. -/
theorem untiledPass_halo (shape : Shape) (R n : Int) (w : WeightArr) (inp out : Grid)
    (i j : Int) (h1 : 0 ≤ i) (h2 : i < n)
    (hhalo : ¬ (R ≤ i ∧ i < n - R ∧ R ≤ j ∧ j < n - R)) :
    (untiledPass shape R n w inp out).cell (idx n i j) = out.cell (idx n i j) := by
  refine untiledPass_frame shape R n w inp out (idx n i j) ?_
  obtain ⟨e1, e2⟩ := (idx_decode n i j (idx n i j) h1 h2).1 rfl
  rw [e1, e2]
  exact hhalo

/-! ## Rules for relations indexed by a region -/

/-- A loop whose `k`-th iteration processes the region `A k`, the regions being pairwise
disjoint, processes their union. -/
theorem region_loop {σ : Type} (Rel : (Int → Int → Prop) → σ → σ → Prop)
    (hrefl : ∀ s, Rel (fun _ _ => False) s s)
    (htrans : ∀ (A B : Int → Int → Prop) (s s1 s2 : σ), Rel A s s1 → Rel B s1 s2 →
      (∀ a b, A a b → B a b → False) → Rel (fun a b => A a b ∨ B a b) s s2)
    (hcongr : ∀ (A B : Int → Int → Prop) (s s1 : σ), Rel A s s1 →
      (∀ a b, A a b ↔ B a b) → Rel B s s1)
    (lo hi : Int) (body : Int → σ → σ) (A : Int → Int → Int → Prop) (s : σ)
    (hbody : ∀ k t, lo ≤ k → k < hi → Rel (A k) t (body k t))
    (hdisj : ∀ k k1 a b, A k a b → A k1 a b → k = k1) :
    Rel (fun a b => ∃ k, lo ≤ k ∧ k < hi ∧ A k a b) s (forLoop lo hi body s) := by
  have hempty : ∀ x : Int, x ≤ lo → Rel (fun a b => ∃ k, lo ≤ k ∧ k < x ∧ A k a b) s s := by
    intro x hx
    refine hcongr _ _ _ _ (hrefl s) ?_
    intro a b
    constructor
    · intro h
      exact h.elim
    · rintro ⟨k, h1, h2, _⟩
      omega
  rcases le_or_lt lo hi with hle | hlt
  · refine forLoop_inv (fun x t => Rel (fun a b => ∃ k, lo ≤ k ∧ k < x ∧ A k a b) s t)
      lo hi body s hle (hempty lo le_rfl) ?_
    intro x t h1 h2 ht
    refine hcongr _ _ _ _ (htrans _ _ _ _ _ ht (hbody x t h1 h2) ?_) ?_
    · rintro a b ⟨k, h3, h4, h5⟩ h6
      have := hdisj k x a b h5 h6
      omega
    · intro a b
      constructor
      · rintro (⟨k, h3, h4, h5⟩ | h6)
        · exact ⟨k, h3, by omega, h5⟩
        · exact ⟨x, h1, by omega, h6⟩
      · rintro ⟨k, h3, h4, h5⟩
        by_cases hk : k = x
        · subst hk
          exact Or.inr h5
        · exact Or.inl ⟨k, h3, by omega, h5⟩
  · rw [forLoop_empty _ _ _ _ hlt.le]
    exact hempty hi hlt.le

/-- Two nested loops, rows `lo <= jt < hi` outside and columns `clo <= it < chi` inside,
whose body processes the cell `(it, jt)`, process the rectangle. -/
theorem region_block {σ : Type} (Rel : (Int → Int → Prop) → σ → σ → Prop)
    (hrefl : ∀ s, Rel (fun _ _ => False) s s)
    (htrans : ∀ (A B : Int → Int → Prop) (s s1 s2 : σ), Rel A s s1 → Rel B s1 s2 →
      (∀ a b, A a b → B a b → False) → Rel (fun a b => A a b ∨ B a b) s s2)
    (hcongr : ∀ (A B : Int → Int → Prop) (s s1 : σ), Rel A s s1 →
      (∀ a b, A a b ↔ B a b) → Rel B s s1)
    (lo hi clo chi : Int) (cell : Int → Int → σ → σ) (s : σ)
    (hcell : ∀ it jt t, clo ≤ it → it < chi → lo ≤ jt → jt < hi →
      Rel (fun a b => a = it ∧ b = jt) t (cell it jt t)) :
    Rel (fun a b => clo ≤ a ∧ a < chi ∧ lo ≤ b ∧ b < hi) s
      (forLoop lo hi (fun jt t => forLoop clo chi (fun it t => cell it jt t) t) s) := by
  refine hcongr _ _ _ _ (region_loop Rel hrefl htrans hcongr lo hi _
    (fun jt a b => clo ≤ a ∧ a < chi ∧ b = jt) s ?_ ?_) ?_
  · intro jt t h1 h2
    refine hcongr _ _ _ _ (region_loop Rel hrefl htrans hcongr clo chi _
      (fun it a b => a = it ∧ b = jt) t (fun it u h3 h4 => hcell it jt u h3 h4 h1 h2) ?_) ?_
    · intro k k1 a b h3 h4
      rw [← h3.1, ← h4.1]
    · intro a b
      constructor
      · rintro ⟨k, h3, h4, h5, h6⟩
        exact ⟨by omega, by omega, h6⟩
      · rintro ⟨h3, h4, h5⟩
        exact ⟨a, h3, h4, rfl, h5⟩
  · intro k k1 a b h3 h4
    rw [← h3.2.2, ← h4.2.2]
  · intro a b
    constructor
    · rintro ⟨k, h1, h2, h3, h4, h5⟩
      exact ⟨h3, h4, by omega, by omega⟩
    · rintro ⟨h1, h2, h3, h4⟩
      exact ⟨b, h3, h4, h1, h2, rfl⟩

/-- The tiled loop nest returns, given a tile size of at least one and enough fuel, and
processes exactly the interior. -/
theorem region_tiled {σ : Type} (Rel : (Int → Int → Prop) → σ → σ → Prop)
    (hrefl : ∀ s, Rel (fun _ _ => False) s s)
    (htrans : ∀ (A B : Int → Int → Prop) (s s1 s2 : σ), Rel A s s1 → Rel B s1 s2 →
      (∀ a b, A a b → B a b → False) → Rel (fun a b => A a b ∨ B a b) s s2)
    (hcongr : ∀ (A B : Int → Int → Prop) (s s1 : σ), Rel A s s1 →
      (∀ a b, A a b ↔ B a b) → Rel B s s1)
    (fuel : Nat) (R n tile_size : Int) (cell : Int → Int → σ → σ) (s : σ)
    (hcell : ∀ it jt t, R ≤ it → it < n - R → R ≤ jt → jt < n - R →
      Rel (fun a b => a = it ∧ b = jt) t (cell it jt t))
    (ht : 1 ≤ tile_size) (hfuel : n - 2 * R ≤ (fuel : Int)) :
    ∃ s1, tiledLoops fuel R n tile_size cell s = some s1 ∧
      Rel (fun a b => R ≤ a ∧ a < n - R ∧ R ≤ b ∧ b < n - R) s s1 := by
  have hMIN : ∀ x : Int, MIN (n - R) (x + tile_size) ≤ n - R := by
    intro x
    unfold MIN
    split_ifs <;> omega
  have htile : ∀ (i j : Int) (t : σ), R ≤ i → R ≤ j →
      Rel (fun a b => i ≤ a ∧ a < MIN (n - R) (i + tile_size) ∧
        j ≤ b ∧ b < MIN (n - R) (j + tile_size)) t
        (forLoop j (MIN (n - R) (j + tile_size)) (fun jt t =>
          forLoop i (MIN (n - R) (i + tile_size)) (fun it t => cell it jt t) t) t) := by
    intro i j t hi hj
    refine region_block Rel hrefl htrans hcongr _ _ _ _ cell t ?_
    intro it jt u h1 h2 h3 h4
    have := hMIN i
    have := hMIN j
    exact hcell it jt u (by omega) (by omega) (by omega) (by omega)
  have hrow : ∀ (j : Int) (t : σ), R ≤ j →
      ∃ t1, forStep fuel R (n - R) tile_size (fun i s =>
          some (forLoop j (MIN (n - R) (j + tile_size)) (fun jt s =>
            forLoop i (MIN (n - R) (i + tile_size)) (fun it s => cell it jt s) s) s)) t =
          some t1 ∧
        Rel (fun a b => R ≤ a ∧ a < n - R ∧ j ≤ b ∧ b < MIN (n - R) (j + tile_size))
          t t1 := by
    intro j t hj
    obtain ⟨s1, k1, hrun, h1, h2, _, h4, h5⟩ := forStep_inv
      (fun i u => R ≤ i ∧ Rel (fun a b => R ≤ a ∧ a < i ∧ a < n - R ∧
        j ≤ b ∧ b < MIN (n - R) (j + tile_size)) t u)
      (n - R) tile_size
      (fun i s => some (forLoop j (MIN (n - R) (j + tile_size)) (fun jt s =>
        forLoop i (MIN (n - R) (i + tile_size)) (fun it s => cell it jt s) s) s)) ht
      (by
        intro i u hi hP
        refine ⟨_, rfl, by omega, ?_⟩
        refine hcongr _ _ _ _ (htrans _ _ _ _ _ hP.2 (htile i j u hP.1 hj) ?_) ?_
        · intro a b h6 h7
          omega
        · intro a b
          unfold MIN
          constructor <;> intro h6 <;> split_ifs at h6 ⊢ <;> omega)
      fuel R t (by omega)
      ⟨le_rfl, hcongr _ _ _ _ (hrefl t) (fun a b => by
        constructor
        · intro h6
          exact h6.elim
        · intro h6
          omega)⟩
    refine ⟨s1, hrun, hcongr _ _ _ _ h5 ?_⟩
    intro a b
    constructor <;> intro h6 <;> omega
  unfold tiledLoops
  obtain ⟨s1, k1, hrun, h1, h2, _, h4, h5⟩ := forStep_inv
    (fun j u => R ≤ j ∧ Rel (fun a b => R ≤ a ∧ a < n - R ∧ R ≤ b ∧ b < j ∧ b < n - R) s u)
    (n - R) tile_size
    (fun j s => forStep fuel R (n - R) tile_size (fun i s =>
      some (forLoop j (MIN (n - R) (j + tile_size)) (fun jt s =>
        forLoop i (MIN (n - R) (i + tile_size)) (fun it s => cell it jt s) s) s)) s) ht
    (by
      intro j u hj hP
      obtain ⟨t1, hr, hupd⟩ := hrow j u hP.1
      refine ⟨t1, hr, by omega, ?_⟩
      refine hcongr _ _ _ _ (htrans _ _ _ _ _ hP.2 hupd ?_) ?_
      · intro a b h6 h7
        omega
      · intro a b
        have := hP.1
        unfold MIN
        constructor <;> intro h6 <;> split_ifs at h6 ⊢ <;> omega)
    fuel R s (by omega)
    ⟨le_rfl, hcongr _ _ _ _ (hrefl s) (fun a b => by
      constructor
      · intro h6
        exact h6.elim
      · intro h6
        omega)⟩
  refine ⟨s1, hrun, hcongr _ _ _ _ h5 ?_⟩
  intro a b
  constructor <;> intro h6 <;> omega

/-! ## The log of the visits -/

theorem Vis.nil (l : List (Int × Int)) : Vis (fun _ _ => False) l l :=
  ⟨[], (List.append_nil l).symm, List.nodup_nil, fun _ _ =>
    ⟨fun h => absurd h (List.not_mem_nil _), fun h => h.elim⟩⟩

theorem Vis.append (A B : Int → Int → Prop) (l l1 l2 : List (Int × Int))
    (h1 : Vis A l l1) (h2 : Vis B l1 l2) (hdisj : ∀ a b, A a b → B a b → False) :
    Vis (fun a b => A a b ∨ B a b) l l2 := by
  obtain ⟨e1, rfl, hn1, hm1⟩ := h1
  obtain ⟨e2, rfl, hn2, hm2⟩ := h2
  refine ⟨e1 ++ e2, List.append_assoc l e1 e2, ?_, ?_⟩
  · rw [List.nodup_append]
    refine ⟨hn1, hn2, ?_⟩
    rintro ⟨a, b⟩ ha hb
    exact hdisj a b ((hm1 a b).1 ha) ((hm2 a b).1 hb)
  · intro a b
    rw [List.mem_append, hm1, hm2]

theorem Vis.of_iff (A B : Int → Int → Prop) (l l1 : List (Int × Int)) (h : Vis A l l1)
    (hAB : ∀ a b, A a b ↔ B a b) : Vis B l l1 := by
  obtain ⟨e, he, hn, hm⟩ := h
  exact ⟨e, he, hn, fun a b => (hm a b).trans (hAB a b)⟩

theorem Vis.single (l : List (Int × Int)) (i j : Int) :
    Vis (fun a b => a = i ∧ b = j) l (l ++ [(i, j)]) := by
  refine ⟨[(i, j)], rfl, List.nodup_singleton _, ?_⟩
  intro a b
  rw [List.mem_singleton, Prod.mk.injEq]

/-- With a tile size of at least one and enough fuel the tiled loop nest returns, and its
visits are the interior cells, each once. -/
theorem tiledVisits_spec (fuel : Nat) (R n tile_size : Int) (ht : 1 ≤ tile_size)
    (hfuel : n - 2 * R ≤ (fuel : Int)) :
    ∃ visits, tiledVisits fuel R n tile_size = some visits ∧ visits.Nodup ∧
      ∀ a b, (a, b) ∈ visits ↔ (R ≤ a ∧ a < n - R ∧ R ≤ b ∧ b < n - R) := by
  obtain ⟨s1, hrun, e, he, hn, hm⟩ := region_tiled Vis Vis.nil Vis.append Vis.of_iff fuel R n
    tile_size (fun it jt log => log ++ [(it, jt)]) []
    (fun it jt t _ _ _ _ => Vis.single t it jt) ht hfuel
  rw [List.nil_append] at he
  subst he
  exact ⟨s1, hrun, hn, hm⟩

/-! ## Checked accesses -/

/-- A loop whose fallible body never fails on the index range is the loop of the total
body. -/
theorem forLoopOpt_some {σ : Type} (lo hi : Int) (body : Int → σ → Option σ)
    (body1 : Int → σ → σ) (s : σ)
    (h : ∀ k t, lo ≤ k → k < hi → body k t = some (body1 k t)) :
    forLoopOpt lo hi body s = some (forLoop lo hi body1 s) := by
  unfold forLoopOpt
  rcases le_or_lt lo hi with hle | hlt
  · refine forLoop_inv (fun x acc => acc = some (forLoop lo x body1 s)) lo hi _ (some s) hle
      ?_ ?_
    · show some s = some (forLoop lo lo body1 s)
      rw [forLoop_empty _ _ _ _ le_rfl]
    · intro x acc h1 h2 hacc
      subst hacc
      show body x (forLoop lo x body1 s) = some (forLoop lo (x + 1) body1 s)
      rw [forLoop_succ _ _ _ _ h1]
      exact h x _ h1 h2
  · rw [forLoop_empty _ _ _ _ hlt.le, forLoop_empty _ _ _ _ hlt.le]

/-- Stepped loops whose bodies agree on the index range compute the same result. -/
theorem forStep_congr {σ : Type} (lo hi step : Int) (body body1 : Int → σ → Option σ)
    (hstep : 0 ≤ step) (h : ∀ k t, lo ≤ k → k < hi → body k t = body1 k t) :
    ∀ (fuel : Nat) (k : Int) (s : σ), lo ≤ k →
      forStep fuel k hi step body s = forStep fuel k hi step body1 s := by
  intro fuel
  induction fuel with
  | zero =>
    intro k s _
    rfl
  | succ fuel ih =>
    intro k s hk
    by_cases hlt : k < hi
    · simp only [forStep, hlt, if_true, h k s hk hlt]
      cases body1 k s with
      | none => rfl
      | some t => exact ih (k + step) t (by omega)
    · simp only [forStep, hlt, if_false]

/-- The flat index of a cell of the grid lies in the buffer. -/
theorem idx_range (n a b : Int) (h1 : 0 ≤ a) (h2 : a < n) (h3 : 0 ≤ b) (h4 : b < n) :
    0 ≤ idx n a b ∧ idx n a b < n * n := by
  unfold idx
  have hn : 0 ≤ n := by omega
  have e1 : 0 ≤ b * n := mul_nonneg h3 hn
  have e2 : b * n ≤ (n - 1) * n := Int.mul_le_mul_of_nonneg_right (by omega) hn
  have e3 : (n - 1) * n = n * n - n := by ring
  constructor <;> omega

theorem accumChecked_some (R n : Int) (w : WeightArr) (inp : Grid) (ii jj kin kout : Int)
    (out : Grid) (h1 : -R ≤ ii) (h2 : ii ≤ R) (h3 : -R ≤ jj) (h4 : jj ≤ R)
    (hin : 0 ≤ kin ∧ kin < n * n) (hout : 0 ≤ kout ∧ kout < n * n) :
    accumChecked R n w inp ii jj kin kout out =
      some (addAt out kout (WEIGHT w R ii jj * inp.cell kin)) := by
  unfold accumChecked readWEIGHT readAt addAtChecked
  rw [if_pos ⟨by omega, by omega, by omega, by omega⟩, if_pos hin]
  simp only [if_pos hout]

/-- On an interior cell of a grid that hosts the footprint, no access of the cell loops
fails, and they compute what the unchecked loops compute. -/
theorem stencilCellChecked_some (shape : Shape) (R n : Int) (w : WeightArr) (inp : Grid)
    (i j : Int) (out : Grid) (hR : 0 ≤ R) (h1 : R ≤ i) (h2 : i < n - R) (h3 : R ≤ j)
    (h4 : j < n - R) :
    stencilCellChecked shape R n w inp i j out = some (stencilCell shape R n w inp i j out) := by
  have hout := idx_range n i j (by omega) (by omega) (by omega) (by omega)
  cases shape with
  | star =>
    unfold stencilCellChecked stencilCell
    simp only []
    rw [forLoopOpt_some (-R) (R + 1) _
      (fun jj out => addAt out (idx n i j) (WEIGHT w R 0 jj * inp.cell (idx n i (j + jj)))) out
      (fun jj t hj1 hj2 => accumChecked_some R n w inp 0 jj _ _ t (by omega) (by omega)
        (by omega) (by omega)
        (idx_range n i (j + jj) (by omega) (by omega) (by omega) (by omega)) hout)]
    simp only []
    rw [forLoopOpt_some (-R) 0 _
      (fun ii out => addAt out (idx n i j) (WEIGHT w R ii 0 * inp.cell (idx n (i + ii) j))) _
      (fun ii t hi1 hi2 => accumChecked_some R n w inp ii 0 _ _ t (by omega) (by omega)
        (by omega) (by omega)
        (idx_range n (i + ii) j (by omega) (by omega) (by omega) (by omega)) hout)]
    simp only []
    rw [forLoopOpt_some 1 (R + 1) _
      (fun ii out => addAt out (idx n i j) (WEIGHT w R ii 0 * inp.cell (idx n (i + ii) j))) _
      (fun ii t hi1 hi2 => accumChecked_some R n w inp ii 0 _ _ t (by omega) (by omega)
        (by omega) (by omega)
        (idx_range n (i + ii) j (by omega) (by omega) (by omega) (by omega)) hout)]
  | compact =>
    unfold stencilCellChecked stencilCell
    simp only []
    refine forLoopOpt_some (-R) (R + 1) _ _ out ?_
    intro jj t hj1 hj2
    refine forLoopOpt_some (-R) (R + 1) _ _ t ?_
    intro ii u hi1 hi2
    exact accumChecked_some R n w inp ii jj _ _ u hi1 (by omega) hj1 (by omega)
      (idx_range n (i + ii) (j + jj) (by omega) (by omega) (by omega) (by omega)) hout

theorem untiledPassChecked_some (shape : Shape) (R n : Int) (w : WeightArr) (inp out : Grid)
    (hR : 0 ≤ R) :
    untiledPassChecked shape R n w inp out = some (untiledPass shape R n w inp out) := by
  unfold untiledPassChecked untiledPass
  refine forLoopOpt_some R (n - R) _ _ out ?_
  intro j t hj1 hj2
  refine forLoopOpt_some R (n - R) _ _ t ?_
  intro i u hi1 hi2
  exact stencilCellChecked_some shape R n w inp i j u hR hi1 hi2 hj1 hj2

theorem tiledPassChecked_eq (fuel : Nat) (shape : Shape) (R n tile_size : Int)
    (w : WeightArr) (inp out : Grid) (hR : 0 ≤ R) (ht : 1 ≤ tile_size) :
    tiledPassChecked fuel shape R n tile_size w inp out =
      tiledPass fuel shape R n tile_size w inp out := by
  have hMIN : ∀ x : Int, MIN (n - R) (x + tile_size) ≤ n - R := by
    intro x
    unfold MIN
    split_ifs <;> omega
  unfold tiledPassChecked tiledPass
  refine forStep_congr R (n - R) tile_size _ _ (by omega) ?_ fuel R out le_rfl
  intro j t hj1 hj2
  refine forStep_congr R (n - R) tile_size _ _ (by omega) ?_ fuel R t le_rfl
  intro i u hi1 hi2
  refine forLoopOpt_some j _ _ _ u ?_
  intro jt v hjt1 hjt2
  refine forLoopOpt_some i _ _ _ v ?_
  intro it x hit1 hit2
  have := hMIN i
  have := hMIN j
  exact stencilCellChecked_some shape R n w inp it jt x hR (by omega) (by omega) (by omega)
    (by omega)

theorem stencilPassChecked_some (fuel : Nat) (shape : Shape) (R n tile_size : Int)
    (w : WeightArr) (inp out : Grid) (hR : 0 ≤ R) (ht : 1 ≤ tile_size)
    (hfuel : n - 2 * R ≤ (fuel : Int)) :
    stencilPassChecked fuel shape R n tile_size w inp out =
      some (untiledPass shape R n w inp out) := by
  unfold stencilPassChecked
  split_ifs
  · rw [tiledPassChecked_eq fuel shape R n tile_size w inp out hR ht,
      tiledPass_eq fuel shape R n tile_size w inp out ht hfuel]
  · exact untiledPassChecked_some shape R n w inp out hR

/-! ## Timing -/

/-- The timing variables after `x >= 1` rounds of a run of at least two rounds: round 0 is
skipped, the later rounds are accumulated. -/
theorem timingLoop_inv (iterations : Int) (t : Int → ℚ) (hk : 2 ≤ iterations)
    (ht : ∀ i : Int, 0 ≤ i → i < iterations → 0 ≤ t i ∧ t i ≤ 366 * 24 * 3600) :
    (timingLoop iterations t).avgtime = ∑ i ∈ Finset.Ico 1 iterations, t i ∧
    (∀ i : Int, 1 ≤ i → i < iterations →
      t i ≤ (timingLoop iterations t).maxtime ∧ (timingLoop iterations t).mintime ≤ t i) ∧
    (∃ i : Int, 1 ≤ i ∧ i < iterations ∧ (timingLoop iterations t).maxtime = t i) ∧
    (∃ i : Int, 1 ≤ i ∧ i < iterations ∧ (timingLoop iterations t).mintime = t i) := by
  have hinv := forLoop_inv (fun (x : Int) (tm : Timing) =>
      tm.avgtime = ∑ i ∈ Finset.Ico 1 x, t i ∧
      (∀ i : Int, 1 ≤ i → i < x → t i ≤ tm.maxtime ∧ tm.mintime ≤ t i) ∧
      (tm.maxtime = 0 ∨ ∃ i : Int, 1 ≤ i ∧ i < x ∧ tm.maxtime = t i) ∧
      (tm.mintime = 366 * 24 * 3600 ∨ ∃ i : Int, 1 ≤ i ∧ i < x ∧ tm.mintime = t i))
    0 iterations (fun iter tm => timingStep iterations iter (t iter) tm) timingInit
    (by omega) ?_ ?_
  · obtain ⟨h1, h2, h3, h4⟩ := hinv
    have hb := ht 1 (by omega) (by omega)
    refine ⟨h1, h2, ?_, ?_⟩
    · rcases h3 with h3 | h3
      · refine ⟨1, le_rfl, by omega, ?_⟩
        have hle : t 1 ≤ (timingLoop iterations t).maxtime := (h2 1 le_rfl (by omega)).1
        have e : (timingLoop iterations t).maxtime = 0 := h3
        linarith [hb.1]
      · exact h3
    · rcases h4 with h4 | h4
      · refine ⟨1, le_rfl, by omega, ?_⟩
        have hle : (timingLoop iterations t).mintime ≤ t 1 := (h2 1 le_rfl (by omega)).2
        have e : (timingLoop iterations t).mintime = 366 * 24 * 3600 := h4
        linarith [hb.2]
      · exact h4
  · refine ⟨?_, ?_, Or.inl rfl, Or.inl rfl⟩
    · rw [Finset.Ico_eq_empty (by omega), Finset.sum_empty]
      rfl
    · intro i h1 h2
      omega
  · rintro x tm hx1 hx2 ⟨h1, h2, h3, h4⟩
    beta_reduce
    by_cases hx0 : x = 0
    · subst hx0
      have hskip : timingStep iterations 0 (t 0) tm = tm := by
        unfold timingStep
        rw [if_neg (by omega)]
      rw [hskip]
      refine ⟨?_, ?_, ?_, ?_⟩
      · rw [h1, Finset.Ico_eq_empty (by omega), Finset.Ico_eq_empty (by omega)]
      · intro i h5 h6
        omega
      · rcases h3 with h3 | ⟨i, h5, h6, _⟩
        · exact Or.inl h3
        · omega
      · rcases h4 with h4 | ⟨i, h5, h6, _⟩
        · exact Or.inl h4
        · omega
    · have hb := ht x hx1 hx2
      have hstep : timingStep iterations x (t x) tm =
          ⟨tm.avgtime + t x, MAXd tm.maxtime (t x), MINd tm.mintime (t x)⟩ := by
        unfold timingStep
        rw [if_pos (Or.inl (by omega))]
      rw [hstep]
      have hmax1 : tm.maxtime ≤ MAXd tm.maxtime (t x) ∧ t x ≤ MAXd tm.maxtime (t x) := by
        unfold MAXd
        split_ifs with hc
        · exact ⟨le_rfl, le_of_lt hc⟩
        · exact ⟨not_lt.1 hc, le_rfl⟩
      have hmin1 : MINd tm.mintime (t x) ≤ tm.mintime ∧ MINd tm.mintime (t x) ≤ t x := by
        unfold MINd
        split_ifs with hc
        · exact ⟨le_rfl, le_of_lt hc⟩
        · exact ⟨not_lt.1 hc, le_rfl⟩
      refine ⟨?_, ?_, ?_, ?_⟩
      · show tm.avgtime + t x = ∑ i ∈ Finset.Ico 1 (x + 1), t i
        rw [h1, sum_Ico_succ t 1 x (by omega)]
      · intro i h5 h6
        show t i ≤ MAXd tm.maxtime (t x) ∧ MINd tm.mintime (t x) ≤ t i
        by_cases hix : i = x
        · subst hix
          exact ⟨hmax1.2, hmin1.2⟩
        · have := h2 i h5 (by omega)
          exact ⟨le_trans this.1 hmax1.1, le_trans hmin1.1 this.2⟩
      · show MAXd tm.maxtime (t x) = 0 ∨ ∃ i : Int, 1 ≤ i ∧ i < x + 1 ∧
          MAXd tm.maxtime (t x) = t i
        unfold MAXd
        split_ifs with hc
        · rcases h3 with h3 | ⟨i, h5, h6, h7⟩
          · exact Or.inl h3
          · exact Or.inr ⟨i, h5, by omega, h7⟩
        · exact Or.inr ⟨x, by omega, by omega, rfl⟩
      · show MINd tm.mintime (t x) = 366 * 24 * 3600 ∨ ∃ i : Int, 1 ≤ i ∧ i < x + 1 ∧
          MINd tm.mintime (t x) = t i
        unfold MINd
        split_ifs with hc
        · rcases h4 with h4 | ⟨i, h5, h6, h7⟩
          · exact Or.inl h4
          · exact Or.inr ⟨i, h5, by omega, h7⟩
        · exact Or.inr ⟨x, by omega, by omega, rfl⟩

/-- The timing variables of a run of one round. -/
theorem timingLoop_one (t : Int → ℚ) (h0 : 0 ≤ t 0) (h1 : t 0 ≤ 366 * 24 * 3600) :
    (timingLoop 1 t).avgtime = t 0 ∧ (timingLoop 1 t).maxtime = t 0 ∧
      (timingLoop 1 t).mintime = t 0 := by
  have e : timingLoop 1 t = timingStep 1 0 (t 0) timingInit := by
    unfold timingLoop
    have := forLoop_succ 0 0 (fun iter tm => timingStep 1 iter (t iter) tm) timingInit le_rfl
    rw [forLoop_empty _ _ _ _ le_rfl] at this
    exact this
  rw [e]
  unfold timingStep timingInit MAXd MINd
  rw [if_pos (Or.inr rfl)]
  refine ⟨by simp, ?_, ?_⟩
  · show (if (0 : ℚ) > t 0 then 0 else t 0) = t 0
    rw [if_neg (not_lt.2 h0)]
  · show (if (366 * 24 * 3600 : ℚ) < t 0 then 366 * 24 * 3600 else t 0) = t 0
    rw [if_neg (not_lt.2 h1)]

/-! ## The whole run: claims -/

/-- C1: in exact arithmetic, for every radius `R >= 1`, grid dimension `n >= 2R+1`, number
of iterations `>= 1`, tile size `>= 1` and both shapes: after the input is seeded as
`COEFX*i + COEFY*j`, the interior of the output is zeroed and the rounds (apply the stencil,
add one to every input cell) are run, the norm (sum of `|out(i,j)|` over the interior divided
by `(n-2R)^2`) is exactly `iterations * (COEFX + COEFY)`, so the validation test passes in
either precision. -/
theorem norm_is_reference (fuel : Nat) (double : Bool) (shape : Shape)
    (R n tile_size iterations : Int) (w0 : WeightArr) (in0 out0 : Grid)
    (hR : 1 ≤ R) (hn : 2 * R + 1 ≤ n) (hiter : 1 ≤ iterations) (ht : 1 ≤ tile_size)
    (hfuel : n - 2 * R ≤ (fuel : Int)) :
    computeNorm fuel shape R n tile_size iterations w0 in0 out0 =
      some ((iterations : ℚ) * (COEFX + COEFY)) ∧
    stencilMain fuel double shape R n tile_size iterations w0 in0 out0 = some true := by
  obtain ⟨st, hrun, _, hout⟩ := iterate_inv fuel shape R n tile_size w0 in0 out0 hR ht hfuel
    iterations (by omega)
  have hv : (0 : ℚ) ≤ (iterations : ℚ) * (COEFX + COEFY) := by
    have h1 : (0 : ℚ) ≤ (iterations : ℚ) := by exact_mod_cast (by omega : 0 ≤ iterations)
    have h2 : (0 : ℚ) ≤ COEFX + COEFY := by
      unfold COEFX COEFY
      norm_num
    exact mul_nonneg h1 h2
  have hnorm : computeNorm fuel shape R n tile_size iterations w0 in0 out0 =
      some ((iterations : ℚ) * (COEFX + COEFY)) := by
    simp only [computeNorm, hrun]
    rw [norm_const R n st.2 _ hv hn hout]
  refine ⟨hnorm, ?_⟩
  simp only [stencilMain, hnorm]
  exact congrArg some (validates_reference double iterations)

theorem norm_is_reference_witness :
    ((1 : Int) ≤ 2 ∧ 2 * (2 : Int) + 1 ≤ 10 ∧ (1 : Int) ≤ 1 ∧ (1 : Int) ≤ 10 ∧
      (10 : Int) - 2 * 2 ≤ ((6 : Nat) : Int)) ∧
    computeNorm 6 Shape.star 2 10 10 1 (fun _ _ => 7) ⟨fun _ => 5⟩ ⟨fun _ => 3⟩ = some 2 ∧
    stencilMain 6 true Shape.star 2 10 10 1 (fun _ _ => 7) ⟨fun _ => 5⟩ ⟨fun _ => 3⟩ =
      some true :=
  ⟨by decide,
    by
      rw [(norm_is_reference 6 true Shape.star 2 10 10 1 (fun _ _ => 7) ⟨fun _ => 5⟩
        ⟨fun _ => 3⟩ (by decide) (by decide) (by decide) (by decide) (by decide)).1]
      norm_num [COEFX, COEFY],
    (norm_is_reference 6 true Shape.star 2 10 10 1 (fun _ _ => 7) ⟨fun _ => 5⟩ ⟨fun _ => 3⟩
      (by decide) (by decide) (by decide) (by decide) (by decide)).2⟩

/-! ## The weight table: claims -/

/-- C2: for every radius `R >= 1` and both shapes, the `(2R+1) x (2R+1)` entries of the
weight table built by the weight-filling code sum to exactly zero. -/
theorem weights_sum_zero (shape : Shape) (R : Int) (hR : 1 ≤ R) (w0 : WeightArr) :
    ∑ a ∈ Finset.Icc (-R) R, ∑ b ∈ Finset.Icc (-R) R,
      WEIGHT (buildWeights shape R w0) R a b = 0 := by
  have h := sum_weights_eq shape R (by omega) w0 (fun _ _ => 1)
  simp only [mul_one] at h
  rw [h]
  exact shapeW_sum_zero shape R

theorem weights_sum_zero_witness :
    (1 : Int) ≤ 2 ∧ ∑ a ∈ Finset.Icc (-2 : Int) 2, ∑ b ∈ Finset.Icc (-2 : Int) 2,
      WEIGHT (buildWeights Shape.compact 2 (fun _ _ => 7)) 2 a b = 0 :=
  ⟨by decide, weights_sum_zero Shape.compact 2 (by decide) (fun _ _ => 7)⟩

/-- C3: for every radius `R >= 1`, both shapes and every offset pair of the footprint, the
built table satisfies `weight(di, dj) = -weight(-di, -dj)`; in particular the centre weight
is zero. -/
theorem weights_antisymmetric (shape : Shape) (R : Int) (hR : 1 ≤ R) (w0 : WeightArr) :
    (∀ di dj : Int, -R ≤ di → di ≤ R → -R ≤ dj → dj ≤ R →
      WEIGHT (buildWeights shape R w0) R di dj =
        -WEIGHT (buildWeights shape R w0) R (-di) (-dj)) ∧
    WEIGHT (buildWeights shape R w0) R 0 0 = 0 := by
  have hR0 : 0 ≤ R := by omega
  refine ⟨?_, ?_⟩
  · intro di dj h1 h2 h3 h4
    rw [buildWeights_eq shape R hR0 w0 di dj h1 h2 h3 h4,
      buildWeights_eq shape R hR0 w0 (-di) (-dj) (by omega) (by omega) (by omega) (by omega),
      shapeW_neg, neg_neg]
  · rw [buildWeights_eq shape R hR0 w0 0 0 (by omega) (by omega) (by omega) (by omega)]
    exact shapeW_center shape R

theorem weights_antisymmetric_witness :
    (1 : Int) ≤ 2 ∧
    WEIGHT (buildWeights Shape.compact 2 (fun _ _ => 7)) 2 1 (-2) =
      -WEIGHT (buildWeights Shape.compact 2 (fun _ _ => 7)) 2 (-1) (- -2) ∧
    WEIGHT (buildWeights Shape.compact 2 (fun _ _ => 7)) 2 0 0 = 0 :=
  ⟨by decide,
    (weights_antisymmetric Shape.compact 2 (by decide) (fun _ _ => 7)).1 1 (-2)
      (by decide) (by decide) (by decide) (by decide),
    (weights_antisymmetric Shape.compact 2 (by decide) (fun _ _ => 7)).2⟩

/-- C5: the star table of radius `R >= 1`.  For `k` in `1..R` the entries at distance `k`
on the centre's row and column are `+1/(2kR)` at positive and `-1/(2kR)` at negative
offsets; the centre is zero; every entry off both axes is zero; so an entry of the footprint
is nonzero exactly when it lies on one axis and is not the centre, and there are `4R` such
entries. -/
theorem star_weights (R : Int) (hR : 1 ≤ R) (w0 : WeightArr) :
    (∀ k : Int, 1 ≤ k → k ≤ R →
      WEIGHT (buildWeights .star R w0) R k 0 = 1 / (2 * (k : ℚ) * (R : ℚ)) ∧
      WEIGHT (buildWeights .star R w0) R 0 k = 1 / (2 * (k : ℚ) * (R : ℚ)) ∧
      WEIGHT (buildWeights .star R w0) R (-k) 0 = -(1 / (2 * (k : ℚ) * (R : ℚ))) ∧
      WEIGHT (buildWeights .star R w0) R 0 (-k) = -(1 / (2 * (k : ℚ) * (R : ℚ)))) ∧
    WEIGHT (buildWeights .star R w0) R 0 0 = 0 ∧
    (∀ di dj : Int, -R ≤ di → di ≤ R → -R ≤ dj → dj ≤ R → di ≠ 0 → dj ≠ 0 →
      WEIGHT (buildWeights .star R w0) R di dj = 0) ∧
    (∀ di dj : Int, -R ≤ di → di ≤ R → -R ≤ dj → dj ≤ R →
      (WEIGHT (buildWeights .star R w0) R di dj ≠ 0 ↔
        ((dj = 0 ∧ di ≠ 0) ∨ (di = 0 ∧ dj ≠ 0)))) ∧
    (((Finset.Icc (-R) R ×ˢ Finset.Icc (-R) R).filter
      (fun c => WEIGHT (buildWeights .star R w0) R c.1 c.2 ≠ 0)).card : Int) = 4 * R := by
  have hR0 : 0 ≤ R := by omega
  have hag := star_agrees R hR0 w0
  refine ⟨?_, ?_, ?_, ?_, star_support_card R hR w0⟩
  · intro k hk1 hk2
    have hk0 : k ≠ 0 := by omega
    refine ⟨?_, ?_, ?_, ?_⟩
    · rw [(hag k 0 (by omega) hk2 (by omega) (by omega)).1 (Or.inl ⟨rfl, hk0⟩)]
      exact starW_pos_row R k
    · rw [(hag 0 k (by omega) (by omega) (by omega) hk2).1 (Or.inr ⟨rfl, hk0⟩)]
      exact starW_pos_col R k hk0
    · rw [(hag (-k) 0 (by omega) (by omega) (by omega) (by omega)).1
        (Or.inl ⟨rfl, by omega⟩)]
      exact starW_neg_row R k
    · rw [(hag 0 (-k) (by omega) (by omega) (by omega) (by omega)).1
        (Or.inr ⟨rfl, by omega⟩)]
      exact starW_neg_col R k hk0
  · exact (hag 0 0 (by omega) (by omega) (by omega) (by omega)).2 (by omega)
  · intro di dj h1 h2 h3 h4 h5 h6
    exact (hag di dj h1 h2 h3 h4).2 (by omega)
  · intro di dj h1 h2 h3 h4
    exact star_ne_zero_iff R hR w0 di dj h1 h2 h3 h4

theorem star_weights_witness :
    (1 : Int) ≤ 2 ∧
    WEIGHT (buildWeights Shape.star 2 (fun _ _ => 7)) 2 (-2) 0 =
      -(1 / (2 * ((2 : Int) : ℚ) * ((2 : Int) : ℚ))) ∧
    WEIGHT (buildWeights Shape.star 2 (fun _ _ => 7)) 2 1 (-1) = 0 :=
  ⟨by decide,
    ((star_weights 2 (by decide) (fun _ _ => 7)).1 2 (by decide) (by decide)).2.2.1,
    (star_weights 2 (by decide) (fun _ _ => 7)).2.2.1 1 (-1) (by decide) (by decide)
      (by decide) (by decide) (by decide) (by decide)⟩

/-- C6: the compact table of radius `R >= 1`.  For every ring `jj` in `1..R` and every `ii`
with `|ii| < jj` the edge entries are `weight(ii, jj) = weight(jj, ii) = 1/(4 jj (2jj-1) R)`
and `weight(ii, -jj) = weight(-jj, ii) = -1/(4 jj (2jj-1) R)`, the diagonal corners are
`weight(jj, jj) = 1/(4 jj R)` and `weight(-jj, -jj) = -1/(4 jj R)`, and the loop nest
assigns no cell twice. -/
theorem compact_weights (R : Int) (hR : 1 ≤ R) (w0 : WeightArr) :
    (∀ jj ii : Int, 1 ≤ jj → jj ≤ R → -jj < ii → ii < jj →
      WEIGHT (buildWeights .compact R w0) R ii jj =
        1 / (4 * (jj : ℚ) * (2 * (jj : ℚ) - 1) * (R : ℚ)) ∧
      WEIGHT (buildWeights .compact R w0) R jj ii =
        1 / (4 * (jj : ℚ) * (2 * (jj : ℚ) - 1) * (R : ℚ)) ∧
      WEIGHT (buildWeights .compact R w0) R ii (-jj) =
        -(1 / (4 * (jj : ℚ) * (2 * (jj : ℚ) - 1) * (R : ℚ))) ∧
      WEIGHT (buildWeights .compact R w0) R (-jj) ii =
        -(1 / (4 * (jj : ℚ) * (2 * (jj : ℚ) - 1) * (R : ℚ)))) ∧
    (∀ jj : Int, 1 ≤ jj → jj ≤ R →
      WEIGHT (buildWeights .compact R w0) R jj jj = 1 / (4 * (jj : ℚ) * (R : ℚ)) ∧
      WEIGHT (buildWeights .compact R w0) R (-jj) (-jj) = -(1 / (4 * (jj : ℚ) * (R : ℚ)))) ∧
    (weightWrites .compact R).Nodup := by
  have hR0 : 0 ≤ R := by omega
  have hag := compact_agrees R hR0 w0
  refine ⟨?_, ?_, compact_writes_nodup R hR0⟩
  · intro jj ii h1 h2 h3 h4
    refine ⟨?_, ?_, ?_, ?_⟩
    · rw [(hag ii jj (by omega) (by omega) (by omega) (by omega)).1 (by omega)]
      exact compactW_top R ii jj h3 h4
    · rw [(hag jj ii (by omega) (by omega) (by omega) (by omega)).1 (by omega)]
      exact compactW_right R ii jj h3 h4
    · rw [(hag ii (-jj) (by omega) (by omega) (by omega) (by omega)).1 (by omega)]
      exact compactW_bottom R ii jj h3 h4
    · rw [(hag (-jj) ii (by omega) (by omega) (by omega) (by omega)).1 (by omega)]
      exact compactW_left R ii jj h3 h4
  · intro jj h1 h2
    refine ⟨?_, ?_⟩
    · rw [(hag jj jj (by omega) (by omega) (by omega) (by omega)).1 (by omega)]
      exact compactW_diag R jj
    · rw [(hag (-jj) (-jj) (by omega) (by omega) (by omega) (by omega)).1 (by omega)]
      exact compactW_diag_neg R jj

theorem compact_weights_witness :
    (1 : Int) ≤ 2 ∧
    WEIGHT (buildWeights Shape.compact 2 (fun _ _ => 7)) 2 (-1) (-2) =
      -(1 / (4 * ((2 : Int) : ℚ) * (2 * ((2 : Int) : ℚ) - 1) * ((2 : Int) : ℚ))) ∧
    WEIGHT (buildWeights Shape.compact 2 (fun _ _ => 7)) 2 2 2 =
      1 / (4 * ((2 : Int) : ℚ) * ((2 : Int) : ℚ)) :=
  ⟨by decide,
    ((compact_weights 2 (by decide) (fun _ _ => 7)).1 2 (-1) (by decide) (by decide)
      (by decide) (by decide)).2.2.1,
    ((compact_weights 2 (by decide) (fun _ _ => 7)).2.1 2 (by decide) (by decide)).1⟩

/-- C7, as the code does it: in the compact table of radius `R >= 1` an entry of the
footprint is nonzero exactly when it is off the anti-diagonal `di = -dj`; the diagonal
corners `(jj, jj)` and `(-jj, -jj)` of every ring are nonzero, and the centre and the
anti-diagonal corners `(jj, -jj)`, `(-jj, jj)` are zero. -/
theorem compact_support (R : Int) (hR : 1 ≤ R) (w0 : WeightArr) :
    (∀ di dj : Int, -R ≤ di → di ≤ R → -R ≤ dj → dj ≤ R →
      (WEIGHT (buildWeights .compact R w0) R di dj ≠ 0 ↔ di ≠ -dj)) ∧
    (∀ jj : Int, 1 ≤ jj → jj ≤ R →
      WEIGHT (buildWeights .compact R w0) R jj jj ≠ 0 ∧
      WEIGHT (buildWeights .compact R w0) R (-jj) (-jj) ≠ 0 ∧
      WEIGHT (buildWeights .compact R w0) R jj (-jj) = 0 ∧
      WEIGHT (buildWeights .compact R w0) R (-jj) jj = 0) := by
  have hiff := compact_ne_zero_iff R hR w0
  refine ⟨hiff, ?_⟩
  intro jj h1 h2
  refine ⟨?_, ?_, ?_, ?_⟩
  · exact (hiff jj jj (by omega) (by omega) (by omega) (by omega)).2 (by omega)
  · exact (hiff (-jj) (-jj) (by omega) (by omega) (by omega) (by omega)).2 (by omega)
  · by_contra hne
    exact (hiff jj (-jj) (by omega) (by omega) (by omega) (by omega)).1 hne (by omega)
  · by_contra hne
    exact (hiff (-jj) jj (by omega) (by omega) (by omega) (by omega)).1 hne (by omega)

theorem compact_support_witness :
    (1 : Int) ≤ 2 ∧
    WEIGHT (buildWeights Shape.compact 2 (fun _ _ => 7)) 2 2 2 ≠ 0 ∧
    WEIGHT (buildWeights Shape.compact 2 (fun _ _ => 7)) 2 (-2) 2 = 0 :=
  ⟨by decide,
    ((compact_support 2 (by decide) (fun _ _ => 7)).2 2 (by decide) (by decide)).1,
    ((compact_support 2 (by decide) (fun _ _ => 7)).2 2 (by decide) (by decide)).2.2.2⟩

/-- C7 as stated fails: with radius 1 the corner offset `(1, -1)` is not the centre and
lies in the footprint, yet its compact weight is zero. -/
theorem compact_support_counterexample :
    ¬ (∀ di dj : Int, -1 ≤ di → di ≤ 1 → -1 ≤ dj → dj ≤ 1 → ¬ (di = 0 ∧ dj = 0) →
      WEIGHT (buildWeights Shape.compact 1 (fun _ _ => 0)) 1 di dj ≠ 0) := by
  intro h
  refine h 1 (-1) (by decide) (by decide) (by decide) (by decide) (by decide) ?_
  rw [buildWeights_eq Shape.compact 1 (by decide) _ 1 (-1) (by decide) (by decide) (by decide)
    (by decide)]
  exact compactW_anti 1 1

/-! ## The stencil engine: claims -/

/-- C4: for every radius and grid size (so for every `n >= 2R+1`), every tile size `t >= 1`,
every weight table, every input grid and every initial output grid, one pass of the engine
with tile size `t` returns (given fuel for `n - 2R` tile steps) exactly the grid of one
untiled pass; and so does the tiled branch taken on its own, for both shapes. -/
theorem tiled_equals_untiled (fuel : Nat) (shape : Shape) (R n t : Int) (w : WeightArr)
    (inp out : Grid) (ht : 1 ≤ t) (hfuel : n - 2 * R ≤ (fuel : Int)) :
    stencilPass fuel shape R n t w inp out = some (untiledPass shape R n w inp out) ∧
    tiledPass fuel shape R n t w inp out = some (untiledPass shape R n w inp out) :=
  ⟨stencilPass_eq fuel shape R n t w inp out ht hfuel,
    tiledPass_eq fuel shape R n t w inp out ht hfuel⟩

theorem tiled_equals_untiled_witness :
    ((1 : Int) ≤ 2 ∧ (7 : Int) - 2 * 1 ≤ ((5 : Nat) : Int)) ∧
    stencilPass 5 Shape.compact 1 7 2 (fun a b => (a : ℚ) - 3 * (b : ℚ))
        ⟨fun p => (p : ℚ) * (p : ℚ)⟩ ⟨fun p => (p : ℚ)⟩ =
      some (untiledPass Shape.compact 1 7 (fun a b => (a : ℚ) - 3 * (b : ℚ))
        ⟨fun p => (p : ℚ) * (p : ℚ)⟩ ⟨fun p => (p : ℚ)⟩) ∧
    tiledPass 5 Shape.compact 1 7 2 (fun a b => (a : ℚ) - 3 * (b : ℚ))
        ⟨fun p => (p : ℚ) * (p : ℚ)⟩ ⟨fun p => (p : ℚ)⟩ =
      some (untiledPass Shape.compact 1 7 (fun a b => (a : ℚ) - 3 * (b : ℚ))
        ⟨fun p => (p : ℚ) * (p : ℚ)⟩ ⟨fun p => (p : ℚ)⟩) :=
  ⟨by decide,
    tiled_equals_untiled 5 Shape.compact 1 7 2 (fun a b => (a : ℚ) - 3 * (b : ℚ))
      ⟨fun p => (p : ℚ) * (p : ℚ)⟩ ⟨fun p => (p : ℚ)⟩ (by decide) (by decide)⟩

/-- C9: in the star build with the star table of any radius `R >= 1` and every input grid,
the value the star code path adds to a cell `(i, j)`, namely the sum over `jj` in `[-R, R]`
of `weight(0, jj) * in(i, j+jj)` plus the sums over `ii` in `[-R, -1]` and in `[1, R]` of
`weight(ii, 0) * in(i+ii, j)`, equals the general 2-D double sum over `[-R, R] x [-R, R]`
of `weight(ii, jj) * in(i+ii, j+jj)`. -/
theorem star_path_equals_general (R n : Int) (hR : 1 ≤ R) (w0 : WeightArr) (inp out : Grid)
    (i j : Int) :
    (stencilCell .star R n (buildWeights .star R w0) inp i j out).cell (idx n i j) =
      out.cell (idx n i j) +
        (∑ jj ∈ Finset.Icc (-R) R,
            WEIGHT (buildWeights .star R w0) R 0 jj * inp.cell (idx n i (j + jj)) +
          ∑ ii ∈ Finset.Ico (-R) 0,
            WEIGHT (buildWeights .star R w0) R ii 0 * inp.cell (idx n (i + ii) j) +
          ∑ ii ∈ Finset.Icc 1 R,
            WEIGHT (buildWeights .star R w0) R ii 0 * inp.cell (idx n (i + ii) j)) ∧
    (∑ jj ∈ Finset.Icc (-R) R,
        WEIGHT (buildWeights .star R w0) R 0 jj * inp.cell (idx n i (j + jj)) +
      ∑ ii ∈ Finset.Ico (-R) 0,
        WEIGHT (buildWeights .star R w0) R ii 0 * inp.cell (idx n (i + ii) j) +
      ∑ ii ∈ Finset.Icc 1 R,
        WEIGHT (buildWeights .star R w0) R ii 0 * inp.cell (idx n (i + ii) j)) =
      ∑ ii ∈ Finset.Icc (-R) R, ∑ jj ∈ Finset.Icc (-R) R,
        WEIGHT (buildWeights .star R w0) R ii jj * inp.cell (idx n (i + ii) (j + jj)) := by
  have hR0 : 0 ≤ R := by omega
  have h := cellResponse_built .star R n hR0 w0 inp i j
  simp only [cellResponse, stencilSum, ← Icc_eq_Ico] at h
  refine ⟨?_, h⟩
  rw [stencilCell_eq, addAt_cell, if_pos rfl]
  simp only [cellResponse, ← Icc_eq_Ico]

theorem star_path_equals_general_witness :
    (1 : Int) ≤ 2 ∧
    (∑ jj ∈ Finset.Icc (-2 : Int) 2,
        WEIGHT (buildWeights Shape.star 2 (fun _ _ => 7)) 2 0 jj *
          (⟨fun p => (p : ℚ) * (p : ℚ)⟩ : Grid).cell (idx 10 4 (5 + jj)) +
      ∑ ii ∈ Finset.Ico (-2 : Int) 0,
        WEIGHT (buildWeights Shape.star 2 (fun _ _ => 7)) 2 ii 0 *
          (⟨fun p => (p : ℚ) * (p : ℚ)⟩ : Grid).cell (idx 10 (4 + ii) 5) +
      ∑ ii ∈ Finset.Icc (1 : Int) 2,
        WEIGHT (buildWeights Shape.star 2 (fun _ _ => 7)) 2 ii 0 *
          (⟨fun p => (p : ℚ) * (p : ℚ)⟩ : Grid).cell (idx 10 (4 + ii) 5)) =
      ∑ ii ∈ Finset.Icc (-2 : Int) 2, ∑ jj ∈ Finset.Icc (-2 : Int) 2,
        WEIGHT (buildWeights Shape.star 2 (fun _ _ => 7)) 2 ii jj *
          (⟨fun p => (p : ℚ) * (p : ℚ)⟩ : Grid).cell (idx 10 (4 + ii) (5 + jj)) :=
  ⟨by decide,
    (star_path_equals_general 2 10 (by decide) (fun _ _ => 7) ⟨fun p => (p : ℚ) * (p : ℚ)⟩
      ⟨fun _ => 0⟩ 4 5).2⟩

/-! ## Input validation: claims -/

/-- C10: as a function of the parsed integers (threads, iterations, `n`, optional tile size)
and of `RADIUS`, the input tests accept the configuration if and only if
`1 <= threads <= MAX_THREADS`, `iterations >= 1`, `RADIUS >= 1`, `n >= 2*RADIUS+1`, the grid
byte length fits an `int`, and the tile size (when given) is at least one.  An accepted
configuration reaches the two allocations with the exact byte length; every other one exits
with failure and allocates nothing.  Without a tile size argument the tile size is `n`,
which selects the untiled traversal. -/
theorem input_validation (MAX_THREADS RADIUS : Int) (double : Bool) (argc : Int)
    (arg : Nat → Int) (hargc : argc = 4 ∨ argc = 5)
    (hint : -2 ^ 31 ≤ arg 3 ∧ arg 3 < 2 ^ 31) :
    (specAccepts MAX_THREADS RADIUS double argc arg →
      processInput MAX_THREADS RADIUS double argc arg =
        .ok ⟨arg 1, arg 2, arg 3, if argc = 5 then arg 4 else arg 3,
          arg 3 * arg 3 * sizeofDTYPE double⟩ ∧
      startup MAX_THREADS RADIUS double argc arg =
        [Event.malloc (arg 3 * arg 3 * sizeofDTYPE double),
          Event.malloc (arg 3 * arg 3 * sizeofDTYPE double)]) ∧
    (¬ specAccepts MAX_THREADS RADIUS double argc arg →
      (∃ e, processInput MAX_THREADS RADIUS double argc arg = .error e) ∧
      startup MAX_THREADS RADIUS double argc arg = [Event.exitFailure]) ∧
    (specAccepts MAX_THREADS RADIUS double argc arg → argc = 4 →
      ∀ (fuel : Nat) (shape : Shape) (w : WeightArr) (inp out : Grid),
        stencilPass fuel shape RADIUS (arg 3) (if argc = 5 then arg 4 else arg 3) w inp out =
          some (untiledPass shape RADIUS (arg 3) w inp out)) := by
  have hspec := processInput_spec MAX_THREADS RADIUS double argc arg hargc hint
  refine ⟨?_, ?_, ?_⟩
  · intro h
    have hok := hspec.1 h
    refine ⟨hok, ?_⟩
    simp only [startup, hok]
  · intro h
    obtain ⟨e, he⟩ := hspec.2 h
    refine ⟨⟨e, he⟩, ?_⟩
    simp only [startup, he]
  · intro h h4 fuel shape w inp out
    rw [if_neg (by omega)]
    exact stencilPass_default fuel shape RADIUS (arg 3) w inp out (by have := h.2.2.2.1; omega)

theorem input_validation_witness :
    (((4 : Int) = 4 ∨ (4 : Int) = 5) ∧ (-2 ^ 31 ≤ (10 : Int) ∧ (10 : Int) < 2 ^ 31) ∧
      ¬ specAccepts 512 2 false 4 (fun k => if k = 1 then 1 else if k = 2 then 0 else 10) ∧
      startup 512 2 false 4 (fun k => if k = 1 then 1 else if k = 2 then 0 else 10) =
        [Event.exitFailure]) ∧
    (((4 : Int) = 4 ∨ (4 : Int) = 5) ∧ (-2 ^ 31 ≤ (4 : Int) ∧ (4 : Int) < 2 ^ 31) ∧
      ¬ specAccepts 512 2 false 4 (fun k => if k = 1 then 1 else if k = 2 then 1 else 4) ∧
      startup 512 2 false 4 (fun k => if k = 1 then 1 else if k = 2 then 1 else 4) =
        [Event.exitFailure]) ∧
    (((4 : Int) = 4 ∨ (4 : Int) = 5) ∧ (-2 ^ 31 ≤ (10 : Int) ∧ (10 : Int) < 2 ^ 31) ∧
      specAccepts 512 2 false 4 (fun k => if k = 1 then 1 else if k = 2 then 1 else 10) ∧
      startup 512 2 false 4 (fun k => if k = 1 then 1 else if k = 2 then 1 else 10) =
        [Event.malloc (10 * 10 * sizeofDTYPE false),
          Event.malloc (10 * 10 * sizeofDTYPE false)]) :=
  ⟨⟨by decide, by decide, by decide,
      ((input_validation 512 2 false 4 (fun k => if k = 1 then 1 else if k = 2 then 0 else 10)
        (by decide) (by decide)).2.1 (by decide)).2⟩,
    ⟨by decide, by decide, by decide,
      ((input_validation 512 2 false 4 (fun k => if k = 1 then 1 else if k = 2 then 1 else 4)
        (by decide) (by decide)).2.1 (by decide)).2⟩,
    ⟨by decide, by decide, by decide,
      ((input_validation 512 2 false 4 (fun k => if k = 1 then 1 else if k = 2 then 1 else 10)
        (by decide) (by decide)).1 (by decide)).2⟩⟩

/-! ## Representability, the driver invariant and the moments: claims -/

/-- C11: with `int` as 32-bit two's complement with wrap-around and `size_t` as 64-bit
unsigned, for every `int` value `n >= 1` and either element size (4 or 8), the test
`total_length/n != n*sizeof(DTYPE)` lets `n` pass if and only if the mathematical product
`n*n*sizeof(DTYPE)` is at most `2^31 - 1`; and whenever it passes, `total_length` is the
true byte size of the grid. -/
theorem representability_check (double : Bool) (n : Int) (hn1 : 1 ≤ n) (hn2 : n < 2 ^ 31) :
    (sizeofDTYPE double = 4 ∨ sizeofDTYPE double = 8) ∧
    (¬ (toSizeT (Int.tdiv (total_length double n) n) ≠
        toSizeT (toSizeT n * sizeofDTYPE double)) ↔
      n * n * sizeofDTYPE double ≤ 2 ^ 31 - 1) ∧
    (¬ (toSizeT (Int.tdiv (total_length double n) n) ≠
        toSizeT (toSizeT n * sizeofDTYPE double)) →
      total_length double n = n * n * sizeofDTYPE double) := by
  have h := repr_check double n hn1 hn2
  refine ⟨sizeofDTYPE_cases double, ?_, ?_⟩
  · rw [not_not]
    exact h
  · intro hpass
    exact total_length_exact double n hn1 (h.1 (not_not.1 hpass))

theorem representability_check_witness :
    ((1 : Int) ≤ 23171 ∧ (23171 : Int) < 2 ^ 31) ∧
    (¬ (toSizeT (Int.tdiv (total_length false 23171) 23171) ≠
        toSizeT (toSizeT 23171 * sizeofDTYPE false)) ↔
      (23171 : Int) * 23171 * sizeofDTYPE false ≤ 2 ^ 31 - 1) :=
  ⟨by decide, (representability_check false 23171 (by decide) (by decide)).2.1⟩

/-- C17: the loop invariant of the iteration driver, in exact arithmetic, for every radius
`R >= 1`, every grid size and both shapes.  After `k >= 0` completed rounds the input holds
`COEFX*i + COEFY*j + k` on every cell of the whole grid and the output holds
`k * (COEFX + COEFY)` on every interior cell; the next round adds exactly `COEFX + COEFY`
to every interior output cell, so the magnitude of the interior output does not decrease. -/
theorem driver_invariant (fuel : Nat) (shape : Shape) (R n tile_size : Int) (w0 : WeightArr)
    (in0 out0 : Grid) (hR : 1 ≤ R) (ht : 1 ≤ tile_size) (hfuel : n - 2 * R ≤ (fuel : Int))
    (k : Int) (hk : 0 ≤ k) :
    ∃ st st1,
      iterate fuel shape R n tile_size (buildWeights shape R w0) k
        (initIn n in0, initOut R n out0) = some st ∧
      iterate fuel shape R n tile_size (buildWeights shape R w0) (k + 1)
        (initIn n in0, initOut R n out0) = some st1 ∧
      round fuel shape R n tile_size (buildWeights shape R w0) st = some st1 ∧
      (∀ i j : Int, 0 ≤ i → i < n → 0 ≤ j → j < n →
        st.1.cell (idx n i j) = COEFX * (i : ℚ) + COEFY * (j : ℚ) + (k : ℚ)) ∧
      (∀ i j : Int, R ≤ i → i < n - R → R ≤ j → j < n - R →
        st.2.cell (idx n i j) = (k : ℚ) * (COEFX + COEFY) ∧
        st1.2.cell (idx n i j) = st.2.cell (idx n i j) + (COEFX + COEFY) ∧
        ABS (st.2.cell (idx n i j)) ≤ ABS (st1.2.cell (idx n i j))) := by
  obtain ⟨st, hrun, hin, hout⟩ :=
    iterate_inv fuel shape R n tile_size w0 in0 out0 hR ht hfuel k hk
  obtain ⟨st1, hrun1, _, hout1⟩ :=
    iterate_inv fuel shape R n tile_size w0 in0 out0 hR ht hfuel (k + 1) (by omega)
  have hc : (0 : ℚ) ≤ COEFX + COEFY := by
    unfold COEFX COEFY
    norm_num
  have hkq : (0 : ℚ) ≤ (k : ℚ) := by exact_mod_cast hk
  refine ⟨st, st1, hrun, hrun1, ?_, hin, ?_⟩
  · have h := iterate_succ fuel shape R n tile_size (buildWeights shape R w0) k hk
      (initIn n in0, initOut R n out0)
    rw [hrun1, hrun] at h
    exact h.symm
  · intro i j h1 h2 h3 h4
    have e0 := hout i j h1 h2 h3 h4
    have e1 := hout1 i j h1 h2 h3 h4
    refine ⟨e0, ?_, ?_⟩
    · rw [e1, e0]
      push_cast
      ring
    · rw [e1, e0, ABS_nonneg_mul _ _ hkq hc,
        ABS_nonneg_mul _ _ (by push_cast; linarith) hc]
      push_cast
      nlinarith

theorem driver_invariant_witness :
    ((1 : Int) ≤ 2 ∧ (1 : Int) ≤ 3 ∧ (10 : Int) - 2 * 2 ≤ ((6 : Nat) : Int) ∧
      (0 : Int) ≤ 4) ∧
    ∃ st st1,
      iterate 6 Shape.compact 2 10 3 (buildWeights Shape.compact 2 (fun _ _ => 7)) 4
        (initIn 10 ⟨fun _ => 5⟩, initOut 2 10 ⟨fun _ => 3⟩) = some st ∧
      iterate 6 Shape.compact 2 10 3 (buildWeights Shape.compact 2 (fun _ _ => 7)) (4 + 1)
        (initIn 10 ⟨fun _ => 5⟩, initOut 2 10 ⟨fun _ => 3⟩) = some st1 ∧
      round 6 Shape.compact 2 10 3 (buildWeights Shape.compact 2 (fun _ _ => 7)) st =
        some st1 ∧
      (∀ i j : Int, 0 ≤ i → i < 10 → 0 ≤ j → j < 10 →
        st.1.cell (idx 10 i j) = COEFX * (i : ℚ) + COEFY * (j : ℚ) + ((4 : Int) : ℚ)) ∧
      (∀ i j : Int, 2 ≤ i → i < 10 - 2 → 2 ≤ j → j < 10 - 2 →
        st.2.cell (idx 10 i j) = ((4 : Int) : ℚ) * (COEFX + COEFY) ∧
        st1.2.cell (idx 10 i j) = st.2.cell (idx 10 i j) + (COEFX + COEFY) ∧
        ABS (st.2.cell (idx 10 i j)) ≤ ABS (st1.2.cell (idx 10 i j))) :=
  ⟨by decide,
    driver_invariant 6 Shape.compact 2 10 3 (fun _ _ => 7) ⟨fun _ => 5⟩ ⟨fun _ => 3⟩
      (by decide) (by decide) (by decide) 4 (by decide)⟩

/-- C14: for every tile size `t >= 1` (so for `1 <= t < n-2R` on a grid with `n >= 2R+1`)
the tiled loop nest terminates (it returns once the fuel covers `n - 2R` tile steps), and
the sequence of the cells `(it, jt)` it visits contains every interior cell of
`[R, n-R) x [R, n-R)` exactly once and no other cell; the tiled branch of the engine is this
loop nest with the cell loops as its body. -/
theorem tiled_visits_interior_once (fuel : Nat) (R n t : Int) (ht : 1 ≤ t)
    (hfuel : n - 2 * R ≤ (fuel : Int)) :
    (∃ visits, tiledVisits fuel R n t = some visits ∧ visits.Nodup ∧
      (∀ it jt : Int, (it, jt) ∈ visits ↔ (R ≤ it ∧ it < n - R ∧ R ≤ jt ∧ jt < n - R)) ∧
      (∀ it jt : Int, R ≤ it → it < n - R → R ≤ jt → jt < n - R →
        visits.countP (fun c => decide (c = (it, jt))) = 1) ∧
      (∀ it jt : Int, ¬ (R ≤ it ∧ it < n - R ∧ R ≤ jt ∧ jt < n - R) →
        visits.countP (fun c => decide (c = (it, jt))) = 0)) ∧
    (∀ (shape : Shape) (w : WeightArr) (inp out : Grid),
      tiledPass fuel shape R n t w inp out =
        tiledLoops fuel R n t (fun it jt out => stencilCell shape R n w inp it jt out) out) := by
  obtain ⟨visits, hrun, hnodup, hmem⟩ := tiledVisits_spec fuel R n t ht hfuel
  refine ⟨⟨visits, hrun, hnodup, hmem, ?_, ?_⟩, fun _ _ _ _ => rfl⟩
  · intro it jt h1 h2 h3 h4
    exact List.count_eq_one_of_mem hnodup ((hmem it jt).2 ⟨h1, h2, h3, h4⟩)
  · intro it jt hout
    rw [List.countP_eq_zero]
    intro c hc hdec
    have hceq : c = (it, jt) := of_decide_eq_true hdec
    subst hceq
    exact hout ((hmem it jt).1 hc)

theorem tiled_visits_interior_once_witness :
    ((1 : Int) ≤ 2 ∧ (7 : Int) - 2 * 1 ≤ ((5 : Nat) : Int)) ∧
    ∃ visits, tiledVisits 5 1 7 2 = some visits ∧ visits.Nodup ∧
      (∀ it jt : Int, (it, jt) ∈ visits ↔ (1 ≤ it ∧ it < 7 - 1 ∧ 1 ≤ jt ∧ jt < 7 - 1)) ∧
      (∀ it jt : Int, 1 ≤ it → it < 7 - 1 → 1 ≤ jt → jt < 7 - 1 →
        visits.countP (fun c => decide (c = (it, jt))) = 1) ∧
      (∀ it jt : Int, ¬ (1 ≤ it ∧ it < 7 - 1 ∧ 1 ≤ jt ∧ jt < 7 - 1) →
        visits.countP (fun c => decide (c = (it, jt))) = 0) :=
  ⟨by decide, (tiled_visits_interior_once 5 1 7 2 (by decide) (by decide)).1⟩

/-- C15: for every `n >= 2R+1` with `R >= 1`, every interior cell `(i, j)` and every offset
`(ii, jj)` of the footprint: the coordinates `i+ii` and `j+jj` lie in `[0, n)` (no wrap into
a neighbouring row), the flat index read from the input and the flat index updated in the
output lie in `[0, n*n)`, and the weight indices lie in `[0, 2R]`; so with checked accesses
no access of a pass fails, untiled or tiled, and the checked pass computes the grid of the
unchecked one.  Also `n - 2R >= 1`, so the divisor of the norm is not zero. -/
theorem accesses_in_bounds (R n : Int) (hR : 1 ≤ R) (hn : 2 * R + 1 ≤ n) :
    (∀ i j ii jj : Int, R ≤ i → i < n - R → R ≤ j → j < n - R →
      -R ≤ ii → ii ≤ R → -R ≤ jj → jj ≤ R →
      (0 ≤ i + ii ∧ i + ii < n) ∧ (0 ≤ j + jj ∧ j + jj < n) ∧
      (0 ≤ idx n (i + ii) (j + jj) ∧ idx n (i + ii) (j + jj) < n * n) ∧
      (0 ≤ idx n i j ∧ idx n i j < n * n) ∧
      (0 ≤ ii + R ∧ ii + R ≤ 2 * R) ∧ (0 ≤ jj + R ∧ jj + R ≤ 2 * R) ∧
      ∀ (w : WeightArr) (inp out : Grid),
        accumChecked R n w inp ii jj (idx n (i + ii) (j + jj)) (idx n i j) out =
          some (addAt out (idx n i j)
            (WEIGHT w R ii jj * inp.cell (idx n (i + ii) (j + jj))))) ∧
    (∀ (shape : Shape) (w : WeightArr) (inp out : Grid),
      untiledPassChecked shape R n w inp out = some (untiledPass shape R n w inp out)) ∧
    (∀ (fuel : Nat) (t : Int) (shape : Shape) (w : WeightArr) (inp out : Grid),
      1 ≤ t → n - 2 * R ≤ (fuel : Int) →
      tiledPassChecked fuel shape R n t w inp out = some (untiledPass shape R n w inp out) ∧
      stencilPassChecked fuel shape R n t w inp out =
        some (untiledPass shape R n w inp out)) ∧
    1 ≤ n - 2 * R ∧ f_active_points R n ≠ 0 := by
  have hR0 : 0 ≤ R := by omega
  refine ⟨?_, ?_, ?_, by omega, ?_⟩
  · intro i j ii jj h1 h2 h3 h4 h5 h6 h7 h8
    have hin := idx_range n (i + ii) (j + jj) (by omega) (by omega) (by omega) (by omega)
    have hout := idx_range n i j (by omega) (by omega) (by omega) (by omega)
    refine ⟨⟨by omega, by omega⟩, ⟨by omega, by omega⟩, hin, hout, ⟨by omega, by omega⟩,
      ⟨by omega, by omega⟩, ?_⟩
    intro w inp out
    exact accumChecked_some R n w inp ii jj _ _ out h5 h6 h7 h8 hin hout
  · intro shape w inp out
    exact untiledPassChecked_some shape R n w inp out hR0
  · intro fuel t shape w inp out ht hfuel
    refine ⟨?_, stencilPassChecked_some fuel shape R n t w inp out hR0 ht hfuel⟩
    rw [tiledPassChecked_eq fuel shape R n t w inp out hR0 ht,
      tiledPass_eq fuel shape R n t w inp out ht hfuel]
  · unfold f_active_points
    have hne : ((n - 2 * R : Int) : ℚ) ≠ 0 := by exact_mod_cast (by omega : n - 2 * R ≠ 0)
    exact mul_ne_zero hne hne

theorem accesses_in_bounds_witness :
    ((1 : Int) ≤ 2 ∧ 2 * (2 : Int) + 1 ≤ 10) ∧
    (∀ (shape : Shape) (w : WeightArr) (inp out : Grid),
      untiledPassChecked shape 2 10 w inp out = some (untiledPass shape 2 10 w inp out)) ∧
    (1 : Int) ≤ 10 - 2 * 2 ∧ f_active_points 2 10 ≠ 0 :=
  ⟨by decide, (accesses_in_bounds 2 10 (by decide) (by decide)).2.1,
    (accesses_in_bounds 2 10 (by decide) (by decide)).2.2.2⟩

/-- C16: one pass of the engine (tiled or untiled, either shape), on a memory made of the
two grid buffers and the weight table, leaves the input grid and the weight table as they
were, and leaves every element of the output buffer that is not an interior cell as it was:
the cells of the halo of width `R`, and every flat index outside the grid.  The same holds
for the untiled and for the tiled branch taken on their own. -/
theorem pass_frame (fuel : Nat) (shape : Shape) (R n t : Int) (m : Mem) (ht : 1 ≤ t)
    (hfuel : n - 2 * R ≤ (fuel : Int)) :
    (∃ m1, passMem fuel shape R n t m = some m1 ∧ m1.inp = m.inp ∧ m1.weight = m.weight ∧
      (∀ p : Int, ¬ (R ≤ p % n ∧ p % n < n - R ∧ R ≤ p / n ∧ p / n < n - R) →
        m1.out.cell p = m.out.cell p) ∧
      (∀ i j : Int, 0 ≤ i → i < n → 0 ≤ j → j < n →
        ¬ (R ≤ i ∧ i < n - R ∧ R ≤ j ∧ j < n - R) →
        m1.out.cell (idx n i j) = m.out.cell (idx n i j))) ∧
    (∀ p : Int, ¬ (R ≤ p % n ∧ p % n < n - R ∧ R ≤ p / n ∧ p / n < n - R) →
      (untiledPass shape R n m.weight m.inp m.out).cell p = m.out.cell p) ∧
    (∃ out1, tiledPass fuel shape R n t m.weight m.inp m.out = some out1 ∧
      ∀ p : Int, ¬ (R ≤ p % n ∧ p % n < n - R ∧ R ≤ p / n ∧ p / n < n - R) →
        out1.cell p = m.out.cell p) := by
  have hpass := stencilPass_eq fuel shape R n t m.weight m.inp m.out ht hfuel
  refine ⟨⟨⟨m.inp, untiledPass shape R n m.weight m.inp m.out, m.weight⟩, ?_, rfl, rfl,
    ?_, ?_⟩, ?_, ?_⟩
  · simp only [passMem, hpass]
  · intro p hp
    exact untiledPass_frame shape R n m.weight m.inp m.out p hp
  · intro i j h1 h2 _ _ hhalo
    exact untiledPass_halo shape R n m.weight m.inp m.out i j h1 h2 hhalo
  · intro p hp
    exact untiledPass_frame shape R n m.weight m.inp m.out p hp
  · refine ⟨_, tiledPass_eq fuel shape R n t m.weight m.inp m.out ht hfuel, ?_⟩
    intro p hp
    exact untiledPass_frame shape R n m.weight m.inp m.out p hp

theorem pass_frame_witness :
    ((1 : Int) ≤ 2 ∧ (7 : Int) - 2 * 1 ≤ ((5 : Nat) : Int)) ∧
    ∃ m1, passMem 5 Shape.star 1 7 2
        ⟨⟨fun p => (p : ℚ) * (p : ℚ)⟩, ⟨fun p => (p : ℚ)⟩, buildWeights Shape.star 1
          (fun _ _ => 7)⟩ = some m1 ∧
      m1.inp = (⟨fun p => (p : ℚ) * (p : ℚ)⟩ : Grid) ∧
      m1.weight = buildWeights Shape.star 1 (fun _ _ => 7) ∧
      (∀ p : Int, ¬ (1 ≤ p % 7 ∧ p % 7 < 7 - 1 ∧ 1 ≤ p / 7 ∧ p / 7 < 7 - 1) →
        m1.out.cell p = (⟨fun p => (p : ℚ)⟩ : Grid).cell p) ∧
      (∀ i j : Int, 0 ≤ i → i < 7 → 0 ≤ j → j < 7 →
        ¬ (1 ≤ i ∧ i < 7 - 1 ∧ 1 ≤ j ∧ j < 7 - 1) →
        m1.out.cell (idx 7 i j) = (⟨fun p => (p : ℚ)⟩ : Grid).cell (idx 7 i j)) :=
  ⟨by decide,
    (pass_frame 5 Shape.star 1 7 2
      ⟨⟨fun p => (p : ℚ) * (p : ℚ)⟩, ⟨fun p => (p : ℚ)⟩, buildWeights Shape.star 1
        (fun _ _ => 7)⟩ (by decide) (by decide)).1⟩

/-! ## Timing: claims -/

/-- C12: with the elapsed times `t 0, ..., t (k-1)` of the `k = iterations >= 1` rounds as
given numbers in `[0, 366*24*3600]`, in exact arithmetic: the reported average is the
accumulated sum divided by `max(k-1, 1)`; when `k = 1` the minimum, maximum and average all
equal `t 0`; when `k >= 2` they are the minimum, the maximum and the arithmetic mean of
`t 1, ..., t (k-1)`, round 0 being excluded. -/
theorem timing_statistics (iterations : Int) (t : Int → ℚ) (hk : 1 ≤ iterations)
    (ht : ∀ i : Int, 0 ≤ i → i < iterations → 0 ≤ t i ∧ t i ≤ 366 * 24 * 3600) :
    (MAXi (iterations - 1) 1 = max (iterations - 1) 1 ∧
      reportedAvg iterations t =
        (timingLoop iterations t).avgtime / ((max (iterations - 1) 1 : Int) : ℚ)) ∧
    (iterations = 1 →
      (timingLoop iterations t).mintime = t 0 ∧ (timingLoop iterations t).maxtime = t 0 ∧
      reportedAvg iterations t = t 0) ∧
    (2 ≤ iterations →
      IsLeast {x : ℚ | ∃ i : Int, 1 ≤ i ∧ i < iterations ∧ x = t i}
        (timingLoop iterations t).mintime ∧
      IsGreatest {x : ℚ | ∃ i : Int, 1 ≤ i ∧ i < iterations ∧ x = t i}
        (timingLoop iterations t).maxtime ∧
      (timingLoop iterations t).avgtime = ∑ i ∈ Finset.Ico 1 iterations, t i ∧
      reportedAvg iterations t =
        (∑ i ∈ Finset.Ico 1 iterations, t i) / ((iterations - 1 : Int) : ℚ)) := by
  have hmax : MAXi (iterations - 1) 1 = max (iterations - 1) 1 := by
    unfold MAXi
    split_ifs <;> omega
  refine ⟨⟨hmax, ?_⟩, ?_, ?_⟩
  · unfold reportedAvg
    rw [hmax]
  · intro h1
    subst h1
    have hb := ht 0 le_rfl (by omega)
    obtain ⟨e1, e2, e3⟩ := timingLoop_one t hb.1 hb.2
    refine ⟨e3, e2, ?_⟩
    unfold reportedAvg
    rw [e1]
    have : MAXi (1 - 1) 1 = 1 := by decide
    rw [this]
    simp
  · intro h2
    obtain ⟨e1, e2, ⟨imax, h3, h4, h5⟩, ⟨imin, h6, h7, h8⟩⟩ := timingLoop_inv iterations t h2 ht
    refine ⟨⟨⟨imin, h6, h7, h8⟩, ?_⟩, ⟨⟨imax, h3, h4, h5⟩, ?_⟩, e1, ?_⟩
    · rintro x ⟨i, hi1, hi2, rfl⟩
      exact (e2 i hi1 hi2).2
    · rintro x ⟨i, hi1, hi2, rfl⟩
      exact (e2 i hi1 hi2).1
    · unfold reportedAvg
      rw [e1]
      have : MAXi (iterations - 1) 1 = iterations - 1 := by
        unfold MAXi
        split_ifs <;> omega
      rw [this]

theorem timing_statistics_witness :
    ((1 : Int) ≤ 3 ∧
      ∀ i : Int, 0 ≤ i → i < 3 →
        0 ≤ (fun k : Int => ((k : ℚ) - 1) * ((k : ℚ) - 1)) i ∧
          (fun k : Int => ((k : ℚ) - 1) * ((k : ℚ) - 1)) i ≤ 366 * 24 * 3600) ∧
    ((2 : Int) ≤ 3 →
      IsLeast {x : ℚ | ∃ i : Int, 1 ≤ i ∧ i < 3 ∧
          x = (fun k : Int => ((k : ℚ) - 1) * ((k : ℚ) - 1)) i}
        (timingLoop 3 (fun k : Int => ((k : ℚ) - 1) * ((k : ℚ) - 1))).mintime ∧
      IsGreatest {x : ℚ | ∃ i : Int, 1 ≤ i ∧ i < 3 ∧
          x = (fun k : Int => ((k : ℚ) - 1) * ((k : ℚ) - 1)) i}
        (timingLoop 3 (fun k : Int => ((k : ℚ) - 1) * ((k : ℚ) - 1))).maxtime ∧
      (timingLoop 3 (fun k : Int => ((k : ℚ) - 1) * ((k : ℚ) - 1))).avgtime =
        ∑ i ∈ Finset.Ico (1 : Int) 3, (fun k : Int => ((k : ℚ) - 1) * ((k : ℚ) - 1)) i ∧
      reportedAvg 3 (fun k : Int => ((k : ℚ) - 1) * ((k : ℚ) - 1)) =
        (∑ i ∈ Finset.Ico (1 : Int) 3, (fun k : Int => ((k : ℚ) - 1) * ((k : ℚ) - 1)) i) /
          (((3 : Int) - 1 : Int) : ℚ)) :=
  have hrange : ∀ i : Int, 0 ≤ i → i < 3 →
      0 ≤ (fun k : Int => ((k : ℚ) - 1) * ((k : ℚ) - 1)) i ∧
        (fun k : Int => ((k : ℚ) - 1) * ((k : ℚ) - 1)) i ≤ 366 * 24 * 3600 := by
    intro i h0 h3
    have h : i = 0 ∨ i = 1 ∨ i = 2 := by omega
    rcases h with h | h | h <;> subst h <;> norm_num
  ⟨⟨by decide, hrange⟩,
    (timing_statistics 3 (fun k : Int => ((k : ℚ) - 1) * ((k : ℚ) - 1)) (by decide)
      hrange).2.2⟩

end Stencil

namespace P2P

open Stencil

/-! ## The serial pipeline: lemmas -/

theorem flat_inj (m a b i j : Int) (ha0 : 0 ≤ a) (ha1 : a < m) (hi0 : 0 ≤ i) (hi1 : i < m) :
    a + b * m = i + j * m ↔ (a = i ∧ b = j) := by
  constructor
  · intro h
    have h1 := (idx_decode m a b (a + b * m) ha0 ha1).1 rfl
    have h2 := (idx_decode m i j (a + b * m) hi0 hi1).1 h
    exact ⟨h1.1.symm.trans h2.1, h1.2.symm.trans h2.2⟩
  · rintro ⟨h1, h2⟩
    rw [h1, h2]

theorem ARRAY_setARRAY (m : Int) (v : Grid) (a b i j : Int) (x : ℚ)
    (ha0 : 0 ≤ a) (ha1 : a < m) (hi0 : 0 ≤ i) (hi1 : i < m) :
    ARRAY m (setARRAY m v i j x) a b = if a = i ∧ b = j then x else ARRAY m v a b := by
  unfold ARRAY setARRAY
  rw [setAt_cell]
  by_cases h : a = i ∧ b = j
  · rw [if_pos h, if_pos ((flat_inj m a b i j ha0 ha1 hi0 hi1).2 h)]
  · rw [if_neg h, if_neg (fun e => h ((flat_inj m a b i j ha0 ha1 hi0 hi1).1 e))]

theorem sweptValue_step (c : ℚ) (i j : Int) (hi : 1 ≤ i) (hj : 1 ≤ j) :
    sweptValue c (i - 1) j + sweptValue c i (j - 1) - sweptValue c (i - 1) (j - 1) =
      sweptValue c i j := by
  have hi0 : ¬ i = 0 := by omega
  have hj0 : ¬ j = 0 := by omega
  unfold sweptValue
  by_cases h1 : i - 1 = 0 <;> by_cases h2 : j - 1 = 0 <;>
    simp only [h1, h2, hi0, hj0, and_self, and_false, false_and, or_self, or_false, false_or,
      true_and, and_true, true_or, or_true, if_true, if_false] <;>
    push_cast <;> ring

theorem sweptValue_boundary (c c1 : ℚ) (a b : Int) (h : a = 0 ∨ b = 0) (h0 : ¬ (a = 0 ∧ b = 0)) :
    sweptValue c1 a b = sweptValue c a b := by
  unfold sweptValue
  rw [if_neg h0, if_neg h0, if_pos h, if_pos h]

/-- One row of the sweep. -/
theorem sweep_row (m n : Int) (c : ℚ) (j : Int) (v : Grid) (hm : 1 ≤ m) (hj : 1 ≤ j)
    (hjn : j < n) (h : Swept m n c (fun _ b => b < j) v) :
    Swept m n c (fun _ b => b < j + 1)
      (forLoop 1 m (fun i v =>
        setARRAY m v i j
          (ARRAY m v (i - 1) j + ARRAY m v i (j - 1) - ARRAY m v (i - 1) (j - 1))) v) := by
  have key := forLoop_inv (fun i v => Swept m n c (fun a b => b < j ∨ (b = j ∧ a < i)) v) 1 m
    (fun i v => setARRAY m v i j
      (ARRAY m v (i - 1) j + ARRAY m v i (j - 1) - ARRAY m v (i - 1) (j - 1))) v hm ?_ ?_
  · intro a b ha0 ha1 hb0 hb1 hd
    refine key a b ha0 ha1 hb0 hb1 ?_
    rcases hd with hd | hd | hd
    · exact Or.inl hd
    · exact Or.inr (Or.inl hd)
    · refine Or.inr (Or.inr ?_)
      omega
  · intro a b ha0 ha1 hb0 hb1 hd
    refine h a b ha0 ha1 hb0 hb1 ?_
    rcases hd with hd | hd | hd
    · exact Or.inl hd
    · exact Or.inr (Or.inl hd)
    · rcases hd with hd | ⟨_, hd⟩
      · exact Or.inr (Or.inr hd)
      · exact Or.inl (by omega)
  · intro i t hi1 hi2 ht
    beta_reduce
    intro a b ha0 ha1 hb0 hb1 hd
    rw [ARRAY_setARRAY m t a b i j _ ha0 ha1 (by omega) hi2]
    by_cases hab : a = i ∧ b = j
    · rw [if_pos hab, hab.1, hab.2]
      rw [ht (i - 1) j (by omega) (by omega) (by omega) hjn (Or.inr (Or.inr (Or.inr ⟨rfl, by omega⟩))),
        ht i (j - 1) (by omega) hi2 (by omega) (by omega) (Or.inr (Or.inr (Or.inl (by omega)))),
        ht (i - 1) (j - 1) (by omega) (by omega) (by omega) (by omega)
          (Or.inr (Or.inr (Or.inl (by omega))))]
      exact sweptValue_step c i j hi1 hj
    · rw [if_neg hab]
      refine ht a b ha0 ha1 hb0 hb1 ?_
      rcases hd with hd | hd | hd
      · exact Or.inl hd
      · exact Or.inr (Or.inl hd)
      · rcases hd with hd | ⟨hd1, hd2⟩
        · exact Or.inr (Or.inr (Or.inl hd))
        · refine Or.inr (Or.inr (Or.inr ⟨hd1, ?_⟩))
          have : ¬ a = i := fun e => hab ⟨e, hd1⟩
          omega

/-- A whole sweep: every cell of the grid holds its expected value. -/
theorem sweep_spec (m n : Int) (c : ℚ) (v : Grid) (hm : 1 ≤ m) (hn : 1 ≤ n)
    (h : Swept m n c (fun _ _ => False) v) :
    Swept m n c (fun _ _ => True) (sweep m n v) := by
  have key := forLoop_inv (fun j v => Swept m n c (fun _ b => b < j) v) 1 n
    (fun j v => forLoop 1 m (fun i v =>
      setARRAY m v i j
        (ARRAY m v (i - 1) j + ARRAY m v i (j - 1) - ARRAY m v (i - 1) (j - 1))) v) v hn ?_ ?_
  · intro a b ha0 ha1 hb0 hb1 _
    exact key a b ha0 ha1 hb0 hb1 (Or.inr (Or.inr hb1))
  · intro a b ha0 ha1 hb0 hb1 hd
    refine h a b ha0 ha1 hb0 hb1 ?_
    rcases hd with hd | hd | hd
    · exact Or.inl hd
    · exact Or.inr (Or.inl hd)
    · exact Or.inr (Or.inl (by omega))
  · intro j t hj1 hj2 ht
    exact sweep_row m n c j t hm hj1 hj2 ht

/-- One iteration on a grid with at least two rows and columns: the corner receives
`m+n-2-c`, and `ARRAY(0,0)` its negation. -/
theorem pipelineRound_spec (m n : Int) (c : ℚ) (v : Grid) (hm : 2 ≤ m) (hn : 2 ≤ n)
    (h : Swept m n c (fun _ _ => False) v) :
    Swept m n (c - ((m : ℚ) + (n : ℚ) - 2)) (fun _ _ => False) (pipelineRound m n v) ∧
      ARRAY m (pipelineRound m n v) (m - 1) (n - 1) = (m : ℚ) + (n : ℚ) - 2 - c := by
  have hs := sweep_spec m n c v (by omega) (by omega) h
  have hc : ARRAY m (sweep m n v) (m - 1) (n - 1) = (m : ℚ) + (n : ℚ) - 2 - c := by
    rw [hs (m - 1) (n - 1) (by omega) (by omega) (by omega) (by omega) (Or.inr (Or.inr trivial))]
    unfold sweptValue
    rw [if_neg (by omega), if_neg (by omega)]
    push_cast
    ring
  unfold pipelineRound
  refine ⟨?_, ?_⟩
  · intro a b ha0 ha1 hb0 hb1 hd
    rw [ARRAY_setARRAY m _ a b 0 0 _ ha0 ha1 le_rfl (by omega)]
    by_cases hab : a = 0 ∧ b = 0
    · rw [if_pos hab, hc]
      unfold sweptValue
      rw [if_pos hab]
      ring
    · rw [if_neg hab]
      have hb : a = 0 ∨ b = 0 := by
        rcases hd with hd | hd | hd
        · exact Or.inl hd
        · exact Or.inr hd
        · exact hd.elim
      rw [hs a b ha0 ha1 hb0 hb1 (Or.inr (Or.inr trivial))]
      exact (sweptValue_boundary c _ a b hb hab).symm
  · rw [ARRAY_setARRAY m _ (m - 1) (n - 1) 0 0 _ (by omega) (by omega) le_rfl (by omega)]
    rw [if_neg (by omega)]
    exact hc

/-- The boundary values after the two boundary loops. -/
theorem setBoundary_spec (m n : Int) (v : Grid) (hm : 1 ≤ m) (hn : 1 ≤ n) :
    Swept m n 0 (fun _ _ => False) (setBoundary m n v) := by
  have h1 := forLoop_inv
    (fun j v => ∀ b, 0 ≤ b → b < j → ARRAY m v 0 b = (b : ℚ)) 0 n
    (fun j v => setARRAY m v 0 j (j : ℚ)) v (by omega) (fun b h1 h2 => by omega) ?_
  · have h2 := forLoop_inv
      (fun i v => (∀ b, 0 ≤ b → b < n → ARRAY m v 0 b = (b : ℚ)) ∧
        (∀ a, 0 ≤ a → a < i → ARRAY m v a 0 = (a : ℚ))) 0 m
      (fun i v => setARRAY m v i 0 (i : ℚ))
      (forLoop 0 n (fun j v => setARRAY m v 0 j (j : ℚ)) v) (by omega)
      ⟨h1, fun a h1 h2 => by omega⟩ ?_
    · intro a b ha0 ha1 hb0 hb1 hd
      unfold setBoundary
      have hval : sweptValue 0 a b = (a : ℚ) + (b : ℚ) := by
        unfold sweptValue
        by_cases hab : a = 0 ∧ b = 0
        · rw [if_pos hab, hab.1, hab.2]
          norm_num
        · rw [if_neg hab]
          split_ifs
          · rfl
          · ring
      rw [hval]
      rcases hd with hd | hd | hd
      · rw [hd, h2.1 b hb0 hb1]
        norm_num
      · rw [hd, h2.2 a ha0 ha1]
        norm_num
      · exact hd.elim
    · intro i t hi1 hi2 ht
      beta_reduce
      refine ⟨?_, ?_⟩
      · intro b hb0 hb1
        rw [ARRAY_setARRAY m t 0 b i 0 _ le_rfl (by omega) hi1 hi2]
        by_cases hab : 0 = i ∧ b = 0
        · rw [if_pos hab, ← hab.1, hab.2]
        · rw [if_neg hab]
          exact ht.1 b hb0 hb1
      · intro a ha0 ha1
        rw [ARRAY_setARRAY m t a 0 i 0 _ ha0 (by omega) hi1 hi2]
        by_cases hab : a = i ∧ (0 : Int) = 0
        · rw [if_pos hab, hab.1]
        · rw [if_neg hab]
          refine ht.2 a ha0 ?_
          have : ¬ a = i := fun e => hab ⟨e, rfl⟩
          omega
  · intro j t hj1 hj2 ht
    beta_reduce
    intro b hb0 hb1
    rw [ARRAY_setARRAY m t 0 b 0 j _ le_rfl (by omega) le_rfl (by omega)]
    by_cases hab : (0 : Int) = 0 ∧ b = j
    · rw [if_pos hab, hab.2]
    · rw [if_neg hab]
      refine ht b hb0 ?_
      have : ¬ b = j := fun e => hab ⟨rfl, e⟩
      omega

/-- On a grid with at least two rows and two columns the corner value after `iterations`
iterations is `iterations*(n+m-2)`. -/
theorem pipeline_corner (m n iterations : Int) (vector : Grid) (hm : 2 ≤ m) (hn : 2 ≤ n)
    (hk : 1 ≤ iterations) :
    cornerValue m n iterations vector = (iterations : ℚ) * ((n : ℚ) + (m : ℚ) - 2) := by
  have key := forLoop_inv
    (fun k v => Swept m n (-((k : ℚ) * ((n : ℚ) + (m : ℚ) - 2))) (fun _ _ => False) v ∧
      (1 ≤ k → ARRAY m v (m - 1) (n - 1) = (k : ℚ) * ((n : ℚ) + (m : ℚ) - 2))) 0 iterations
    (fun _ v => pipelineRound m n v) (setBoundary m n (clearArray m n vector)) (by omega)
    ?_ ?_
  · exact key.2 hk
  · refine ⟨?_, fun h => by omega⟩
    have := setBoundary_spec m n (clearArray m n vector) (by omega) (by omega)
    simpa using this
  · intro k t hk1 hk2 ht
    beta_reduce
    obtain ⟨h1, h2⟩ := pipelineRound_spec m n _ t hm hn ht.1
    refine ⟨?_, fun _ => ?_⟩
    · have e : -((k : ℚ) * ((n : ℚ) + (m : ℚ) - 2)) - ((m : ℚ) + (n : ℚ) - 2) =
          -(((k + 1 : Int) : ℚ) * ((n : ℚ) + (m : ℚ) - 2)) := by
        push_cast
        ring
      rw [← e]
      exact h1
    · rw [h2]
      push_cast
      ring

/-- With a single row index (`m = 1`) the sweep has no cell to update. -/
theorem sweep_one (n : Int) (v : Grid) : sweep 1 n v = v := by
  unfold sweep
  have h : ∀ (j : Int) (t : Grid), forLoop 1 1 (fun i v =>
      setARRAY 1 v i j
        (ARRAY 1 v (i - 1) j + ARRAY 1 v i (j - 1) - ARRAY 1 v (i - 1) (j - 1))) t = t :=
    fun j t => forLoop_empty 1 1 _ t le_rfl
  rcases le_or_lt 1 n with hn | hn
  · exact forLoop_inv (fun _ t => t = v) 1 n _ v hn rfl
      (fun j t _ _ ht => by rw [h j t]; exact ht)
  · exact forLoop_empty 1 n _ v (by omega)

/-- With `m = 1` and at least two columns the corner keeps its boundary value `n-1` through
every iteration. -/
theorem pipeline_corner_one (n iterations : Int) (vector : Grid) (hn : 2 ≤ n)
    (hk : 0 ≤ iterations) :
    cornerValue 1 n iterations vector = (n : ℚ) - 1 := by
  have key := forLoop_inv
    (fun _ v => ARRAY 1 v (1 - 1) (n - 1) = (n : ℚ) - 1) 0 iterations
    (fun _ v => pipelineRound 1 n v) (setBoundary 1 n (clearArray 1 n vector)) hk ?_ ?_
  · exact key
  · have := setBoundary_spec 1 n (clearArray 1 n vector) le_rfl (by omega) (1 - 1) (n - 1)
      (by omega) (by omega) (by omega) (by omega) (Or.inl (by omega))
    beta_reduce
    rw [this]
    unfold sweptValue
    rw [if_neg (by omega), if_pos (Or.inl (by omega))]
    push_cast
    ring
  · intro k t _ _ ht
    beta_reduce
    unfold pipelineRound
    rw [sweep_one, ARRAY_setARRAY 1 t (1 - 1) (n - 1) 0 0 _ (by omega) (by omega) le_rfl
      (by omega), if_neg (by omega)]
    exact ht

/-! ## The serial pipeline: claims -/

/-- C19: the statement that the corner value `ARRAY(m-1,n-1)` equals the verification value
`iterations*(n+m-2)` for every grid with `m ≥ 1`, `n ≥ 1` and every `iterations ≥ 1` fails
on the code: the input `iterations = 2`, `m = 1`, `n = 2` passes the input tests, the sweep
has no cell to update, and from every initial content of the array the corner value is 1
while the verification value is 2. -/
theorem pipeline_corner_mismatch (vector : Grid) :
    inputAccepted 1000000 2 1 2 = true ∧
    sweep 1 2 vector = vector ∧
    cornerValue 1 2 2 vector = 1 ∧
    corner_val 2 1 2 = 2 ∧
    cornerValue 1 2 2 vector ≠ corner_val 2 1 2 := by
  have h1 : cornerValue 1 2 2 vector = 1 := by
    rw [pipeline_corner_one 2 2 vector le_rfl (by decide)]
    norm_num
  have h2 : corner_val 2 1 2 = 2 := by
    have : wrapInt (2 * (2 + 1 - 2)) = 2 := by decide
    unfold corner_val
    rw [this]
    norm_num
  refine ⟨by decide, sweep_one 2 vector, h1, h2, ?_⟩
  rw [h1, h2]
  norm_num

end P2P
